import Mathlib

/-!
Verification development for the pipeline-visualisation engine ("flower").

The TypeScript sources are shallowly embedded below:
* JavaScript numbers are modelled as `JsNum` (an exact rational together with
  the special values `NaN`, `Infinity`, `-Infinity`); floating-point rounding
  is not modelled, so all numeric claims are settled over exact arithmetic.
* JavaScript `Map` objects (insertion-ordered, unique keys, `set` replaces the
  existing entry in place) are modelled as association lists with a
  first-match lookup and a replace-in-place `set`.
* Mutating loops are modelled as folds; code that mutates an object in place
  is modelled by rebuilding the map entry with the updated value.
-/

namespace Flower

/-! ## JavaScript numbers -/

/-- A JavaScript `number`, modelled exactly: a rational, or one of the special
values `NaN`, `Infinity`, `-Infinity`. -/
inductive JsNum where
  | fin (q : ℚ)
  | nan
  | inf
  | neginf
deriving DecidableEq, Repr

namespace JsNum

/-- JS addition (`a + b`): `NaN` propagates, `Infinity + (-Infinity) = NaN`. -/
def add : JsNum → JsNum → JsNum
  | fin a, fin b => fin (a + b)
  | nan, _ => nan
  | _, nan => nan
  | inf, neginf => nan
  | neginf, inf => nan
  | inf, _ => inf
  | _, inf => inf
  | neginf, _ => neginf
  | _, neginf => neginf

/-- JS negation. -/
def neg : JsNum → JsNum
  | fin a => fin (-a)
  | nan => nan
  | inf => neginf
  | neginf => inf

/-- JS subtraction (`a - b`). -/
def sub (a b : JsNum) : JsNum := add a (neg b)

/-- JS comparison `a >= 0` (false when `a` is `NaN`). -/
def ge0 : JsNum → Bool
  | fin a => decide (0 ≤ a)
  | nan => false
  | inf => true
  | neginf => false

/-- JS comparison `a > b` (false whenever either side is `NaN`). -/
def gt : JsNum → JsNum → Bool
  | fin a, fin b => decide (b < a)
  | nan, _ => false
  | _, nan => false
  | inf, inf => false
  | inf, _ => true
  | _, inf => false
  | neginf, neginf => false
  | neginf, fin _ => false
  | fin _, neginf => true

/-- JS division (`a / b`); `x / 0` is a signed infinity (ℚ has no `-0`),
`0 / 0` and `±Inf / ±Inf` are `NaN`. -/
def div : JsNum → JsNum → JsNum
  | nan, _ => nan
  | _, nan => nan
  | fin a, fin b =>
      if b = 0 then (if a = 0 then nan else if 0 < a then inf else neginf)
      else fin (a / b)
  | inf, fin b => if 0 ≤ b then inf else neginf
  | neginf, fin b => if 0 ≤ b then neginf else inf
  | fin _, inf => fin 0
  | fin _, neginf => fin 0
  | inf, inf => nan
  | inf, neginf => nan
  | neginf, inf => nan
  | neginf, neginf => nan

/-- JS multiplication (`a * b`). -/
def mul : JsNum → JsNum → JsNum
  | nan, _ => nan
  | _, nan => nan
  | fin a, fin b => fin (a * b)
  | inf, fin b => if b = 0 then nan else if 0 < b then inf else neginf
  | fin a, inf => if a = 0 then nan else if 0 < a then inf else neginf
  | neginf, fin b => if b = 0 then nan else if 0 < b then neginf else inf
  | fin a, neginf => if a = 0 then nan else if 0 < a then neginf else inf
  | inf, inf => inf
  | inf, neginf => neginf
  | neginf, inf => neginf
  | neginf, neginf => inf

/-- JS `Math.max` of two numbers (`NaN` absorbs). -/
def max2 : JsNum → JsNum → JsNum
  | nan, _ => nan
  | _, nan => nan
  | fin a, fin b => fin (max a b)
  | inf, _ => inf
  | _, inf => inf
  | neginf, b => b
  | a, neginf => a

end JsNum

/-! ## JS `Map` as an association list -/

/-- Insertion-ordered map: the JS `Map.get` / record-field lookup
(first match; maps built with `mapSet` keep keys unique). -/
def mapLookup {α : Type} (m : List (String × α)) (k : String) : Option α :=
  (m.find? (fun p => p.1 = k)).map (·.2)

/-- JS `Map.set` / record-field assignment: replace the existing entry in
place, otherwise append. -/
def mapSet {α : Type} (m : List (String × α)) (k : String) (v : α) : List (String × α) :=
  match m with
  | [] => [(k, v)]
  | (k', v') :: rest => if k' = k then (k', v) :: rest else (k', v') :: mapSet rest k v

/-- Lookup with a default (JS `map.get(k) ?? d` after a guaranteed insert). -/
def mapGetD {α : Type} (m : List (String × α)) (k : String) (d : α) : α :=
  (mapLookup m k).getD d

/-- How many entries of the map carry key `k`. -/
def countKey {α : Type} (k : String) (m : List (String × α)) : Nat :=
  (m.filter (fun p => p.1 = k)).length

theorem mapLookup_nil {α : Type} (k : String) : mapLookup ([] : List (String × α)) k = none := rfl

theorem mapLookup_cons {α : Type} (k k' : String) (v : α) (rest : List (String × α)) :
    mapLookup ((k', v) :: rest) k = if k' = k then some v else mapLookup rest k := by
  simp only [mapLookup, List.find?]
  by_cases h : k' = k
  · simp [h]
  · simp [h]

theorem mapLookup_mapSet {α : Type} (m : List (String × α)) (k k' : String) (v : α) :
    mapLookup (mapSet m k v) k' = if k = k' then some v else mapLookup m k' := by
  induction m with
  | nil =>
      by_cases h : k = k' <;> simp [mapSet, mapLookup_cons, h]
  | cons p rest ih =>
      obtain ⟨k₀, v₀⟩ := p
      simp only [mapSet]
      by_cases h₀ : k₀ = k
      · subst h₀
        simp only [if_pos rfl]
        by_cases h : k₀ = k' <;> simp [mapLookup_cons, h]
      · simp only [if_neg h₀, mapLookup_cons, ih]
        by_cases h : k = k'
        · subst h
          simp [h₀]
        · simp [h]

/-! ## Data model (src/types/index.ts and spec §3)

`ComponentMetrics` carries the counter/gauge fields plus the derived
per-second rate fields written by `attachRates`. -/

structure ComponentMetrics where
  received : Option JsNum := none
  sent : Option JsNum := none
  error : Option JsNum := none
  latencyNs : Option JsNum := none
  connectionUp : Option JsNum := none
  connectionFailed : Option JsNum := none
  connectionLost : Option JsNum := none
  batchSent : Option JsNum := none
  batchReceived : Option JsNum := none
  notFound : Option JsNum := none
  receivedRate : Option JsNum := none
  sentRate : Option JsNum := none
  errorRate : Option JsNum := none
deriving DecidableEq, Repr

/-- Parsed Prometheus metric sample (`MetricSample` in src/types/index.ts). -/
structure MetricSample where
  name : String
  labels : List (String × String)
  value : JsNum
deriving DecidableEq, Repr

/-- One history point, with the fields pushed by `appendHistory`. -/
structure MetricsTimePoint where
  timestamp : ℚ
  received : Option JsNum := none
  sent : Option JsNum := none
  error : Option JsNum := none
  latencyNs : Option JsNum := none
  receivedRate : Option JsNum := none
  sentRate : Option JsNum := none
  errorRate : Option JsNum := none
deriving DecidableEq, Repr

/-! ## SampleParser (src/utils/metricsParser.ts, `parsePrometheusText`)

The data-line regex
`^([a-zA-Z_:][a-zA-Z0-9_:]*)(?:\x7b([^\x7d]*)\x7d)?\s+(-?[\d.eE+-]+(?:NaN|Inf|\+Inf|-Inf)?)$`
is embedded as a deterministic splitter.  Determinism is justified because the
character classes of adjacent regex pieces are disjoint: a name character is
never `\x7b` or whitespace, the brace content class excludes `\x7d` (so it stops at
the first closing brace), whitespace is not a value character, and the
value alternation is anchored at the end of the line. -/

/-- `[a-zA-Z_:]` — the leading character class of a metric name. -/
def isNameStartChar (c : Char) : Bool := c.isAlpha || c = '_' || c = ':'

/-- `[a-zA-Z0-9_:]` — subsequent metric-name characters. -/
def isNameChar (c : Char) : Bool := isNameStartChar c || c.isDigit

/-- `[\d.eE+-]` — the numeric-value character class of the data-line regex. -/
def isValueChar (c : Char) : Bool :=
  c.isDigit || c = '.' || c = 'e' || c = 'E' || c = '+' || c = '-'

/-- JS `\s` for the characters that can actually occur in a line
(ASCII whitespace; the exotic unicode spaces are not modelled). -/
def isWsChar (c : Char) : Bool :=
  c = ' ' || c = '\t' || c = '\r' || c = '\n' || c = '\x0b' || c = '\x0c'

/-- `String.prototype.trim`: drop whitespace at both ends. -/
def jsTrim (cs : List Char) : List Char :=
  ((cs.dropWhile isWsChar).reverse.dropWhile isWsChar).reverse

/-- `text.split('\n')`. -/
def splitLines : List Char → List (List Char)
  | [] => [[]]
  | '\n' :: r => [] :: splitLines r
  | c :: r =>
      match splitLines r with
      | [] => [[c]]
      | l :: ls => (c :: l) :: ls

/-- A nonempty run of `[\d.eE+-]` characters. -/
def valueCore (cs : List Char) : Bool := !cs.isEmpty && cs.all isValueChar

/-- Whether a string matches the anchored value part
`-?[\d.eE+-]+(?:NaN|Inf|\+Inf|-Inf)?` of the data-line regex.
The optional leading `-?` and the `\+Inf` / `-Inf` alternatives are subsumed
because `+` and `-` belong to the `[\d.eE+-]` class, so a match is exactly a
nonempty run of value characters, optionally followed by the literal
`NaN` or `Inf`. -/
def matchValueToken (cs : List Char) : Bool :=
  valueCore cs ||
  (match cs.reverse with
   | 'N' :: 'a' :: 'N' :: rest => valueCore rest.reverse
   | _ => false) ||
  (match cs.reverse with
   | 'f' :: 'n' :: 'I' :: rest => valueCore rest.reverse
   | _ => false)

/-- Split the characters after `\x7b` into the brace content (`[^\x7d]*`, i.e. up
to the first `\x7d`) and the remainder after the closing brace; `none` when the
brace is never closed (the regex then fails on the whole line). -/
def splitBrace : List Char → Option (List Char × List Char)
  | [] => none
  | c :: r =>
      if c = '}' then some ([], r)
      else (splitBrace r).map (fun p => (c :: p.1, p.2))

/-- Match one trimmed data line against the regex, returning
(metric name, label-block content, value token). -/
def matchDataLine (cs : List Char) : Option (List Char × List Char × List Char) :=
  match cs with
  | [] => none
  | c₀ :: _ =>
      if isNameStartChar c₀ then
        let name := cs.takeWhile isNameChar
        let afterName := cs.dropWhile isNameChar
        let braced : Option (List Char × List Char) :=
          match afterName with
          | '{' :: r => splitBrace r
          | _ => some ([], afterName)
        match braced with
        | none => none
        | some (labelsStr, rest) =>
            let ws := rest.takeWhile isWsChar
            let value := rest.dropWhile isWsChar
            if ws.isEmpty then none
            else if matchValueToken value then some (name, labelsStr, value)
            else none
      else none

/-- `[a-zA-Z_]` — leading character of a label key. -/
def isLabelKeyStart (c : Char) : Bool := c.isAlpha || c = '_'

/-- `[a-zA-Z0-9_]` — subsequent label-key characters. -/
def isLabelKeyChar (c : Char) : Bool := isLabelKeyStart c || c.isDigit

/-- `[^"\\]` — the label-value character class. -/
def isLabelValChar (c : Char) : Bool := c ≠ '"' && c ≠ '\\'

/-- Try to match `([a-zA-Z_][a-zA-Z0-9_]*)="([^"\\]*)"` at the current
position, returning the key, the value and the remaining characters. -/
def tryLabel (cs : List Char) : Option (String × String × List Char) :=
  match cs with
  | [] => none
  | c :: _ =>
      if isLabelKeyStart c then
        let key := cs.takeWhile isLabelKeyChar
        match cs.dropWhile isLabelKeyChar with
        | '=' :: '"' :: r =>
            let v := r.takeWhile isLabelValChar
            match r.dropWhile isLabelValChar with
            | '"' :: rest => some (String.mk key, String.mk v, rest)
            | _ => none
        | _ => none
      else none

theorem length_dropWhile_le {α : Type} (p : α → Bool) (l : List α) :
    (l.dropWhile p).length ≤ l.length :=
  (List.dropWhile_suffix p).length_le

theorem tryLabel_rest_length {cs : List Char} {k v : String} {rest : List Char}
    (h : tryLabel cs = some (k, v, rest)) : rest.length < cs.length := by
  unfold tryLabel at h
  match cs, h with
  | c :: t, h =>
    simp only at h
    split at h
    case isTrue =>
      have hd : ((c :: t).dropWhile isLabelKeyChar).length ≤ (c :: t).length :=
        length_dropWhile_le _ _
      split at h
      case h_1 r heq =>
        have hd2 : (r.dropWhile isLabelValChar).length ≤ r.length :=
          length_dropWhile_le _ _
        split at h
        case h_1 rest' heq2 =>
          simp only [Option.some.injEq, Prod.mk.injEq] at h
          obtain ⟨-, -, hrest⟩ := h
          subst hrest
          rw [heq] at hd
          rw [heq2] at hd2
          simp only [List.length_cons] at hd hd2 ⊢
          omega
        case h_2 => exact absurd h (by simp)
      case h_2 => exact absurd h (by simp)
    case isFalse => exact absurd h (by simp)

/-- The global `exec` loop over the label regex: find successive
non-overlapping matches left to right, each assigned into the labels record
(`labels[key] = value`, i.e. replace-or-append). -/
def scanLabels (cs : List Char) (acc : List (String × String)) : List (String × String) :=
  match h : tryLabel cs with
  | some (k, v, rest) => scanLabels rest (mapSet acc k v)
  | none =>
      match cs with
      | [] => acc
      | _ :: r => scanLabels r acc
termination_by cs.length
decreasing_by
  · exact tryLabel_rest_length h
  · simp

/-- Value of a digit run (`foldl`-style, most significant first). -/
def natDigitsVal (ds : List Char) : ℕ := ds.foldl (fun a c => a * 10 + (c.toNat - 48)) 0

/-- JS `parseFloat`: longest valid decimal-literal prefix, `NaN` when there is
none.  Handles an optional sign, the `Infinity` keyword, integer/fraction
digits and an exponent part (ignored when its digits are missing). -/
def jsParseFloat (cs0 : List Char) : JsNum :=
  let cs1 := cs0.dropWhile isWsChar
  let sgn : ℚ := match cs1 with
    | '-' :: _ => -1
    | _ => 1
  let cs := match cs1 with
    | '+' :: r => r
    | '-' :: r => r
    | _ => cs1
  if cs.take 8 = "Infinity".data then (if sgn = 1 then .inf else .neginf)
  else
    let intD := cs.takeWhile Char.isDigit
    let rest := cs.dropWhile Char.isDigit
    let fracPair : List Char × List Char :=
      match rest with
      | '.' :: r => (r.takeWhile Char.isDigit, r.dropWhile Char.isDigit)
      | _ => ([], rest)
    let fracD := fracPair.1
    let rest2 := fracPair.2
    if intD.isEmpty && fracD.isEmpty then .nan
    else
      let mantissa : ℚ :=
        sgn * ((natDigitsVal intD : ℚ) + (natDigitsVal fracD : ℚ) / (10 : ℚ) ^ fracD.length)
      let expVal : ℤ :=
        match rest2 with
        | 'e' :: r | 'E' :: r =>
            let esgn : ℤ := match r with
              | '-' :: _ => -1
              | _ => 1
            let r' : List Char := match r with
              | '+' :: rr => rr
              | '-' :: rr => rr
              | _ => r
            let eD := r'.takeWhile Char.isDigit
            if eD.isEmpty then 0 else esgn * (natDigitsVal eD : ℤ)
        | _ => 0
      .fin (mantissa * (10 : ℚ) ^ expVal)

/-- Process one line of exposition text (trim, skip blank/comment lines,
regex match, label extraction, `parseFloat`). -/
def parseLine (acc : List MetricSample) (line : List Char) : List MetricSample :=
  let t := jsTrim line
  if t.isEmpty then acc
  else if t.head? = some '#' then acc
  else
    match matchDataLine t with
    | none => acc
    | some (name, labelsStr, valueStr) =>
        acc ++ [{ name := String.mk name
                  labels := scanLabels labelsStr []
                  value := jsParseFloat valueStr }]

/-- `parsePrometheusText` (src/utils/metricsParser.ts). -/
def parsePrometheusText (text : String) : List MetricSample :=
  (splitLines text.data).foldl parseLine []

/-! ## MetricsAggregator (src/utils/metricsParser.ts, `groupMetricsByPath`) -/

/-- `accumulateMetric`: fold one sample into a `ComponentMetrics` bundle using
the fixed name→field table; unknown names leave the bundle unchanged. -/
def accumulateMetric (metrics : ComponentMetrics) (sample : MetricSample) : ComponentMetrics :=
  match sample.name with
  | "input_received" =>
      { metrics with received := some ((metrics.received.getD (.fin 0)).add sample.value) }
  | "processor_received" =>
      { metrics with received := some ((metrics.received.getD (.fin 0)).add sample.value) }
  | "processor_sent" =>
      { metrics with sent := some ((metrics.sent.getD (.fin 0)).add sample.value) }
  | "output_sent" =>
      { metrics with sent := some ((metrics.sent.getD (.fin 0)).add sample.value) }
  | "processor_error" =>
      { metrics with error := some ((metrics.error.getD (.fin 0)).add sample.value) }
  | "output_error" =>
      { metrics with error := some ((metrics.error.getD (.fin 0)).add sample.value) }
  | "input_latency_ns" | "processor_latency_ns" | "output_latency_ns" | "cache_latency_ns" =>
      -- `labels['quantile'] === '0.99' || !labels['quantile']` (absent and "" are falsy)
      if (match mapLookup sample.labels "quantile" with
          | some q => q = "0.99" || q = ""
          | none => true) then
        { metrics with latencyNs := some sample.value }
      else metrics
  | "input_connection_up" | "output_connection_up" =>
      { metrics with connectionUp := some sample.value }
  | "input_connection_failed" | "output_connection_failed" =>
      { metrics with connectionFailed := some ((metrics.connectionFailed.getD (.fin 0)).add sample.value) }
  | "input_connection_lost" | "output_connection_lost" =>
      { metrics with connectionLost := some ((metrics.connectionLost.getD (.fin 0)).add sample.value) }
  | "processor_batch_sent" | "output_batch_sent" =>
      { metrics with batchSent := some ((metrics.batchSent.getD (.fin 0)).add sample.value) }
  | "processor_batch_received" =>
      { metrics with batchReceived := some ((metrics.batchReceived.getD (.fin 0)).add sample.value) }
  | "cache_not_found" =>
      { metrics with notFound := some ((metrics.notFound.getD (.fin 0)).add sample.value) }
  | "cache_sent" =>
      { metrics with sent := some ((metrics.sent.getD (.fin 0)).add sample.value) }
  | "cache_error" =>
      { metrics with error := some ((metrics.error.getD (.fin 0)).add sample.value) }
  | _ => metrics

/-- The result of `groupMetricsByPath`: the two correlation-key maps. -/
structure MetricsResult where
  byPath : List (String × ComponentMetrics)
  byLabel : List (String × ComponentMetrics)
deriving DecidableEq, Repr

/-- Processing of one sample inside `groupMetricsByPath`: read the `path` and
`label` tags (truthy strings only), ensure an entry exists in each targeted
map, and accumulate into it. -/
def groupStep (res : MetricsResult) (sample : MetricSample) : MetricsResult :=
  let upd := fun (m : List (String × ComponentMetrics)) (key : String) =>
    mapSet m key (accumulateMetric (mapGetD m key {}) sample)
  let res1 :=
    match mapLookup sample.labels "path" with
    | some p => if p ≠ "" then { res with byPath := upd res.byPath p } else res
    | none => res
  match mapLookup sample.labels "label" with
  | some l => if l ≠ "" then { res1 with byLabel := upd res1.byLabel l } else res1
  | none => res1

/-- `groupMetricsByPath` (src/utils/metricsParser.ts). -/
def groupMetricsByPath (samples : List MetricSample) : MetricsResult :=
  samples.foldl groupStep { byPath := [], byLabel := [] }

/-! ## RateComputer (src/hooks/useBenthosMetrics.ts, `attachRates`) -/

/-- The per-entry update of `attachRates`: for each of `received`/`sent`/
`error`, when both the current and previous value are defined the rate field
is assigned `delta / dtSec` when `delta >= 0` and `undefined` otherwise;
when either side is undefined the rate field is left untouched. -/
def attachRatesOne (cur old : ComponentMetrics) (dtSec : ℚ) : ComponentMetrics :=
  let rr := match cur.received, old.received with
    | some c, some o =>
        let delta := c.sub o
        if delta.ge0 then some (delta.div (.fin dtSec)) else none
    | _, _ => cur.receivedRate
  let sr := match cur.sent, old.sent with
    | some c, some o =>
        let delta := c.sub o
        if delta.ge0 then some (delta.div (.fin dtSec)) else none
    | _, _ => cur.sentRate
  let er := match cur.error, old.error with
    | some c, some o =>
        let delta := c.sub o
        if delta.ge0 then some (delta.div (.fin dtSec)) else none
    | _, _ => cur.errorRate
  { cur with receivedRate := rr, sentRate := sr, errorRate := er }

/-- `attachRates`: iterate over the current map; entries whose key is missing
from the previous snapshot, or any entry when `dtSec <= 0`, are skipped. -/
def attachRates (current prev : List (String × ComponentMetrics)) (dtSec : ℚ) :
    List (String × ComponentMetrics) :=
  current.map (fun p =>
    match mapLookup prev p.1 with
    | none => p
    | some old => if dtSec ≤ 0 then p else (p.1, attachRatesOne p.2 old dtSec))

/-! ## HistoryStore (src/hooks/useBenthosMetrics.ts, `appendHistory`) -/

/-- Maximum number of historical data points per component. -/
def MAX_HISTORY_POINTS : ℕ := 120

/-- Rolling history per correlation key. -/
structure MetricsHistory where
  byPath : List (String × List MetricsTimePoint)
  byLabel : List (String × List MetricsTimePoint)
deriving DecidableEq, Repr

/-- The `MetricsTimePoint` pushed by `appendHistory`. -/
def mkTimePoint (timestamp : ℚ) (m : ComponentMetrics) : MetricsTimePoint :=
  { timestamp := timestamp
    received := m.received
    sent := m.sent
    error := m.error
    latencyNs := m.latencyNs
    receivedRate := m.receivedRate
    sentRate := m.sentRate
    errorRate := m.errorRate }

/-- `arr.push(p)` followed by `if (arr.length > bound) arr.splice(0, arr.length - bound)`. -/
def pushTrim {α : Type} (bound : ℕ) (arr : List α) (p : α) : List α :=
  let a := arr ++ [p]
  if bound < a.length then a.drop (a.length - bound) else a

/-- `appendHistory` restricted to one of the two key maps. -/
def appendHistoryMap (hist : List (String × List MetricsTimePoint))
    (metricsMap : List (String × ComponentMetrics)) (timestamp : ℚ) :
    List (String × List MetricsTimePoint) :=
  metricsMap.foldl
    (fun h p =>
      mapSet h p.1 (pushTrim MAX_HISTORY_POINTS (mapGetD h p.1 []) (mkTimePoint timestamp p.2)))
    hist

/-! ## The polling hook (src/hooks/useBenthosMetrics.ts, `useBenthosMetrics`)

The hook keeps two refs — the previous `Snapshot` (rate baseline) and the
rolling `MetricsHistory` — which survive re-renders and, in particular,
survive a change of the monitored target. -/

/-- The rate baseline stored by the hook. -/
structure Snapshot where
  time : ℚ
  byPath : List (String × ComponentMetrics)
  byLabel : List (String × ComponentMetrics)
deriving DecidableEq, Repr

/-- The mutable state held in the hook's refs. -/
structure HookState where
  prevSnapshot : Option Snapshot
  history : MetricsHistory
deriving DecidableEq, Repr

def initialHookState : HookState :=
  { prevSnapshot := none, history := { byPath := [], byLabel := [] } }

/-- `cloneMetricsMap`: field-level clone of every bundle; aliasing is
immaterial in the pure model, so the clone is the map itself. -/
def cloneMetricsMap (m : List (String × ComponentMetrics)) :
    List (String × ComponentMetrics) := m

/-- One poll cycle of the hook's `queryFn`, starting after
`groupMetricsByPath`: attach rates against the previous snapshot when it
exists with positive stored time, store the cloned result as the new
baseline, and append both maps to the history. -/
def pollStep (st : HookState) (now : ℚ)
    (byPath byLabel : List (String × ComponentMetrics)) : HookState × MetricsResult :=
  let rated : MetricsResult :=
    match st.prevSnapshot with
    | some prev =>
        if 0 < prev.time then
          let dtSec := (now - prev.time) / 1000
          { byPath := attachRates byPath prev.byPath dtSec
            byLabel := attachRates byLabel prev.byLabel dtSec }
        else { byPath := byPath, byLabel := byLabel }
    | none => { byPath := byPath, byLabel := byLabel }
  let newPrev : Snapshot :=
    { time := now
      byPath := cloneMetricsMap rated.byPath
      byLabel := cloneMetricsMap rated.byLabel }
  let hist :=
    { byPath := appendHistoryMap st.history.byPath rated.byPath now
      byLabel := appendHistoryMap st.history.byLabel rated.byLabel now }
  ({ prevSnapshot := some newPrev, history := hist }, rated)

/-- `resetHistory`: clears both history maps and the baseline.  It is defined
by the hook but never invoked when the monitored target changes. -/
def resetHistory (_st : HookState) : HookState := initialHookState

/-- `App.handleTargetSelect`: selecting a target sets the selected-target and
selected-node UI state only; it does not call `resetHistory`, and nothing
else clears the hook's refs, so the hook state carries over unchanged. -/
def handleTargetSelect (st : HookState) : HookState := st

/-! ## Whole-process runtime history (src/hooks/useRuntimeMetrics.ts) -/

/-- `RuntimeSnapshot` of `useRuntimeMetrics`. -/
structure RuntimeSnapshot where
  timestamp : ℚ
  goroutines : JsNum := .fin 0
  heapBytes : JsNum := .fin 0
  heapInuseBytes : JsNum := .fin 0
  stackBytes : JsNum := .fin 0
  sysBytes : JsNum := .fin 0
  cpuSecondsTotal : JsNum := .fin 0
  gcDurationP50 : JsNum := .fin 0
  gcDurationP99 : JsNum := .fin 0
  gcCount : JsNum := .fin 0
  residentMemoryBytes : JsNum := .fin 0
  openFds : JsNum := .fin 0
  goVersion : String := ""
deriving DecidableEq, Repr

/-- Maximum number of runtime snapshots kept. -/
def MAX_HISTORY : ℕ := 100

/-- The push/trim step of `buildSnapshot`: `history.push(snap)` and
`if (history.length > MAX_HISTORY) history.splice(0, history.length - MAX_HISTORY)`. -/
def runtimePush (history : List RuntimeSnapshot) (snap : RuntimeSnapshot) :
    List RuntimeSnapshot :=
  let h := history ++ [snap]
  if MAX_HISTORY < h.length then h.drop (h.length - MAX_HISTORY) else h

/-! ## ConfigGraphResolver (configToGraph source file)

The parsed YAML document is an untyped tree; `CVal` models the JS values it
can contain.  Field order of objects models JS string-key enumeration order
(insertion order). -/

/-- An untyped configuration value (result of `yaml.load`). -/
inductive CVal where
  | str (s : String)
  | num (q : ℚ)
  | boolean (b : Bool)
  | nullv
  | arr (items : List CVal)
  | obj (fields : List (String × CVal))
deriving Repr

mutual

def cvalDecEq : (a b : CVal) → Decidable (a = b)
  | .str a, .str b =>
      if h : a = b then isTrue (by rw [h]) else isFalse (fun hh => h (CVal.str.inj hh))
  | .num a, .num b =>
      if h : a = b then isTrue (by rw [h]) else isFalse (fun hh => h (CVal.num.inj hh))
  | .boolean a, .boolean b =>
      if h : a = b then isTrue (by rw [h]) else isFalse (fun hh => h (CVal.boolean.inj hh))
  | .nullv, .nullv => isTrue rfl
  | .arr a, .arr b =>
      match cvalListDecEq a b with
      | isTrue h => isTrue (by rw [h])
      | isFalse h => isFalse (fun hh => h (CVal.arr.inj hh))
  | .obj a, .obj b =>
      match cvalFieldsDecEq a b with
      | isTrue h => isTrue (by rw [h])
      | isFalse h => isFalse (fun hh => h (CVal.obj.inj hh))
  | .str _, .num _ => isFalse (fun h => CVal.noConfusion h)
  | .str _, .boolean _ => isFalse (fun h => CVal.noConfusion h)
  | .str _, .nullv => isFalse (fun h => CVal.noConfusion h)
  | .str _, .arr _ => isFalse (fun h => CVal.noConfusion h)
  | .str _, .obj _ => isFalse (fun h => CVal.noConfusion h)
  | .num _, .str _ => isFalse (fun h => CVal.noConfusion h)
  | .num _, .boolean _ => isFalse (fun h => CVal.noConfusion h)
  | .num _, .nullv => isFalse (fun h => CVal.noConfusion h)
  | .num _, .arr _ => isFalse (fun h => CVal.noConfusion h)
  | .num _, .obj _ => isFalse (fun h => CVal.noConfusion h)
  | .boolean _, .str _ => isFalse (fun h => CVal.noConfusion h)
  | .boolean _, .num _ => isFalse (fun h => CVal.noConfusion h)
  | .boolean _, .nullv => isFalse (fun h => CVal.noConfusion h)
  | .boolean _, .arr _ => isFalse (fun h => CVal.noConfusion h)
  | .boolean _, .obj _ => isFalse (fun h => CVal.noConfusion h)
  | .nullv, .str _ => isFalse (fun h => CVal.noConfusion h)
  | .nullv, .num _ => isFalse (fun h => CVal.noConfusion h)
  | .nullv, .boolean _ => isFalse (fun h => CVal.noConfusion h)
  | .nullv, .arr _ => isFalse (fun h => CVal.noConfusion h)
  | .nullv, .obj _ => isFalse (fun h => CVal.noConfusion h)
  | .arr _, .str _ => isFalse (fun h => CVal.noConfusion h)
  | .arr _, .num _ => isFalse (fun h => CVal.noConfusion h)
  | .arr _, .boolean _ => isFalse (fun h => CVal.noConfusion h)
  | .arr _, .nullv => isFalse (fun h => CVal.noConfusion h)
  | .arr _, .obj _ => isFalse (fun h => CVal.noConfusion h)
  | .obj _, .str _ => isFalse (fun h => CVal.noConfusion h)
  | .obj _, .num _ => isFalse (fun h => CVal.noConfusion h)
  | .obj _, .boolean _ => isFalse (fun h => CVal.noConfusion h)
  | .obj _, .nullv => isFalse (fun h => CVal.noConfusion h)
  | .obj _, .arr _ => isFalse (fun h => CVal.noConfusion h)

def cvalListDecEq : (a b : List CVal) → Decidable (a = b)
  | [], [] => isTrue rfl
  | [], _ :: _ => isFalse (fun h => List.noConfusion h)
  | _ :: _, [] => isFalse (fun h => List.noConfusion h)
  | v :: vs, w :: ws =>
      match cvalDecEq v w with
      | isFalse h1 => isFalse (fun hh => h1 (List.cons.inj hh).1)
      | isTrue h1 =>
          match cvalListDecEq vs ws with
          | isTrue h2 => isTrue (by rw [h1, h2])
          | isFalse h2 => isFalse (fun hh => h2 (List.cons.inj hh).2)

def cvalFieldsDecEq : (a b : List (String × CVal)) → Decidable (a = b)
  | [], [] => isTrue rfl
  | [], _ :: _ => isFalse (fun h => List.noConfusion h)
  | _ :: _, [] => isFalse (fun h => List.noConfusion h)
  | (k, v) :: vs, (k', w) :: ws =>
      if hk : k = k' then
        match cvalDecEq v w with
        | isFalse h1 => isFalse (fun hh => h1 (congrArg Prod.snd (List.cons.inj hh).1))
        | isTrue h1 =>
            match cvalFieldsDecEq vs ws with
            | isTrue h2 => isTrue (by rw [hk, h1, h2])
            | isFalse h2 => isFalse (fun hh => h2 (List.cons.inj hh).2)
      else isFalse (fun hh => hk (congrArg Prod.fst (List.cons.inj hh).1))

end

instance : DecidableEq CVal := cvalDecEq

/-- JS truthiness of a `CVal` (`undefined` is modelled as an absent `Option`). -/
def jsTruthy : CVal → Bool
  | .str s => s ≠ ""
  | .num q => q ≠ 0
  | .boolean b => b
  | .nullv => false
  | .arr _ => true
  | .obj _ => true

/-- JS property read `v[key]` for the (non-numeric) keys the resolver uses:
defined on objects, `undefined` elsewhere. -/
def jsIndex (v : CVal) (key : String) : Option CVal :=
  match v with
  | .obj fields => mapLookup fields key
  | _ => none

/-- `getComponentType`: the first key that is neither `label` nor
`processors`, else `"unknown"`.  For a non-empty array or string JS
`Object.keys` yields index keys, whose first is `"0"`; number/boolean/null
have no own enumerable keys (`null` would throw in JS, but every call site
guards with a truthiness check first). -/
def getComponentType (v : CVal) : String :=
  match v with
  | .obj fields =>
      match fields.find? (fun p => p.1 ≠ "label" && p.1 ≠ "processors") with
      | some p => p.1
      | none => "unknown"
  | .arr items => if items.isEmpty then "unknown" else "0"
  | .str s => if s.isEmpty then "unknown" else "0"
  | _ => "unknown"

/-- `getLabel`: the `label` field when it is a non-empty string, else the
component type. -/
def getLabel (v : CVal) : String :=
  match jsIndex v "label" with
  | some (.str s) => if s ≠ "" then s else getComponentType v
  | _ => getComponentType v

/-- `typeof x['label'] === 'string' ? x['label'] : undefined`. -/
def componentLabelOf (v : CVal) : Option CVal :=
  match jsIndex v "label" with
  | some (.str s) => some (.str s)
  | _ => none

/-- `(entry['label'] as string) || getComponentType(entry)` for resource
entries: the raw `label` value when truthy (it is used unconverted as the
Map key in `connectResources`), else the component type as a string. -/
def resourceLabelVal (cfg : CVal) : CVal :=
  match jsIndex cfg "label" with
  | some v => if jsTruthy v then v else .str (getComponentType cfg)
  | none => .str (getComponentType cfg)

/-- JS template-literal coercion of a value to a string, used only to build
resource metric paths.  Resource labels are strings in every claim; the
array/non-integer-number renderings are simplified placeholders. -/
def cvalToStr : CVal → String
  | .str s => s
  | .num q => if q.den = 1 then toString q.num else toString q
  | .boolean b => if b then "true" else "false"
  | .nullv => "null"
  | .arr _ => ""
  | .obj _ => "[object Object]"

inductive NodeType where
  | input
  | processor
  | output
  | cache
  | rate_limit
deriving DecidableEq, Repr

/-- `PipelineNode` (src/types/index.ts).  `label` / `componentLabel` keep the
raw JS value (a string for input/processor/output nodes; resource labels may
be any truthy value, later used unconverted as a Map key). -/
structure PipelineNode where
  id : String
  type : NodeType
  label : CVal
  componentType : String
  metricPath : String
  componentLabel : Option CVal
  config : CVal
deriving DecidableEq, Repr

/-- `PipelineEdge` (src/types/index.ts). -/
structure PipelineEdge where
  id : String
  source : String
  target : String
deriving DecidableEq, Repr

/-- `PipelineGraph` (src/types/index.ts). -/
structure PipelineGraph where
  nodes : List PipelineNode
  edges : List PipelineEdge
deriving DecidableEq, Repr

/-- The node synthesized for one broker child output. -/
def brokerChildNode (parentId basePath : String) (i : ℕ) (sub : CVal) : PipelineNode :=
  { id := s!"{parentId}-broker-{i}"
    type := NodeType.output
    label := .str (getLabel sub)
    componentType := getComponentType sub
    metricPath := s!"{basePath}.broker.outputs.{i}"
    componentLabel := componentLabelOf sub
    config := sub }

/-- The edge from the primary output node to one synthesized child. -/
def subOutputEdge (parentId subId : String) : PipelineEdge :=
  { id := s!"e-{parentId}-{subId}", source := parentId, target := subId }

/-- The `for` loop over `broker.outputs`. -/
def brokerLoop (parentId basePath : String) : List CVal → ℕ →
    List PipelineNode × List PipelineEdge
  | [], _ => ([], [])
  | sub :: rest, i =>
      let tail := brokerLoop parentId basePath rest (i + 1)
      (brokerChildNode parentId basePath i sub :: tail.1,
       subOutputEdge parentId s!"{parentId}-broker-{i}" :: tail.2)

/-- The node synthesized for one switch case output. -/
def switchChildNode (parentId basePath : String) (i : ℕ) (od : CVal) : PipelineNode :=
  { id := s!"{parentId}-switch-{i}"
    type := NodeType.output
    label := .str (getLabel od)
    componentType := getComponentType od
    metricPath := s!"{basePath}.switch.cases.{i}.output"
    componentLabel := componentLabelOf od
    config := od }

/-- The `for` loop over `switch.cases` (a case contributes only when its
`output` field is truthy). -/
def switchLoop (parentId basePath : String) : List CVal → ℕ →
    List PipelineNode × List PipelineEdge
  | [], _ => ([], [])
  | c :: rest, i =>
      let tail := switchLoop parentId basePath rest (i + 1)
      match jsIndex c "output" with
      | some od =>
          if jsTruthy od then
            (switchChildNode parentId basePath i od :: tail.1,
             subOutputEdge parentId s!"{parentId}-switch-{i}" :: tail.2)
          else tail
      | none => tail

/-- The node synthesized for one fan_out child output. -/
def fanoutChildNode (parentId basePath : String) (i : ℕ) (sub : CVal) : PipelineNode :=
  { id := s!"{parentId}-fanout-{i}"
    type := NodeType.output
    label := .str (getLabel sub)
    componentType := getComponentType sub
    metricPath := s!"{basePath}.fan_out.{i}"
    componentLabel := componentLabelOf sub
    config := sub }

/-- The `for` loop over a `fan_out` list. -/
def fanoutLoop (parentId basePath : String) : List CVal → ℕ →
    List PipelineNode × List PipelineEdge
  | [], _ => ([], [])
  | sub :: rest, i =>
      let tail := fanoutLoop parentId basePath rest (i + 1)
      (fanoutChildNode parentId basePath i sub :: tail.1,
       subOutputEdge parentId s!"{parentId}-fanout-{i}" :: tail.2)

/-- `extractSubOutputs`: expand `broker`/`switch`/`fan_out` one level (the
loops above visit only the direct children; children are never expanded).
The `typeof outputConfig === 'object'` guards collapse in the model: a
non-object value has no `outputs`/`cases` property and every such case
produces no nodes, exactly as the JS fall-through does. -/
def extractSubOutputs (output : CVal) (parentId basePath : String) :
    List PipelineNode × List PipelineEdge :=
  let outputType := getComponentType output
  let outputConfig := jsIndex output outputType
  if outputType = "broker" then
    match outputConfig.bind (fun v => jsIndex v "outputs") with
    | some (.arr outputs) => brokerLoop parentId basePath outputs 0
    | _ => ([], [])
  else if outputType = "switch" then
    match outputConfig.bind (fun v => jsIndex v "cases") with
    | some (.arr cases) => switchLoop parentId basePath cases 0
    | _ => ([], [])
  else if outputType = "fan_out" then
    match outputConfig with
    | some (.arr items) => fanoutLoop parentId basePath items 0
    | _ => ([], [])
  else ([], [])

/-- `pipeline.processors` entry of the TS `BenthosConfig` interface. -/
structure PipelineSection where
  processors : Option (List CVal)
deriving DecidableEq, Repr

/-- `BenthosConfig`: the cast applied to the parsed YAML document. -/
structure BenthosConfig where
  input : Option CVal := none
  pipeline : Option PipelineSection := none
  output : Option CVal := none
  cache_resources : Option (List CVal) := none
  rate_limit_resources : Option (List CVal) := none
deriving DecidableEq, Repr

def mkProcId (i : ℕ) : String := s!"processor-{i}"

def mkInputNode (v : CVal) : PipelineNode :=
  { id := "input"
    type := NodeType.input
    label := .str (getLabel v)
    componentType := getComponentType v
    metricPath := "root.input"
    componentLabel := componentLabelOf v
    config := v }

def mkProcNode (proc : CVal) (i : ℕ) : PipelineNode :=
  { id := mkProcId i
    type := NodeType.processor
    label := .str (getLabel proc)
    componentType := getComponentType proc
    metricPath := s!"root.pipeline.processors.{i}"
    componentLabel := componentLabelOf proc
    config := proc }

def mkOutputNode (v : CVal) : PipelineNode :=
  { id := "output"
    type := NodeType.output
    label := .str (getLabel v)
    componentType := getComponentType v
    metricPath := "root.output"
    componentLabel := componentLabelOf v
    config := v }

/-- `const prevId = i === 0 ? 'input' : `processor-${i-1}``. -/
def prevIdOf (i : ℕ) : String := if i = 0 then "input" else mkProcId (i - 1)

/-- The backbone edge `{id: e-<prev>-processor-<i>, source: prev, target: processor-<i>}`. -/
def mkBackEdge (prev : String) (i : ℕ) : PipelineEdge :=
  { id := s!"e-{prev}-{mkProcId i}", source := prev, target := mkProcId i }

/-- The processor `for` loop: push the node, then add an edge from the
previous backbone node when `nodes.find(n => n.id === prevId)` succeeds. -/
def procLoop : List CVal → ℕ → List PipelineNode → List PipelineEdge →
    List PipelineNode × List PipelineEdge
  | [], _, ns, es => (ns, es)
  | proc :: rest, i, ns, es =>
      let ns' := ns ++ [mkProcNode proc i]
      let es' :=
        if ns'.any (fun n => n.id = prevIdOf i) then es ++ [mkBackEdge (prevIdOf i) i]
        else es
      procLoop rest (i + 1) ns' es'

/-- The `cache_resources` loop. -/
def cacheNodes (caches : List CVal) : List PipelineNode :=
  caches.enum.map (fun p =>
    let cache := p.2
    let lbl := resourceLabelVal cache
    { id := s!"cache-{p.1}"
      type := NodeType.cache
      label := lbl
      componentType := getComponentType cache
      metricPath := s!"root.resource.cache.{cvalToStr lbl}"
      componentLabel := some lbl
      config := cache })

/-- The `rate_limit_resources` loop. -/
def rateLimitNodes (rls : List CVal) : List PipelineNode :=
  rls.enum.map (fun p =>
    let rl := p.2
    let lbl := resourceLabelVal rl
    { id := s!"rate-limit-{p.1}"
      type := NodeType.rate_limit
      label := lbl
      componentType := getComponentType rl
      metricPath := s!"root.resource.rate_limit.{cvalToStr lbl}"
      componentLabel := some lbl
      config := rl })

/-! ### Resource reference resolution -/

/-- The two reference sets collected by `extractResourceRefs` (JS `Set`:
insertion-ordered, duplicates skipped). -/
structure ResourceRefs where
  caches : List String
  rateLimits : List String
deriving DecidableEq, Repr

/-- JS `Set.add`. -/
def setInsert (l : List String) (s : String) : List String :=
  if s ∈ l then l else l ++ [s]

mutual

/-- The recursive `walk(value, key?, parentKey?)` of `extractResourceRefs`. -/
def walkVal (v : CVal) (key parentKey : Option String) (acc : ResourceRefs) : ResourceRefs :=
  match v with
  | .nullv => acc
  | .str s =>
      let acc1 :=
        if key = some "cache" || key = some "cache_resource" then
          { acc with caches := setInsert acc.caches s }
        else acc
      let acc2 :=
        if key = some "rate_limit" || key = some "rate_limit_resource" then
          { acc1 with rateLimits := setInsert acc1.rateLimits s }
        else acc1
      if key = some "resource" && parentKey = some "rate_limit" then
        { acc2 with rateLimits := setInsert acc2.rateLimits s }
      else acc2
  | .arr items => walkList items key acc
  | .obj fields => walkFields fields key acc
  | .num _ => acc
  | .boolean _ => acc

/-- `for (const item of value) walk(item, undefined, key)`. -/
def walkList (items : List CVal) (key : Option String) (acc : ResourceRefs) : ResourceRefs :=
  match items with
  | [] => acc
  | v :: rest => walkList rest key (walkVal v none key acc)

/-- `for (const [k, v] of Object.entries(value)) walk(v, k, key)`. -/
def walkFields (fields : List (String × CVal)) (key : Option String) (acc : ResourceRefs) :
    ResourceRefs :=
  match fields with
  | [] => acc
  | (k, v) :: rest => walkFields rest key (walkVal v (some k) key acc)

end

/-- `extractResourceRefs` (configToGraph source file). -/
def extractResourceRefs (obj : CVal) : ResourceRefs :=
  walkVal obj none none { caches := [], rateLimits := [] }

/-- JS `Map.set` with a raw-value key (resource label → node id). -/
def cvalMapSet (m : List (CVal × String)) (k : CVal) (v : String) : List (CVal × String) :=
  match m with
  | [] => [(k, v)]
  | (k', v') :: rest => if k' = k then (k', v) :: rest else (k', v') :: cvalMapSet rest k v

/-- `Map.get(name)`: a string reference matches only an equal string key. -/
def resourceLookup (m : List (CVal × String)) (name : String) : Option String :=
  (m.find? (fun p => p.1 == CVal.str name)).map (·.2)

/-- The label → node-id lookup maps for cache and rate-limit nodes. -/
def buildResourceMaps (nodes : List PipelineNode) :
    List (CVal × String) × List (CVal × String) :=
  nodes.foldl
    (fun ms nd =>
      match nd.type with
      | NodeType.cache => (cvalMapSet ms.1 nd.label nd.id, ms.2)
      | NodeType.rate_limit => (ms.1, cvalMapSet ms.2 nd.label nd.id)
      | _ => ms)
    ([], [])

/-- Push `{id: e-src-tgt, source: src, target: tgt}` unless an edge with that
id already exists. -/
def addEdgeDedup (edges : List PipelineEdge) (src tgt : String) : List PipelineEdge :=
  let eid := s!"e-{src}-{tgt}"
  if edges.any (fun e => e.id = eid) then edges
  else edges ++ [{ id := eid, source := src, target := tgt }]

/-- The per-node body of the `connectResources` scan.  Every node produced by
the resolver carries its config, so the JS `!nd.config` guard never fires. -/
def connectNode (maps : List (CVal × String) × List (CVal × String))
    (edges : List PipelineEdge) (nd : PipelineNode) : List PipelineEdge :=
  match nd.type with
  | NodeType.cache => edges
  | NodeType.rate_limit => edges
  | _ =>
      let refs := extractResourceRefs nd.config
      let edges1 := refs.caches.foldl
        (fun es name =>
          match resourceLookup maps.1 name with
          | some cid => addEdgeDedup es nd.id cid
          | none => es)
        edges
      refs.rateLimits.foldl
        (fun es name =>
          match resourceLookup maps.2 name with
          | some rid => addEdgeDedup es nd.id rid
          | none => es)
        edges1

/-- `connectResources` (configToGraph source file). -/
def connectResources (nodes : List PipelineNode) (edges : List PipelineEdge) :
    List PipelineEdge :=
  let maps := buildResourceMaps nodes
  if maps.1.isEmpty && maps.2.isEmpty then edges
  else nodes.foldl (connectNode maps) edges

/-- `pipeline.processors ?? []`. -/
def procsOf (cfg : BenthosConfig) : List CVal :=
  (cfg.pipeline.bind (fun p => p.processors)).getD []

/-- The node list contributed by the `input` section. -/
def inputNodesOf (config : BenthosConfig) : List PipelineNode :=
  match config.input with
  | some v => if jsTruthy v then [mkInputNode v] else []
  | none => []

/-- The backbone edge into the primary output node. -/
def outBackEdge (prev : String) : PipelineEdge :=
  { id := s!"e-{prev}-output", source := prev, target := "output" }

/-- `configToGraph`, after the YAML parse. -/
def configToGraph (config : BenthosConfig) : PipelineGraph :=
  let nodes1 := inputNodesOf config
  let processors := procsOf config
  let step2 := procLoop processors 0 nodes1 []
  let step3 :=
    match config.output with
    | some v =>
        if jsTruthy v then
          let ns := step2.1 ++ [mkOutputNode v]
          let prevId := if processors.length > 0 then mkProcId (processors.length - 1) else "input"
          let es :=
            if ns.any (fun n => n.id = prevId) then step2.2 ++ [outBackEdge prevId]
            else step2.2
          let sub := extractSubOutputs v "output" "root.output"
          (ns ++ sub.1, es ++ sub.2)
        else step2
    | none => step2
  let nodes4 := step3.1 ++
    (match config.cache_resources with
     | some caches => cacheNodes caches
     | none => [])
  let nodes5 := nodes4 ++
    (match config.rate_limit_resources with
     | some rls => rateLimitNodes rls
     | none => [])
  { nodes := nodes5, edges := connectResources nodes5 step3.2 }

/-- The config parse failure (`yaml.load` throws; `configToGraph` lets the
exception propagate). -/
inductive ParseError where
  | parseError (msg : String)
deriving DecidableEq, Repr

/-- `configToGraph` on the outcome of the YAML parse: an unparsable document
propagates the `ParseError`; any parsable document resolves to a graph. -/
def configToGraphE (parsed : Except ParseError BenthosConfig) :
    Except ParseError PipelineGraph :=
  match parsed with
  | .error e => .error e
  | .ok config => .ok (configToGraph config)

/-! ## TrafficEdgeWeighter (src/components/PipelineGraph.tsx) -/

def MIN_EDGE_WIDTH : ℚ := 3 / 2
def MAX_EDGE_WIDTH : ℚ := 8
def OVERFLOW_EXTRA_WIDTH : ℚ := 2

/-- `edgeTraffic`: target's `received`, else source's `sent`, else target's
`sent`. -/
def edgeTraffic (sourceMetrics targetMetrics : Option ComponentMetrics) : Option JsNum :=
  match targetMetrics.bind (fun m => m.received) with
  | some v => some v
  | none =>
      match sourceMetrics.bind (fun m => m.sent) with
      | some v => some v
      | none => targetMetrics.bind (fun m => m.sent)

/-- The style applied to one edge by `buildStyledEdges`. -/
inductive EdgeStyle where
  /-- the edge object is returned unchanged (resource edges, no metrics) -/
  | unchanged
  /-- the zero-traffic branch: dashed stroke, fixed minimum width, a label -/
  | dead (stroke : String) (strokeWidth : ℚ) (strokeDasharray : String) (label : String)
      (animated : Bool)
  /-- the proportional-width branch -/
  | flow (stroke : String) (strokeWidth : JsNum) (animated : Bool)
deriving DecidableEq, Repr

structure StyledEdge where
  edge : PipelineEdge
  style : EdgeStyle
deriving DecidableEq, Repr

/-- The cache / rate-limit node-id set whose incident edges keep their static
style. -/
def resourceIds (graph : PipelineGraph) : List String :=
  (graph.nodes.filter (fun n => n.type = NodeType.cache || n.type = NodeType.rate_limit)).map
    (fun n => n.id)

/-- The per-edge resolved traffic values, in edge order. -/
def edgeTrafficValues (edges : List PipelineEdge)
    (nodeMetricsMap : List (String × ComponentMetrics)) : List (Option JsNum) :=
  edges.map (fun e =>
    edgeTraffic (mapLookup nodeMetricsMap e.source) (mapLookup nodeMetricsMap e.target))

/-- `Math.max(maxInputReceived, ...resolved traffic values, 1)`. -/
def computeMaxTraffic (edges : List PipelineEdge)
    (nodeMetricsMap : List (String × ComponentMetrics)) (maxInputReceived : JsNum) : JsNum :=
  JsNum.max2
    (((edgeTrafficValues edges nodeMetricsMap).filterMap id).foldl JsNum.max2 maxInputReceived)
    (.fin 1)

/-- The body of the `edges.map` in `buildStyledEdges`, for one edge and its
resolved traffic. -/
def styleEdge (resourceNodeIds : List String) (maxTraffic maxInputReceived : JsNum)
    (p : PipelineEdge × Option JsNum) : StyledEdge :=
  let edge := p.1
  let traffic := p.2
  if resourceNodeIds.contains edge.target || resourceNodeIds.contains edge.source then
    { edge := edge, style := EdgeStyle.unchanged }
  else
    match traffic with
    | none => { edge := edge, style := EdgeStyle.unchanged }
    | some t =>
        if t = .fin 0 then
          { edge := edge
            style := EdgeStyle.dead "#f97316" MIN_EDGE_WIDTH "6 3" "0" false }
        else
          let ratio := t.div maxTraffic
          let strokeWidth :=
            (JsNum.fin MIN_EDGE_WIDTH).add (ratio.mul (.fin (MAX_EDGE_WIDTH - MIN_EDGE_WIDTH)))
          let isOverflow := JsNum.gt maxInputReceived (.fin 0) && JsNum.gt t maxInputReceived
          let strokeWidth :=
            if isOverflow then JsNum.fin (MAX_EDGE_WIDTH + OVERFLOW_EXTRA_WIDTH) else strokeWidth
          { edge := edge
            style := EdgeStyle.flow (if isOverflow then "#38bdf8" else "#6b7280") strokeWidth true }

/-- `buildStyledEdges` (src/components/PipelineGraph.tsx). -/
def buildStyledEdges (edges : List PipelineEdge)
    (nodeMetricsMap : List (String × ComponentMetrics))
    (maxInputReceived : JsNum) (graph : PipelineGraph) : List StyledEdge :=
  (edges.zip (edgeTrafficValues edges nodeMetricsMap)).map
    (styleEdge (resourceIds graph) (computeMaxTraffic edges nodeMetricsMap maxInputReceived)
      maxInputReceived)

/-! ## Helper lemmas about `JsNum` arithmetic -/

theorem JsNum.sub_fin (a b : ℚ) : (JsNum.fin a).sub (.fin b) = .fin (a - b) := by
  simp [JsNum.sub, JsNum.add, JsNum.neg, sub_eq_add_neg]

theorem JsNum.div_fin (a b : ℚ) (h : b ≠ 0) : (JsNum.fin a).div (.fin b) = .fin (a / b) := by
  simp [JsNum.div, h]

theorem JsNum.ge0_fin (a : ℚ) : (JsNum.fin a).ge0 = decide (0 ≤ a) := rfl

/-! ## C1 — rate computation (`attachRates`) -/

/-- `mapLookup` through `attachRates`: each entry keeps its key, and its
bundle is rewritten exactly when the key is present in the previous snapshot
and `dtSec > 0`. -/
theorem mapLookup_attachRates (current prev : List (String × ComponentMetrics))
    (dtSec : ℚ) (k : String) :
    mapLookup (attachRates current prev dtSec) k =
      (mapLookup current k).map (fun cur =>
        match mapLookup prev k with
        | none => cur
        | some old => if dtSec ≤ 0 then cur else attachRatesOne cur old dtSec) := by
  induction current with
  | nil => rfl
  | cons p rest ih =>
      obtain ⟨k0, v0⟩ := p
      show mapLookup
          ((match mapLookup prev k0 with
            | none => (k0, v0)
            | some old => if dtSec ≤ 0 then (k0, v0) else (k0, attachRatesOne v0 old dtSec)) ::
            attachRates rest prev dtSec) k = _
      by_cases hk : k0 = k
      · subst hk
        cases hpl : mapLookup prev k0 with
        | none => simp [mapLookup_cons, hpl]
        | some old =>
            by_cases hdt : dtSec ≤ 0 <;> simp [mapLookup_cons, hpl, hdt]
      · cases hpl : mapLookup prev k0 with
        | none => simpa [mapLookup_cons, hk] using ih
        | some old =>
            by_cases hdt : dtSec ≤ 0 <;> simpa [mapLookup_cons, hk, hdt] using ih

/-- C1: for every key present in both the current aggregate and the previous
snapshot, with strictly positive elapsed seconds, `attachRates` sets each of
`receivedRate`/`sentRate`/`errorRate` to `(current - previous) / dtSec`
exactly when both field values are defined and the delta is non-negative; a
negative delta leaves the rate field `undefined` (never negative); when
either side is undefined the rate field is left untouched. -/
theorem C1_attachRates_rates (current prev : List (String × ComponentMetrics))
    (key : String) (cur old : ComponentMetrics) (dtSec : ℚ)
    (hc : mapLookup current key = some cur)
    (hp : mapLookup prev key = some old)
    (hdt : 0 < dtSec) :
    ∃ r, mapLookup (attachRates current prev dtSec) key = some r ∧
      (∀ c o : ℚ, cur.received = some (.fin c) → old.received = some (.fin o) →
        r.receivedRate = if 0 ≤ c - o then some (.fin ((c - o) / dtSec)) else none) ∧
      (∀ c o : ℚ, cur.sent = some (.fin c) → old.sent = some (.fin o) →
        r.sentRate = if 0 ≤ c - o then some (.fin ((c - o) / dtSec)) else none) ∧
      (∀ c o : ℚ, cur.error = some (.fin c) → old.error = some (.fin o) →
        r.errorRate = if 0 ≤ c - o then some (.fin ((c - o) / dtSec)) else none) ∧
      ((cur.received = none ∨ old.received = none) → r.receivedRate = cur.receivedRate) ∧
      ((cur.sent = none ∨ old.sent = none) → r.sentRate = cur.sentRate) ∧
      ((cur.error = none ∨ old.error = none) → r.errorRate = cur.errorRate) := by
  refine ⟨attachRatesOne cur old dtSec, ?_, ?_, ?_, ?_, ?_, ?_, ?_⟩
  · rw [mapLookup_attachRates, hc, hp]
    simp [not_le.mpr hdt]
  · intro c o hcr hor
    simp only [attachRatesOne, hcr, hor, JsNum.sub_fin, JsNum.ge0_fin,
      JsNum.div_fin _ _ (ne_of_gt hdt)]
    by_cases h : 0 ≤ c - o <;> simp [h]
  · intro c o hcr hor
    simp only [attachRatesOne, hcr, hor, JsNum.sub_fin, JsNum.ge0_fin,
      JsNum.div_fin _ _ (ne_of_gt hdt)]
    by_cases h : 0 ≤ c - o <;> simp [h]
  · intro c o hcr hor
    simp only [attachRatesOne, hcr, hor, JsNum.sub_fin, JsNum.ge0_fin,
      JsNum.div_fin _ _ (ne_of_gt hdt)]
    by_cases h : 0 ≤ c - o <;> simp [h]
  · rintro (h | h) <;> simp [attachRatesOne, h]
  · rintro (h | h) <;> simp [attachRatesOne, h]
  · rintro (h | h) <;> simp [attachRatesOne, h]

/-- Witness for C1: `received` 100 → 150 over 10 s gives rate 5;
`received` 100 → 80 (counter reset) leaves the rate undefined. -/
theorem C1_attachRates_rates_witness :
    (0 : ℚ) < 10 ∧
    (∃ r, mapLookup (attachRates [("root.input", { received := some (.fin 150) })]
        [("root.input", { received := some (.fin 100) })] 10) "root.input" = some r ∧
        r.receivedRate = some (.fin 5)) ∧
    (∃ r, mapLookup (attachRates [("root.input", { received := some (.fin 80) })]
        [("root.input", { received := some (.fin 100) })] 10) "root.input" = some r ∧
        r.receivedRate = none) := by
  refine ⟨by norm_num, ?_, ?_⟩
  · obtain ⟨r, hl, hr, -⟩ :=
      C1_attachRates_rates [("root.input", { received := some (.fin 150) })]
        [("root.input", { received := some (.fin 100) })] "root.input"
        { received := some (.fin 150) } { received := some (.fin 100) } 10
        (by rfl) (by rfl) (by norm_num)
    refine ⟨r, hl, ?_⟩
    have := hr 150 100 rfl rfl
    norm_num at this
    exact this
  · obtain ⟨r, hl, hr, -⟩ :=
      C1_attachRates_rates [("root.input", { received := some (.fin 80) })]
        [("root.input", { received := some (.fin 100) })] "root.input"
        { received := some (.fin 80) } { received := some (.fin 100) } 10
        (by rfl) (by rfl) (by norm_num)
    refine ⟨r, hl, ?_⟩
    have := hr 80 100 rfl rfl
    norm_num at this
    exact this

/-! ## C5 — bounded rolling history (FIFO trim) -/

def emptyMetrics : ComponentMetrics := {}

/-- When the buffer is within the bound, `pushTrim` is append-then-drop of
the oversize prefix (the drop count being 0 when no trim happens). -/
theorem pushTrim_eq_drop {α : Type} (bound : ℕ) (arr : List α) (p : α)
    (h : arr.length ≤ bound) :
    pushTrim bound arr p = (arr ++ [p]).drop ((arr ++ [p]).length - bound) := by
  unfold pushTrim
  by_cases hb : bound < (arr ++ [p]).length
  · have hb' : bound < arr.length + 1 := by simpa using hb
    simp [hb']
  · simp only [if_neg hb]
    have h0 : (arr ++ [p]).length - bound = 0 := by
      simp only [not_lt, List.length_append, List.length_cons, List.length_nil] at hb ⊢
      omega
    rw [h0, List.drop_zero]

/-- Iterated `pushTrim` keeps exactly the last `bound` elements of the full
appended sequence, i.e. it drops the oldest prefix. -/
theorem foldl_pushTrim {α : Type} (bound : ℕ) (ps : List α) :
    ∀ arr : List α, arr.length ≤ bound →
      ps.foldl (pushTrim bound) arr = (arr ++ ps).drop ((arr ++ ps).length - bound) := by
  induction ps with
  | nil =>
      intro arr h
      simp [Nat.sub_eq_zero_of_le h]
  | cons p ps ih =>
      intro arr h
      rw [List.foldl_cons, pushTrim_eq_drop bound arr p h]
      have hlen : (((arr ++ [p]).drop ((arr ++ [p]).length - bound))).length ≤ bound := by
        rw [List.length_drop]
        omega
      rw [ih _ hlen]
      rw [show arr ++ p :: ps = (arr ++ [p]) ++ ps by simp]
      generalize arr ++ [p] = A
      rw [List.drop_append_eq_append_drop, List.drop_append_eq_append_drop, List.drop_drop]
      congr 1
      · congr 1
        simp only [List.length_append, List.length_drop]
        omega
      · congr 1
        simp only [List.length_append, List.length_drop]
        omega

theorem countKey_cons {α : Type} (k k0 : String) (v0 : α) (rest : List (String × α)) :
    countKey k ((k0, v0) :: rest) = (if k0 = k then 1 else 0) + countKey k rest := by
  by_cases h : k0 = k <;> simp [countKey, List.filter_cons, h]
  omega

theorem head?_drop_eq_get? {α : Type} (l : List α) (n : ℕ) : (l.drop n).head? = l.get? n := by
  induction l generalizing n with
  | nil => simp
  | cons a t ih =>
      cases n with
      | zero => simp
      | succ m => simpa using ih m

/-- `appendHistory` leaves keys absent from the metrics map untouched. -/
theorem appendHistoryMap_lookup_zero (m : List (String × ComponentMetrics))
    (hist : List (String × List MetricsTimePoint)) (t : ℚ) (k : String)
    (h0 : countKey k m = 0) :
    mapLookup (appendHistoryMap hist m t) k = mapLookup hist k := by
  induction m generalizing hist with
  | nil => rfl
  | cons p rest ih =>
      obtain ⟨k0, v0⟩ := p
      rw [countKey_cons] at h0
      have hk0 : k0 ≠ k := by
        intro hh
        simp [hh] at h0
      have hrest : countKey k rest = 0 := by
        simp [hk0] at h0
        exact h0
      show mapLookup (appendHistoryMap (mapSet hist k0 _) rest t) k = _
      rw [ih _ hrest, mapLookup_mapSet]
      simp [hk0]

/-- `appendHistory` at a key occurring exactly once in the metrics map:
push one `MetricsTimePoint` and trim to the bound. -/
theorem appendHistoryMap_lookup_one (m : List (String × ComponentMetrics))
    (hist : List (String × List MetricsTimePoint)) (t : ℚ) (k : String)
    (h1 : countKey k m = 1) :
    mapLookup (appendHistoryMap hist m t) k =
      some (pushTrim MAX_HISTORY_POINTS (mapGetD hist k [])
        (mkTimePoint t (mapGetD m k emptyMetrics))) := by
  induction m generalizing hist with
  | nil => simp [countKey] at h1
  | cons p rest ih =>
      obtain ⟨k0, v0⟩ := p
      rw [countKey_cons] at h1
      by_cases hk0 : k0 = k
      · subst hk0
        have hrest : countKey k0 rest = 0 := by
          simp at h1
          omega
        show mapLookup (appendHistoryMap (mapSet hist k0 _) rest t) k0 = _
        rw [appendHistoryMap_lookup_zero _ _ _ _ hrest, mapLookup_mapSet]
        simp [mapGetD, mapLookup_cons]
      · have hrest : countKey k rest = 1 := by
          simp [hk0] at h1
          exact h1
        show mapLookup (appendHistoryMap (mapSet hist k0 _) rest t) k = _
        rw [ih _ hrest]
        have h2 : mapGetD (mapSet hist k0 (pushTrim MAX_HISTORY_POINTS (mapGetD hist k0 [])
            (mkTimePoint t v0))) k [] = mapGetD hist k [] := by
          simp [mapGetD, mapLookup_mapSet, hk0]
        rw [h2]
        have h3 : mapGetD ((k0, v0) :: rest) k emptyMetrics = mapGetD rest k emptyMetrics := by
          simp [mapGetD, mapLookup_cons, hk0]
        rw [h3]

/-- The per-key time points appended by a sequence of polls. -/
def historyPoints (polls : List (ℚ × List (String × ComponentMetrics))) (k : String) :
    List MetricsTimePoint :=
  polls.map (fun poll => mkTimePoint poll.1 (mapGetD poll.2 k emptyMetrics))

/-- The hook's per-key history map after a sequence of polls
(iterated `appendHistory`, starting from the empty map). -/
def runHistoryMap (polls : List (ℚ × List (String × ComponentMetrics))) :
    List (String × List MetricsTimePoint) :=
  polls.foldl (fun h poll => appendHistoryMap h poll.2 poll.1) []

theorem runHistoryMap_at_key (polls : List (ℚ × List (String × ComponentMetrics)))
    (k : String) (hk : ∀ p ∈ polls, countKey k p.2 = 1) :
    ∀ hist0, mapGetD (polls.foldl (fun h poll => appendHistoryMap h poll.2 poll.1) hist0) k [] =
      (historyPoints polls k).foldl (pushTrim MAX_HISTORY_POINTS) (mapGetD hist0 k []) := by
  induction polls with
  | nil => intro hist0; rfl
  | cons p polls ih =>
      intro hist0
      rw [List.foldl_cons]
      have h1 := appendHistoryMap_lookup_one p.2 hist0 p.1 k (hk p (by simp))
      have ih' := ih (fun q hq => hk q (by simp [hq]))
      rw [ih' _]
      have : mapGetD (appendHistoryMap hist0 p.2 p.1) k [] =
          pushTrim MAX_HISTORY_POINTS (mapGetD hist0 k []) (mkTimePoint p.1 (mapGetD p.2 k emptyMetrics)) := by
        simp [mapGetD, h1]
      rw [this]
      rfl

/-- C5: for a correlation key present in every poll, the per-key history is
exactly the last 120 appended points (FIFO: the retained list is the full
point sequence with its oldest prefix dropped); once more polls than the
bound have happened the length equals the bound and the oldest retained
point is the first point beyond the evicted prefix; strictly increasing poll
times yield a strictly time-ordered history.  The whole-process runtime
history trims identically with bound 100. -/
theorem C5_history_fifo_bounds (polls : List (ℚ × List (String × ComponentMetrics)))
    (k : String) (hk : ∀ p ∈ polls, countKey k p.2 = 1) :
    mapGetD (runHistoryMap polls) k [] =
      (historyPoints polls k).drop ((historyPoints polls k).length - MAX_HISTORY_POINTS) ∧
    (MAX_HISTORY_POINTS < polls.length →
      (mapGetD (runHistoryMap polls) k []).length = MAX_HISTORY_POINTS ∧
      (mapGetD (runHistoryMap polls) k []).head? =
        (historyPoints polls k).get? (polls.length - MAX_HISTORY_POINTS)) ∧
    (List.Pairwise (fun a b => a.1 < b.1) polls →
      List.Pairwise (fun a b => a.timestamp < b.timestamp) (mapGetD (runHistoryMap polls) k [])) ∧
    (∀ snaps : List RuntimeSnapshot,
      snaps.foldl runtimePush [] = snaps.drop (snaps.length - MAX_HISTORY) ∧
      (MAX_HISTORY < snaps.length → (snaps.foldl runtimePush []).length = MAX_HISTORY)) := by
  have hdropEq : mapGetD (runHistoryMap polls) k [] =
      (historyPoints polls k).drop ((historyPoints polls k).length - MAX_HISTORY_POINTS) := by
    rw [show runHistoryMap polls = polls.foldl (fun h poll => appendHistoryMap h poll.2 poll.1) []
        from rfl]
    rw [runHistoryMap_at_key polls k hk []]
    have := foldl_pushTrim MAX_HISTORY_POINTS (historyPoints polls k) [] (by simp)
    simpa using this
  have hlenPts : (historyPoints polls k).length = polls.length := by
    simp [historyPoints]
  refine ⟨hdropEq, ?_, ?_, ?_⟩
  · intro hgt
    constructor
    · rw [hdropEq, List.length_drop]
      omega
    · rw [hdropEq, head?_drop_eq_get?]
      congr 1
      omega
  · intro hmono
    rw [hdropEq]
    have hptsMono : List.Pairwise (fun a b => a.timestamp < b.timestamp) (historyPoints polls k) :=
      List.Pairwise.map _ (fun a b hab => hab) hmono
    exact hptsMono.sublist (List.drop_sublist _ _)
  · intro snaps
    have hre : snaps.foldl runtimePush [] = snaps.foldl (pushTrim MAX_HISTORY) [] := rfl
    rw [hre]
    have hmain := foldl_pushTrim MAX_HISTORY snaps [] (by simp)
    simp only [List.nil_append] at hmain
    refine ⟨hmain, ?_⟩
    intro hgt
    rw [hmain, List.length_drop]
    omega

/-- Two concrete polls both carrying the key `root.input`. -/
def c5polls : List (ℚ × List (String × ComponentMetrics)) :=
  [ (1, [("root.input", { received := some (.fin 10) })]),
    (2, [("root.input", { received := some (.fin 20) })]) ]

/-- Witness for C5 at a concrete poll sequence. -/
theorem C5_history_fifo_bounds_witness :
    (∀ p ∈ c5polls, countKey "root.input" p.2 = 1) ∧
    mapGetD (runHistoryMap c5polls) "root.input" [] =
      (historyPoints c5polls "root.input").drop
        ((historyPoints c5polls "root.input").length - MAX_HISTORY_POINTS) :=
  ⟨by decide, (C5_history_fifo_bounds c5polls "root.input" (by decide)).1⟩

/-! ## C6 — target switch does not reset the hook state (code bug)

The spec requires the rate baseline and both history maps to be reset,
atomically and together, when the monitored target changes.  The hook defines
`resetHistory` for exactly this purpose, and the sibling `useRuntimeMetrics`
hook does reset its history on a target change, but `handleTargetSelect`
never invokes `resetHistory`, so the previous target's baseline and history
survive the switch. -/

/-- Hook state after one poll of target A (`received = 100` at t = 1000 ms). -/
def c6afterA : HookState :=
  (pollStep initialHookState 1000
    [("root.input", { received := some (.fin 100) })]
    [("root.input", { received := some (.fin 100) })]).1

/-- First poll of target B (`received = 150` at t = 11000 ms) after switching. -/
def c6pollB : HookState × MetricsResult :=
  pollStep (handleTargetSelect c6afterA) 11000
    [("root.input", { received := some (.fin 150) })]
    [("root.input", { received := some (.fin 150) })]

/-- C6 fails on the code: switching targets leaves the hook state untouched,
so the first poll of the new target reports `receivedRate = 5` derived from
the old target's baseline (150 − 100 over 10 s), and the new target's
history still contains the old target's point at t = 1000. -/
theorem C6_target_switch_keeps_stale_state :
    handleTargetSelect c6afterA = c6afterA ∧
    (mapLookup c6pollB.2.byPath "root.input").map (fun m => m.receivedRate) =
      some (some (.fin 5)) ∧
    (mapGetD c6pollB.1.history.byPath "root.input" []).map (fun p => p.timestamp) =
      [1000, 11000] := by
  refine ⟨rfl, ?_, ?_⟩
  · norm_num [c6pollB, c6afterA, pollStep, initialHookState, handleTargetSelect,
      attachRates, attachRatesOne, mapLookup_cons, mapLookup, mapSet, mapGetD,
      appendHistoryMap, mkTimePoint, pushTrim, MAX_HISTORY_POINTS, cloneMetricsMap,
      JsNum.sub, JsNum.add, JsNum.neg, JsNum.ge0, JsNum.div, emptyMetrics]
  · norm_num [c6pollB, c6afterA, pollStep, initialHookState, handleTargetSelect,
      attachRates, attachRatesOne, mapLookup_cons, mapLookup, mapSet, mapGetD,
      appendHistoryMap, mkTimePoint, pushTrim, MAX_HISTORY_POINTS, cloneMetricsMap,
      JsNum.sub, JsNum.add, JsNum.neg, JsNum.ge0, JsNum.div, emptyMetrics]

/-! ## C10 — parse failure and absent sections -/

/-- C10: resolving fails with a `ParseError` exactly when the parse failed;
every parsable configuration resolves, with each absent top-level section
treated as empty (equal graph to the explicitly-empty section), and the
all-absent document resolving to the empty graph. -/
theorem C10_parse_error_and_absent_sections :
    (∀ p : Except ParseError BenthosConfig, (configToGraphE p).isOk ↔ p.isOk) ∧
    (∀ e, configToGraphE (.error e) = .error e) ∧
    (∀ cfg : BenthosConfig, configToGraphE (.ok cfg) = .ok (configToGraph cfg)) ∧
    (∀ i o c r, configToGraph
        { input := i, pipeline := none, output := o,
          cache_resources := c, rate_limit_resources := r } =
      configToGraph
        { input := i, pipeline := some { processors := some [] }, output := o,
          cache_resources := c, rate_limit_resources := r }) ∧
    (∀ i o c r, configToGraph
        { input := i, pipeline := some { processors := none }, output := o,
          cache_resources := c, rate_limit_resources := r } =
      configToGraph
        { input := i, pipeline := some { processors := some [] }, output := o,
          cache_resources := c, rate_limit_resources := r }) ∧
    (∀ i pl o r, configToGraph
        { input := i, pipeline := pl, output := o,
          cache_resources := none, rate_limit_resources := r } =
      configToGraph
        { input := i, pipeline := pl, output := o,
          cache_resources := some [], rate_limit_resources := r }) ∧
    (∀ i pl o c, configToGraph
        { input := i, pipeline := pl, output := o,
          cache_resources := c, rate_limit_resources := none } =
      configToGraph
        { input := i, pipeline := pl, output := o,
          cache_resources := c, rate_limit_resources := some [] }) ∧
    configToGraph {} = { nodes := [], edges := [] } := by
  refine ⟨?_, fun e => rfl, fun cfg => rfl, fun i o c r => rfl, fun i o c r => rfl,
    fun i pl o r => ?_, fun i pl o c => ?_, rfl⟩
  · intro p
    cases p <;> rfl
  · show configToGraph _ = configToGraph _
    unfold configToGraph
    rfl
  · show configToGraph _ = configToGraph _
    unfold configToGraph
    rfl

/-! ## C3 — one-level fan-out expansion (`extractSubOutputs`) -/

theorem brokerLoop_spec (parentId basePath : String) :
    ∀ (outputs : List CVal) (i : ℕ),
      (brokerLoop parentId basePath outputs i).1.length = outputs.length ∧
      (brokerLoop parentId basePath outputs i).1.map (fun n => n.id) =
        (List.range' i outputs.length).map (fun j => s!"{parentId}-broker-{j}") ∧
      (brokerLoop parentId basePath outputs i).1.map (fun n => n.metricPath) =
        (List.range' i outputs.length).map (fun j => s!"{basePath}.broker.outputs.{j}") ∧
      (∀ n ∈ (brokerLoop parentId basePath outputs i).1, n.type = NodeType.output) ∧
      (brokerLoop parentId basePath outputs i).2 =
        (List.range' i outputs.length).map
          (fun j => subOutputEdge parentId s!"{parentId}-broker-{j}") := by
  intro outputs
  induction outputs with
  | nil => intro i; simp [brokerLoop]
  | cons sub rest ih =>
      intro i
      obtain ⟨h1, h2, h3, h4, h5⟩ := ih (i + 1)
      refine ⟨?_, ?_, ?_, ?_, ?_⟩ <;>
        simp [brokerLoop, List.range'_succ, h1, h2, h3, h5, brokerChildNode]
      intro n hn
      exact h4 n hn

theorem fanoutLoop_spec (parentId basePath : String) :
    ∀ (items : List CVal) (i : ℕ),
      (fanoutLoop parentId basePath items i).1.length = items.length ∧
      (fanoutLoop parentId basePath items i).1.map (fun n => n.id) =
        (List.range' i items.length).map (fun j => s!"{parentId}-fanout-{j}") ∧
      (fanoutLoop parentId basePath items i).1.map (fun n => n.metricPath) =
        (List.range' i items.length).map (fun j => s!"{basePath}.fan_out.{j}") ∧
      (∀ n ∈ (fanoutLoop parentId basePath items i).1, n.type = NodeType.output) ∧
      (fanoutLoop parentId basePath items i).2 =
        (List.range' i items.length).map
          (fun j => subOutputEdge parentId s!"{parentId}-fanout-{j}") := by
  intro items
  induction items with
  | nil => intro i; simp [fanoutLoop]
  | cons sub rest ih =>
      intro i
      obtain ⟨h1, h2, h3, h4, h5⟩ := ih (i + 1)
      refine ⟨?_, ?_, ?_, ?_, ?_⟩ <;>
        simp [fanoutLoop, List.range'_succ, h1, h2, h3, h5, fanoutChildNode]
      intro n hn
      exact h4 n hn

/-- A case is "contributing" when its `output` field is present and truthy. -/
def caseHasOutput (c : CVal) : Prop :=
  match jsIndex c "output" with
  | some od => jsTruthy od = true
  | none => False

theorem switchLoop_spec (parentId basePath : String) :
    ∀ (cases : List CVal) (i : ℕ), (∀ c ∈ cases, caseHasOutput c) →
      (switchLoop parentId basePath cases i).1.length = cases.length ∧
      (switchLoop parentId basePath cases i).1.map (fun n => n.id) =
        (List.range' i cases.length).map (fun j => s!"{parentId}-switch-{j}") ∧
      (switchLoop parentId basePath cases i).1.map (fun n => n.metricPath) =
        (List.range' i cases.length).map (fun j => s!"{basePath}.switch.cases.{j}.output") ∧
      (∀ n ∈ (switchLoop parentId basePath cases i).1, n.type = NodeType.output) ∧
      (switchLoop parentId basePath cases i).2 =
        (List.range' i cases.length).map
          (fun j => subOutputEdge parentId s!"{parentId}-switch-{j}") := by
  intro cases
  induction cases with
  | nil => intro i _; simp [switchLoop]
  | cons c rest ih =>
      intro i hall
      have hc : caseHasOutput c := hall c (by simp)
      obtain ⟨h1, h2, h3, h4, h5⟩ := ih (i + 1) (fun x hx => hall x (by simp [hx]))
      unfold caseHasOutput at hc
      cases hod : jsIndex c "output" with
      | none => rw [hod] at hc; exact absurd hc id
      | some od =>
          rw [hod] at hc
          refine ⟨?_, ?_, ?_, ?_, ?_⟩ <;>
            simp [switchLoop, hod, hc, List.range'_succ, h1, h2, h3, h5, switchChildNode]
          intro n hn
          exact h4 n hn

/-- C3: for an output whose component type is `broker` (with an `outputs`
list), `switch` (with a `cases` list, each case holding a truthy `output`),
or `fan_out` (with a list), the resolver synthesizes exactly one child output
node per element, with metric path `<parent>.<kind>.<index>` and one edge
from the primary output node to each child, and it never expands more than
one level: the child count equals the element count no matter what the
children themselves contain (a nested broker contributes exactly one node). -/
theorem C3_extractSubOutputs_one_level (output : CVal) (parentId basePath : String) :
    (∀ brokerCfg outputs,
      getComponentType output = "broker" →
      jsIndex output "broker" = some brokerCfg →
      jsIndex brokerCfg "outputs" = some (.arr outputs) →
      (extractSubOutputs output parentId basePath).1.length = outputs.length ∧
      (extractSubOutputs output parentId basePath).1.map (fun n => n.metricPath) =
        (List.range outputs.length).map (fun j => s!"{basePath}.broker.outputs.{j}") ∧
      (∀ n ∈ (extractSubOutputs output parentId basePath).1, n.type = NodeType.output) ∧
      (extractSubOutputs output parentId basePath).2 =
        (List.range outputs.length).map
          (fun j => subOutputEdge parentId s!"{parentId}-broker-{j}")) ∧
    (∀ switchCfg cases,
      getComponentType output = "switch" →
      jsIndex output "switch" = some switchCfg →
      jsIndex switchCfg "cases" = some (.arr cases) →
      (∀ c ∈ cases, caseHasOutput c) →
      (extractSubOutputs output parentId basePath).1.length = cases.length ∧
      (extractSubOutputs output parentId basePath).1.map (fun n => n.metricPath) =
        (List.range cases.length).map (fun j => s!"{basePath}.switch.cases.{j}.output") ∧
      (∀ n ∈ (extractSubOutputs output parentId basePath).1, n.type = NodeType.output) ∧
      (extractSubOutputs output parentId basePath).2 =
        (List.range cases.length).map
          (fun j => subOutputEdge parentId s!"{parentId}-switch-{j}")) ∧
    (∀ items,
      getComponentType output = "fan_out" →
      jsIndex output "fan_out" = some (.arr items) →
      (extractSubOutputs output parentId basePath).1.length = items.length ∧
      (extractSubOutputs output parentId basePath).1.map (fun n => n.metricPath) =
        (List.range items.length).map (fun j => s!"{basePath}.fan_out.{j}") ∧
      (∀ n ∈ (extractSubOutputs output parentId basePath).1, n.type = NodeType.output) ∧
      (extractSubOutputs output parentId basePath).2 =
        (List.range items.length).map
          (fun j => subOutputEdge parentId s!"{parentId}-fanout-{j}")) := by
  refine ⟨?_, ?_, ?_⟩
  · intro brokerCfg outputs ht hb ho
    have he : extractSubOutputs output parentId basePath =
        brokerLoop parentId basePath outputs 0 := by
      unfold extractSubOutputs
      rw [ht]
      simp [hb, ho]
    obtain ⟨h1, h2, h3, h4, h5⟩ := brokerLoop_spec parentId basePath outputs 0
    rw [he]
    exact ⟨h1, by rw [h3, List.range_eq_range'], h4, by rw [h5, List.range_eq_range']⟩
  · intro switchCfg cases ht hs hc hall
    have he : extractSubOutputs output parentId basePath =
        switchLoop parentId basePath cases 0 := by
      unfold extractSubOutputs
      rw [ht]
      simp [hs, hc]
    obtain ⟨h1, h2, h3, h4, h5⟩ := switchLoop_spec parentId basePath cases 0 hall
    rw [he]
    exact ⟨h1, by rw [h3, List.range_eq_range'], h4, by rw [h5, List.range_eq_range']⟩
  · intro items ht hf
    have he : extractSubOutputs output parentId basePath =
        fanoutLoop parentId basePath items 0 := by
      unfold extractSubOutputs
      rw [ht]
      simp [hf]
    obtain ⟨h1, h2, h3, h4, h5⟩ := fanoutLoop_spec parentId basePath items 0
    rw [he]
    exact ⟨h1, by rw [h3, List.range_eq_range'], h4, by rw [h5, List.range_eq_range']⟩

/-- The children of the claim's broker example:
`{broker: {outputs: [{stdout: {}}, {label: "b", stdout: {}}]}}`. -/
def c3children : List CVal :=
  [.obj [("stdout", .obj [])], .obj [("label", .str "b"), ("stdout", .obj [])]]

def c3brokerCfg : CVal := .obj [("outputs", .arr c3children)]

def c3output : CVal := .obj [("broker", c3brokerCfg)]

/-- A broker whose single child is itself a broker. -/
def c3nestedOutput : CVal := .obj [("broker", .obj [("outputs", .arr [c3output])])]

/-- Witness for C3: the claim's 2-output broker example expands to exactly two
child nodes with paths `root.output.broker.outputs.0/1` and two edges from
the primary output node; a broker nested inside a broker still contributes
exactly one child node (no second-level expansion). -/
theorem C3_extractSubOutputs_one_level_witness :
    c3children.length = 2 ∧
    getComponentType c3output = "broker" ∧
    ((extractSubOutputs c3output "output" "root.output").1.length = c3children.length ∧
      (extractSubOutputs c3output "output" "root.output").1.map (fun n => n.metricPath) =
        (List.range c3children.length).map (fun j => s!"root.output.broker.outputs.{j}") ∧
      (∀ n ∈ (extractSubOutputs c3output "output" "root.output").1, n.type = NodeType.output) ∧
      (extractSubOutputs c3output "output" "root.output").2 =
        (List.range c3children.length).map
          (fun j => subOutputEdge "output" s!"output-broker-{j}")) ∧
    (extractSubOutputs c3nestedOutput "output" "root.output").1.length = 1 :=
  ⟨rfl, rfl,
    (C3_extractSubOutputs_one_level c3output "output" "root.output").1 c3brokerCfg c3children
      rfl rfl rfl,
    ((C3_extractSubOutputs_one_level c3nestedOutput "output" "root.output").1
      (.obj [("outputs", .arr [c3output])]) [c3output] rfl rfl rfl).1⟩

/-! ## C7 — traffic-based edge styling (`buildStyledEdges`) -/

theorem foldl_max2_nan (vals : List JsNum) : vals.foldl JsNum.max2 .nan = .nan := by
  induction vals with
  | nil => rfl
  | cons v rest ih => cases v <;> simpa [JsNum.max2] using ih

theorem foldl_max2_inf (vals : List JsNum) :
    vals.foldl JsNum.max2 .inf = .inf ∨ vals.foldl JsNum.max2 .inf = .nan := by
  induction vals with
  | nil => exact Or.inl rfl
  | cons v rest ih =>
      cases v with
      | nan => exact Or.inr (by simpa [JsNum.max2] using foldl_max2_nan rest)
      | _ => simpa [JsNum.max2] using ih

/-- Folding `Math.max` from a finite accumulator yields a finite value at
least as large (or `NaN`/`Infinity` when such a value is encountered). -/
theorem foldl_max2_from_fin (vals : List JsNum) :
    ∀ a : ℚ, (∃ b, a ≤ b ∧ vals.foldl JsNum.max2 (.fin a) = .fin b) ∨
      vals.foldl JsNum.max2 (.fin a) = .nan ∨ vals.foldl JsNum.max2 (.fin a) = .inf := by
  induction vals with
  | nil => exact fun a => Or.inl ⟨a, le_refl a, rfl⟩
  | cons v rest ih =>
      intro a
      cases v with
      | fin c =>
          rcases ih (max a c) with ⟨b, hab, hb⟩ | h | h
          · exact Or.inl ⟨b, le_trans (le_max_left a c) hab, by simpa [JsNum.max2] using hb⟩
          · exact Or.inr (Or.inl (by simpa [JsNum.max2] using h))
          · exact Or.inr (Or.inr (by simpa [JsNum.max2] using h))
      | nan => exact Or.inr (Or.inl (by simpa [JsNum.max2] using foldl_max2_nan rest))
      | inf =>
          rcases foldl_max2_inf rest with h | h
          · exact Or.inr (Or.inr (by simpa [JsNum.max2] using h))
          · exact Or.inr (Or.inl (by simpa [JsNum.max2] using h))
      | neginf =>
          rcases ih a with ⟨b, hab, hb⟩ | h | h
          · exact Or.inl ⟨b, hab, by simpa [JsNum.max2] using hb⟩
          · exact Or.inr (Or.inl (by simpa [JsNum.max2] using h))
          · exact Or.inr (Or.inr (by simpa [JsNum.max2] using h))

/-- When the computed `maxTraffic` is a finite `q`, it is at least
`maxInputReceived` (for a finite `maxInputReceived`). -/
theorem computeMaxTraffic_ge (edges : List PipelineEdge)
    (nodeMetricsMap : List (String × ComponentMetrics)) (mi q : ℚ)
    (hq : computeMaxTraffic edges nodeMetricsMap (.fin mi) = .fin q) : mi ≤ q := by
  unfold computeMaxTraffic at hq
  rcases foldl_max2_from_fin (((edgeTrafficValues edges nodeMetricsMap).filterMap id)) mi with
    ⟨b, hab, hb⟩ | h | h
  · rw [hb] at hq
    simp only [JsNum.max2, JsNum.fin.injEq] at hq
    subst hq
    exact le_trans hab (le_max_left b 1)
  · rw [h] at hq
    simp [JsNum.max2] at hq
  · rw [h] at hq
    simp [JsNum.max2] at hq

theorem get?_zip_map_self {α β : Type} (l : List α) (f : α → β) (i : ℕ) :
    (l.zip (l.map f)).get? i = (l.get? i).map (fun a => (a, f a)) := by
  induction l generalizing i with
  | nil => simp
  | cons a t ih =>
      cases i with
      | zero => simp
      | succ n => simpa using ih n

/-- The styled edge at index `i` is `styleEdge` applied to that edge and its
own resolved traffic. -/
theorem buildStyledEdges_get (edges : List PipelineEdge)
    (nodeMetricsMap : List (String × ComponentMetrics)) (mi : JsNum)
    (graph : PipelineGraph) (i : ℕ) (e : PipelineEdge) (he : edges.get? i = some e) :
    (buildStyledEdges edges nodeMetricsMap mi graph).get? i =
      some (styleEdge (resourceIds graph) (computeMaxTraffic edges nodeMetricsMap mi) mi
        (e, edgeTraffic (mapLookup nodeMetricsMap e.source) (mapLookup nodeMetricsMap e.target))) := by
  unfold buildStyledEdges
  rw [List.get?_map]
  unfold edgeTrafficValues
  rw [get?_zip_map_self, he]
  rfl

/-- C7: with `maxInputReceived = 1000`, a non-resource edge renders as

* the fixed minimum-width dashed "dead" style with the "0" annotation when
  its traffic is 0, regardless of the other traffic values;
* the linear width `minWidth + (traffic / maxTraffic) * (maxWidth − minWidth)`
  in the normal (non-overflow) state for traffic 500 (with `maxTraffic ≥ 1000`);
* the distinct "overflow" state with clamped width `maxWidth + 2 > maxWidth`
  for traffic 1500 (which exceeds `maxInputReceived > 0`);
* its unchanged default style when its traffic is undefined. -/
theorem C7_edge_styles (edges : List PipelineEdge)
    (nodeMetricsMap : List (String × ComponentMetrics)) (graph : PipelineGraph)
    (i : ℕ) (e : PipelineEdge) (he : edges.get? i = some e)
    (hrt : e.target ∉ resourceIds graph)
    (hrs : e.source ∉ resourceIds graph) :
    (edgeTraffic (mapLookup nodeMetricsMap e.source) (mapLookup nodeMetricsMap e.target) =
        some (.fin 0) →
      (buildStyledEdges edges nodeMetricsMap (.fin 1000) graph).get? i =
        some { edge := e
               style := EdgeStyle.dead "#f97316" MIN_EDGE_WIDTH "6 3" "0" false }) ∧
    (∀ q : ℚ, computeMaxTraffic edges nodeMetricsMap (.fin 1000) = .fin q →
      edgeTraffic (mapLookup nodeMetricsMap e.source) (mapLookup nodeMetricsMap e.target) =
        some (.fin 500) →
      1000 ≤ q ∧
      (buildStyledEdges edges nodeMetricsMap (.fin 1000) graph).get? i =
        some { edge := e
               style := EdgeStyle.flow "#6b7280"
                 (.fin (MIN_EDGE_WIDTH + (500 / q) * (MAX_EDGE_WIDTH - MIN_EDGE_WIDTH))) true }) ∧
    (edgeTraffic (mapLookup nodeMetricsMap e.source) (mapLookup nodeMetricsMap e.target) =
        some (.fin 1500) →
      MAX_EDGE_WIDTH < MAX_EDGE_WIDTH + OVERFLOW_EXTRA_WIDTH ∧
      (buildStyledEdges edges nodeMetricsMap (.fin 1000) graph).get? i =
        some { edge := e
               style := EdgeStyle.flow "#38bdf8"
                 (.fin (MAX_EDGE_WIDTH + OVERFLOW_EXTRA_WIDTH)) true }) ∧
    (edgeTraffic (mapLookup nodeMetricsMap e.source) (mapLookup nodeMetricsMap e.target) = none →
      (buildStyledEdges edges nodeMetricsMap (.fin 1000) graph).get? i =
        some { edge := e, style := EdgeStyle.unchanged }) := by
  refine ⟨?_, ?_, ?_, ?_⟩
  · intro htv
    rw [buildStyledEdges_get edges nodeMetricsMap (.fin 1000) graph i e he, htv]
    simp [styleEdge, hrt, hrs]
  · intro q hq htv
    have hq1000 : (1000 : ℚ) ≤ q := computeMaxTraffic_ge edges nodeMetricsMap 1000 q hq
    refine ⟨hq1000, ?_⟩
    rw [buildStyledEdges_get edges nodeMetricsMap (.fin 1000) graph i e he, htv, hq]
    have hqne : q ≠ 0 := by positivity
    have hne : JsNum.fin 500 ≠ JsNum.fin 0 := by
      simp only [ne_eq, JsNum.fin.injEq]
      norm_num
    have hgt0 : JsNum.gt (.fin 1000) (.fin 0) = true := by
      simp [JsNum.gt]
    have hngt : JsNum.gt (.fin 500) (.fin 1000) = false := by
      simp [JsNum.gt]
      norm_num
    simp [styleEdge, hrt, hrs, hne, hgt0, hngt, JsNum.div_fin _ _ hqne, JsNum.mul, JsNum.add]
  · intro htv
    refine ⟨by norm_num [MAX_EDGE_WIDTH, OVERFLOW_EXTRA_WIDTH], ?_⟩
    rw [buildStyledEdges_get edges nodeMetricsMap (.fin 1000) graph i e he, htv]
    have hne : JsNum.fin 1500 ≠ JsNum.fin 0 := by
      simp only [ne_eq, JsNum.fin.injEq]
      norm_num
    have hgt0 : JsNum.gt (.fin 1000) (.fin 0) = true := by
      simp [JsNum.gt]
    have hgt : JsNum.gt (.fin 1500) (.fin 1000) = true := by
      simp [JsNum.gt]
      norm_num
    simp [styleEdge, hrt, hrs, hne, hgt0, hgt]
  · intro htv
    rw [buildStyledEdges_get edges nodeMetricsMap (.fin 1000) graph i e he, htv]
    simp [styleEdge, hrt, hrs]

def c7edges : List PipelineEdge :=
  [ { id := "e1", source := "input", target := "processor-0" },
    { id := "e2", source := "processor-0", target := "processor-1" },
    { id := "e3", source := "processor-1", target := "processor-2" },
    { id := "e4", source := "processor-2", target := "output" } ]

def c7map : List (String × ComponentMetrics) :=
  [ ("processor-0", { received := some (.fin 0) }),
    ("processor-1", { received := some (.fin 500) }),
    ("processor-2", { received := some (.fin 1500) }) ]

def c7graph : PipelineGraph := { nodes := [], edges := [] }

/-- Witness for C7 on a concrete edge set with `maxInputReceived = 1000` and
traffic values 0 / 500 / 1500 / undefined (the max observed traffic being
1500). -/
theorem C7_edge_styles_witness :
    computeMaxTraffic c7edges c7map (.fin 1000) = .fin 1500 ∧
    (buildStyledEdges c7edges c7map (.fin 1000) c7graph).get? 0 =
      some { edge := { id := "e1", source := "input", target := "processor-0" }
             style := EdgeStyle.dead "#f97316" MIN_EDGE_WIDTH "6 3" "0" false } ∧
    (1000 : ℚ) ≤ 1500 ∧
    (buildStyledEdges c7edges c7map (.fin 1000) c7graph).get? 1 =
      some { edge := { id := "e2", source := "processor-0", target := "processor-1" }
             style := EdgeStyle.flow "#6b7280"
               (.fin (MIN_EDGE_WIDTH + (500 / 1500) * (MAX_EDGE_WIDTH - MIN_EDGE_WIDTH))) true } ∧
    MAX_EDGE_WIDTH < MAX_EDGE_WIDTH + OVERFLOW_EXTRA_WIDTH ∧
    (buildStyledEdges c7edges c7map (.fin 1000) c7graph).get? 2 =
      some { edge := { id := "e3", source := "processor-1", target := "processor-2" }
             style := EdgeStyle.flow "#38bdf8"
               (.fin (MAX_EDGE_WIDTH + OVERFLOW_EXTRA_WIDTH)) true } ∧
    (buildStyledEdges c7edges c7map (.fin 1000) c7graph).get? 3 =
      some { edge := { id := "e4", source := "processor-2", target := "output" }
             style := EdgeStyle.unchanged } := by
  have hmax : computeMaxTraffic c7edges c7map (.fin 1000) = .fin 1500 := by
    have hs : edgeTrafficValues c7edges c7map =
        [some (.fin 0), some (.fin 500), some (.fin 1500), none] := by
      simp +decide [edgeTrafficValues, edgeTraffic, c7edges, c7map, mapLookup_cons, mapLookup_nil]
    rw [computeMaxTraffic, hs]
    norm_num [JsNum.max2, max_def, List.filterMap_cons, List.filterMap_nil,
      List.foldl_cons, List.foldl_nil, id]
  have h0 := C7_edge_styles c7edges c7map c7graph 0
    { id := "e1", source := "input", target := "processor-0" } rfl
    (by simp [resourceIds, c7graph]) (by simp [resourceIds, c7graph])
  have h1 := C7_edge_styles c7edges c7map c7graph 1
    { id := "e2", source := "processor-0", target := "processor-1" } rfl
    (by simp [resourceIds, c7graph]) (by simp [resourceIds, c7graph])
  have h2 := C7_edge_styles c7edges c7map c7graph 2
    { id := "e3", source := "processor-1", target := "processor-2" } rfl
    (by simp [resourceIds, c7graph]) (by simp [resourceIds, c7graph])
  have h3 := C7_edge_styles c7edges c7map c7graph 3
    { id := "e4", source := "processor-2", target := "output" } rfl
    (by simp [resourceIds, c7graph]) (by simp [resourceIds, c7graph])
  refine ⟨hmax, h0.1 rfl, ?_⟩
  obtain ⟨hle, hmid⟩ := h1.2.1 1500 hmax rfl
  obtain ⟨hlt, hover⟩ := h2.2.2.1 rfl
  exact ⟨hle, hmid, hlt, hover, h3.2.2.2 rfl⟩

/-! ## C9 — samples with unknown metric names

The fixed name→field table of `accumulateMetric`.  An unknown-name sample
contributes no field values, but `groupMetricsByPath` still creates an empty
bundle entry for the sample's keys before the no-op accumulation, so the
produced maps are not literally identical to those without the sample: they
can contain extra entries holding the empty bundle. -/

def knownMetricNames : List String :=
  [ "input_received", "processor_received", "processor_sent", "output_sent",
    "processor_error", "output_error",
    "input_latency_ns", "processor_latency_ns", "output_latency_ns", "cache_latency_ns",
    "input_connection_up", "output_connection_up",
    "input_connection_failed", "output_connection_failed",
    "input_connection_lost", "output_connection_lost",
    "processor_batch_sent", "output_batch_sent", "processor_batch_received",
    "cache_not_found", "cache_sent", "cache_error" ]

theorem accumulateMetric_unknown (m : ComponentMetrics) (s : MetricSample)
    (h : s.name ∉ knownMetricNames) : accumulateMetric m s = m := by
  unfold accumulateMetric
  split
  all_goals try rfl
  all_goals (exfalso; apply h; simp_all [knownMetricNames])

/-- `m'` agrees with `m` except possibly for extra entries holding the empty
bundle. -/
def mapsAgreeUpToEmpty (m m' : List (String × ComponentMetrics)) : Prop :=
  ∀ k, mapLookup m' k = mapLookup m k ∨
    (mapLookup m' k = some emptyMetrics ∧ mapLookup m k = none)

def resultsAgreeUpToEmpty (r r' : MetricsResult) : Prop :=
  mapsAgreeUpToEmpty r.byPath r'.byPath ∧ mapsAgreeUpToEmpty r.byLabel r'.byLabel

/-- The get-or-create-then-accumulate update preserves the agreement. -/
theorem upd_preserves_agree (m m' : List (String × ComponentMetrics)) (key : String)
    (s : MetricSample) (h : mapsAgreeUpToEmpty m m') :
    mapsAgreeUpToEmpty
      (mapSet m key (accumulateMetric (mapGetD m key emptyMetrics) s))
      (mapSet m' key (accumulateMetric (mapGetD m' key emptyMetrics) s)) := by
  intro k
  rw [mapLookup_mapSet, mapLookup_mapSet]
  by_cases hk : key = k
  · simp only [if_pos hk]
    rcases h key with heq | ⟨h1, h2⟩
    · left
      rw [mapGetD, mapGetD, heq]
    · left
      rw [mapGetD, mapGetD, h1, h2]
      rfl
  · simp only [if_neg hk]
    exact h k

theorem groupStep_preserves_agree (r r' : MetricsResult) (s : MetricSample)
    (h : resultsAgreeUpToEmpty r r') :
    resultsAgreeUpToEmpty (groupStep r s) (groupStep r' s) := by
  obtain ⟨hp, hl⟩ := h
  unfold groupStep
  cases hpath : mapLookup s.labels "path" with
  | none =>
      cases hlab : mapLookup s.labels "label" with
      | none => exact ⟨hp, hl⟩
      | some lab =>
          by_cases hle : lab ≠ ""
          · simp only [if_pos hle]
            exact ⟨hp, upd_preserves_agree _ _ lab s hl⟩
          · simp only [if_neg hle]
            exact ⟨hp, hl⟩
  | some p =>
      by_cases hpe : p ≠ ""
      · simp only [if_pos hpe]
        cases hlab : mapLookup s.labels "label" with
        | none => exact ⟨upd_preserves_agree _ _ p s hp, hl⟩
        | some lab =>
            by_cases hle : lab ≠ ""
            · simp only [if_pos hle]
              exact ⟨upd_preserves_agree _ _ p s hp, upd_preserves_agree _ _ lab s hl⟩
            · simp only [if_neg hle]
              exact ⟨upd_preserves_agree _ _ p s hp, hl⟩
      · simp only [if_neg hpe]
        cases hlab : mapLookup s.labels "label" with
        | none => exact ⟨hp, hl⟩
        | some lab =>
            by_cases hle : lab ≠ ""
            · simp only [if_pos hle]
              exact ⟨hp, upd_preserves_agree _ _ lab s hl⟩
            · simp only [if_neg hle]
              exact ⟨hp, hl⟩

theorem foldl_preserves_agree (l : List MetricSample) :
    ∀ r r' : MetricsResult, resultsAgreeUpToEmpty r r' →
      resultsAgreeUpToEmpty (l.foldl groupStep r) (l.foldl groupStep r') := by
  induction l with
  | nil => exact fun r r' h => h
  | cons s rest ih =>
      intro r r' h
      exact ih _ _ (groupStep_preserves_agree r r' s h)

/-- Processing an unknown-name sample only adds empty-bundle entries. -/
theorem groupStep_unknown_agree (r : MetricsResult) (x : MetricSample)
    (hx : x.name ∉ knownMetricNames) : resultsAgreeUpToEmpty r (groupStep r x) := by
  have hacc : ∀ m : ComponentMetrics, accumulateMetric m x = m :=
    fun m => accumulateMetric_unknown m x hx
  have hupd : ∀ (m : List (String × ComponentMetrics)) (key : String),
      mapsAgreeUpToEmpty m (mapSet m key (accumulateMetric (mapGetD m key emptyMetrics) x)) := by
    intro m key k
    rw [mapLookup_mapSet, hacc]
    by_cases hk : key = k
    · subst hk
      simp only [if_pos rfl]
      cases hm : mapLookup m key with
      | none => exact Or.inr ⟨by rw [mapGetD, hm]; rfl, rfl⟩
      | some v => exact Or.inl (by rw [mapGetD, hm]; rfl)
    · simp [hk]
  unfold groupStep
  cases hpath : mapLookup x.labels "path" with
  | none =>
      cases hlab : mapLookup x.labels "label" with
      | none => exact ⟨fun k => Or.inl rfl, fun k => Or.inl rfl⟩
      | some lab =>
          by_cases hle : lab ≠ ""
          · simp only [if_pos hle]
            exact ⟨fun k => Or.inl rfl, hupd _ lab⟩
          · simp only [if_neg hle]
            exact ⟨fun k => Or.inl rfl, fun k => Or.inl rfl⟩
  | some p =>
      by_cases hpe : p ≠ ""
      · simp only [if_pos hpe]
        cases hlab : mapLookup x.labels "label" with
        | none => exact ⟨hupd _ p, fun k => Or.inl rfl⟩
        | some lab =>
            by_cases hle : lab ≠ ""
            · simp only [if_pos hle]
              exact ⟨hupd _ p, hupd _ lab⟩
            · simp only [if_neg hle]
              exact ⟨hupd _ p, fun k => Or.inl rfl⟩
      · simp only [if_neg hpe]
        cases hlab : mapLookup x.labels "label" with
        | none => exact ⟨fun k => Or.inl rfl, fun k => Or.inl rfl⟩
        | some lab =>
            by_cases hle : lab ≠ ""
            · simp only [if_pos hle]
              exact ⟨fun k => Or.inl rfl, hupd _ lab⟩
            · simp only [if_neg hle]
              exact ⟨fun k => Or.inl rfl, fun k => Or.inl rfl⟩

/-- A sample with an unknown name and a `path` label. -/
def c9bogus : MetricSample := { name := "bogus", labels := [("path", "root.input")], value := .fin 1 }

/-- C9 as stated is false: an unknown-name sample is not fully invisible —
it creates an empty bundle entry at its `path` key, so the `byPath` map
differs from the one produced without the sample. -/
theorem C9_unknown_sample_counterexample :
    ¬ (mapLookup (groupMetricsByPath [c9bogus]).byPath "root.input" =
        mapLookup (groupMetricsByPath []).byPath "root.input") := by
  decide

/-- C9 amended: a sample whose metric name is outside the fixed table
contributes no metric fields — every key of the byPath/byLabel maps resolves
to the same bundle as without the sample, except that the sample's own keys
may additionally be present holding the empty bundle. -/
theorem C9_unknown_sample_only_adds_empty (l1 l2 : List MetricSample) (x : MetricSample)
    (hx : x.name ∉ knownMetricNames) :
    resultsAgreeUpToEmpty (groupMetricsByPath (l1 ++ l2))
      (groupMetricsByPath (l1 ++ x :: l2)) := by
  unfold groupMetricsByPath
  rw [List.foldl_append, List.foldl_append, List.foldl_cons]
  exact foldl_preserves_agree l2 _ _
    (groupStep_unknown_agree (l1.foldl groupStep { byPath := [], byLabel := [] }) x hx)

/-- Witness for the amended C9 at a concrete sample list. -/
theorem C9_unknown_sample_only_adds_empty_witness :
    ("bogus" ∉ knownMetricNames) ∧
    resultsAgreeUpToEmpty
      (groupMetricsByPath [{ name := "input_received", labels := [("path", "root.input")], value := .fin 3 }])
      (groupMetricsByPath [{ name := "input_received", labels := [("path", "root.input")], value := .fin 3 },
        c9bogus]) :=
  ⟨by decide,
    C9_unknown_sample_only_adds_empty
      [{ name := "input_received", labels := [("path", "root.input")], value := .fin 3 }] [] c9bogus
      (by decide)⟩

/-! ## C2 / C4 — graph construction machinery

The node-id grammar of the resolver (`input`, `processor-i`, `output`,
`output-broker-i`/`-switch-i`/`-fanout-i`, `cache-i`, `rate-limit-i`) lets
edges be discriminated by the first character or the length of their
endpoint ids. -/

theorem strNe_of_head {s t : String} {c d : Char} (hs : s.data.head? = some c)
    (ht : t.data.head? = some d) (hcd : c ≠ d) : s ≠ t := by
  intro h
  subst h
  rw [hs] at ht
  exact hcd (Option.some.inj ht)

theorem mkProcId_ne_input (i : ℕ) : mkProcId i ≠ "input" := by
  intro h
  have hl := congrArg String.length h
  simp only [mkProcId, String.length_append] at hl
  have h1 : (toString "processor-").length = 10 := rfl
  have h2 : (toString "").length = 0 := rfl
  have h3 : ("input" : String).length = 5 := rfl
  omega

theorem mkProcId_ne_output (i : ℕ) : mkProcId i ≠ "output" := by
  intro h
  have hl := congrArg String.length h
  simp only [mkProcId, String.length_append] at hl
  have h1 : (toString "processor-").length = 10 := rfl
  have h2 : (toString "").length = 0 := rfl
  have h3 : ("output" : String).length = 6 := rfl
  omega

theorem mkProcId_head (i : ℕ) : (mkProcId i).data.head? = some 'p' := rfl

/-- Whether the `input` section produces a node. -/
def inputPresent (cfg : BenthosConfig) : Bool :=
  match cfg.input with
  | some v => jsTruthy v
  | none => false

/-- Whether the `output` section produces a node. -/
def outputPresent (cfg : BenthosConfig) : Bool :=
  match cfg.output with
  | some v => jsTruthy v
  | none => false

/-- The processor nodes, in position order. -/
def pNodes : List CVal → ℕ → List PipelineNode
  | [], _ => []
  | proc :: rest, i => mkProcNode proc i :: pNodes rest (i + 1)

/-- The backbone edges added by the processor loop: `input → processor-0`
(only when the input node exists) and `processor-(i-1) → processor-i`. -/
def pEdges (flag : Bool) : List CVal → ℕ → List PipelineEdge
  | [], _ => []
  | _ :: rest, i =>
      (if i = 0 then (if flag then [mkBackEdge "input" 0] else [])
       else [mkBackEdge (mkProcId (i - 1)) i]) ++ pEdges flag rest (i + 1)

/-- The processor loop appends exactly `pNodes`/`pEdges`. -/
theorem procLoop_eq (procs : List CVal) :
    ∀ (i : ℕ) (ns : List PipelineNode) (es : List PipelineEdge) (flag : Bool),
      ns.any (fun n => n.id = "input") = flag →
      (0 < i → ns.any (fun n => n.id = mkProcId (i - 1)) = true) →
      procLoop procs i ns es = (ns ++ pNodes procs i, es ++ pEdges flag procs i) := by
  induction procs with
  | nil =>
      intro i ns es flag _ _
      simp [procLoop, pNodes, pEdges]
  | cons proc rest ih =>
      intro i ns es flag hflag hprev
      have hid : (mkProcNode proc i).id = mkProcId i := rfl
      have hstep : procLoop (proc :: rest) i ns es =
          procLoop rest (i + 1) (ns ++ [mkProcNode proc i])
            (if (ns ++ [mkProcNode proc i]).any (fun n => n.id = prevIdOf i) then
              es ++ [mkBackEdge (prevIdOf i) i]
            else es) := rfl
      have hflag' : (ns ++ [mkProcNode proc i]).any (fun n => n.id = "input") = flag := by
        rw [List.any_append]
        simp only [List.any_cons, List.any_nil, hid]
        rw [hflag]
        simp [mkProcId_ne_input i]
      have hprev' : 0 < i + 1 →
          (ns ++ [mkProcNode proc i]).any (fun n => n.id = mkProcId (i + 1 - 1)) = true := by
        intro _
        rw [List.any_append]
        simp [hid]
      rw [hstep, ih (i + 1) _ _ flag hflag' hprev']
      by_cases hi : i = 0
      · subst hi
        have hprevId : prevIdOf 0 = "input" := rfl
        rw [hprevId, hflag']
        cases flag with
        | true =>
            simp only [if_pos rfl]
            refine Prod.ext ?_ ?_ <;> simp [pNodes, pEdges]
        | false =>
            simp only [Bool.false_eq_true, if_neg (by simp : ¬ (false = true))]
            refine Prod.ext ?_ ?_ <;> simp [pNodes, pEdges]
      · have hprevId : prevIdOf i = mkProcId (i - 1) := by simp [prevIdOf, hi]
        have hany : (ns ++ [mkProcNode proc i]).any (fun n => n.id = mkProcId (i - 1)) = true := by
          rw [List.any_append, hprev (Nat.pos_of_ne_zero hi)]
          simp
        rw [hprevId, hany]
        simp only [if_pos rfl]
        refine Prod.ext ?_ ?_ <;> simp [pNodes, pEdges, if_neg hi]

theorem pNodes_types : ∀ (procs : List CVal) (i : ℕ),
    ∀ n ∈ pNodes procs i, n.type = NodeType.processor := by
  intro procs
  induction procs with
  | nil => intro i n hn; simp [pNodes] at hn
  | cons proc rest ih =>
      intro i n hn
      rcases List.mem_cons.mp hn with h | h
      · subst h; rfl
      · exact ih (i + 1) n h

theorem pNodes_metricPaths : ∀ (procs : List CVal) (i : ℕ),
    (pNodes procs i).map (fun n => n.metricPath) =
      (List.range' i procs.length).map (fun j => s!"root.pipeline.processors.{j}") := by
  intro procs
  induction procs with
  | nil => intro i; rfl
  | cons proc rest ih =>
      intro i
      simp only [pNodes, List.map_cons, List.length_cons, List.range'_succ, ih (i + 1)]
      rfl

theorem pNodes_any_id : ∀ (procs : List CVal) (i j : ℕ), i ≤ j → j < i + procs.length →
    (pNodes procs i).any (fun n => n.id = mkProcId j) = true := by
  intro procs
  induction procs with
  | nil => intro i j h1 h2; simp at h2; omega
  | cons proc rest ih =>
      intro i j h1 h2
      simp only [List.length_cons] at h2
      simp only [pNodes, List.any_cons]
      by_cases hj : j = i
      · subst hj
        have : (mkProcNode proc j).id = mkProcId j := rfl
        simp [this]
      · have := ih (i + 1) j (by omega) (by omega)
        simp [this]

theorem pEdges_mem : ∀ (procs : List CVal) (i : ℕ) (flag : Bool) (e : PipelineEdge),
    e ∈ pEdges flag procs i →
      (e = mkBackEdge "input" 0 ∧ flag = true ∧ i = 0) ∨
      (∃ j, 0 < j ∧ e = mkBackEdge (mkProcId (j - 1)) j) := by
  intro procs
  induction procs with
  | nil => intro i flag e he; simp [pEdges] at he
  | cons proc rest ih =>
      intro i flag e he
      simp only [pEdges, List.mem_append] at he
      rcases he with he | he
      · by_cases hi : i = 0
        · subst hi
          simp only [if_pos rfl] at he
          cases flag with
          | true =>
              simp at he
              exact Or.inl ⟨he, rfl, rfl⟩
          | false => simp at he
        · simp only [if_neg hi] at he
          simp at he
          exact Or.inr ⟨i, Nat.pos_of_ne_zero hi, he⟩
      · rcases ih (i + 1) flag e he with ⟨h1, h2, h3⟩ | h
        · omega
        · exact Or.inr h

theorem pEdges_input_edge : ∀ (procs : List CVal), procs ≠ [] →
    mkBackEdge "input" 0 ∈ pEdges true procs 0 := by
  intro procs h
  cases procs with
  | nil => exact absurd rfl h
  | cons proc rest => simp [pEdges]

theorem pEdges_middle_edge : ∀ (procs : List CVal) (i j : ℕ), 0 < j → i ≤ j →
    j < i + procs.length → mkBackEdge (mkProcId (j - 1)) j ∈ pEdges flag procs i := by
  intro procs
  induction procs with
  | nil => intro i j h0 h1 h2; simp at h2; omega
  | cons proc rest ih =>
      intro i j h0 h1 h2
      simp only [List.length_cons] at h2
      simp only [pEdges, List.mem_append]
      by_cases hj : j = i
      · subst hj
        left
        simp [if_neg (by omega : ¬ j = 0)]
      · right
        exact ih (i + 1) j h0 (by omega) (by omega)

theorem brokerLoop_edge_props (bp : String) : ∀ (outputs : List CVal) (i : ℕ),
    ∀ e ∈ (brokerLoop "output" bp outputs i).2,
      e.source = "output" ∧ e.target.data.head? = some 'o' ∧ 6 < e.target.length := by
  intro outputs
  induction outputs with
  | nil => intro i e he; simp [brokerLoop] at he
  | cons sub rest ih =>
      intro i e he
      rcases List.mem_cons.mp he with h | h
      · subst h
        refine ⟨rfl, rfl, ?_⟩
        show 6 < (toString "output" ++ toString "-broker-" ++ toString i ++ toString "").length
        simp only [String.length_append]
        have h1 : (toString "output").length = 6 := rfl
        have h2 : (toString "-broker-").length = 8 := rfl
        have h3 : (toString "").length = 0 := rfl
        omega
      · exact ih (i + 1) e h

theorem fanoutLoop_edge_props (bp : String) : ∀ (items : List CVal) (i : ℕ),
    ∀ e ∈ (fanoutLoop "output" bp items i).2,
      e.source = "output" ∧ e.target.data.head? = some 'o' ∧ 6 < e.target.length := by
  intro items
  induction items with
  | nil => intro i e he; simp [fanoutLoop] at he
  | cons sub rest ih =>
      intro i e he
      rcases List.mem_cons.mp he with h | h
      · subst h
        refine ⟨rfl, rfl, ?_⟩
        show 6 < (toString "output" ++ toString "-fanout-" ++ toString i ++ toString "").length
        simp only [String.length_append]
        have h1 : (toString "output").length = 6 := rfl
        have h2 : (toString "-fanout-").length = 8 := rfl
        have h3 : (toString "").length = 0 := rfl
        omega
      · exact ih (i + 1) e h

theorem switchLoop_types (pid bp : String) : ∀ (cases : List CVal) (i : ℕ),
    ∀ n ∈ (switchLoop pid bp cases i).1, n.type = NodeType.output := by
  intro cases
  induction cases with
  | nil => intro i n hn; simp [switchLoop] at hn
  | cons c rest ih =>
      intro i n hn
      unfold switchLoop at hn
      split at hn
      · split at hn
        · rcases List.mem_cons.mp hn with h | h
          · subst h; rfl
          · exact ih (i + 1) n h
        · exact ih (i + 1) n hn
      · exact ih (i + 1) n hn

theorem switchLoop_edge_props (bp : String) : ∀ (cases : List CVal) (i : ℕ),
    ∀ e ∈ (switchLoop "output" bp cases i).2,
      e.source = "output" ∧ e.target.data.head? = some 'o' ∧ 6 < e.target.length := by
  intro cases
  induction cases with
  | nil => intro i e he; simp [switchLoop] at he
  | cons c rest ih =>
      intro i e he
      unfold switchLoop at he
      split at he
      · split at he
        · rcases List.mem_cons.mp he with h | h
          · subst h
            refine ⟨rfl, rfl, ?_⟩
            show 6 < (toString "output" ++ toString "-switch-" ++ toString i ++ toString "").length
            simp only [String.length_append]
            have h1 : (toString "output").length = 6 := rfl
            have h2 : (toString "-switch-").length = 8 := rfl
            have h3 : (toString "").length = 0 := rfl
            omega
          · exact ih (i + 1) e h
        · exact ih (i + 1) e he
      · exact ih (i + 1) e he

/-- The sub-output expansion synthesizes only `output`-typed nodes, and only
edges leaving the primary `output` node whose targets are longer derived ids
starting with `o`. -/
theorem extractSubOutputs_props (v : CVal) (bp : String) :
    (∀ n ∈ (extractSubOutputs v "output" bp).1, n.type = NodeType.output) ∧
    (∀ e ∈ (extractSubOutputs v "output" bp).2,
      e.source = "output" ∧ e.target.data.head? = some 'o' ∧ 6 < e.target.length) := by
  unfold extractSubOutputs
  by_cases h1 : getComponentType v = "broker"
  · simp only [if_pos h1]
    rcases hm : (jsIndex v (getComponentType v)).bind (fun w => jsIndex w "outputs") with - | w
    · simp
    · cases w with
      | arr outputs =>
          exact ⟨fun n hn => (brokerLoop_spec "output" bp outputs 0).2.2.2.1 n hn,
            fun e he => brokerLoop_edge_props bp outputs 0 e he⟩
      | _ => simp
  · simp only [if_neg h1]
    by_cases h2 : getComponentType v = "switch"
    · simp only [if_pos h2]
      rcases hm : (jsIndex v (getComponentType v)).bind (fun w => jsIndex w "cases") with - | w
      · simp
      · cases w with
        | arr cases =>
            exact ⟨fun n hn => switchLoop_types "output" bp cases 0 n hn,
              fun e he => switchLoop_edge_props bp cases 0 e he⟩
        | _ => simp
    · simp only [if_neg h2]
      by_cases h3 : getComponentType v = "fan_out"
      · simp only [if_pos h3]
        rcases hm : jsIndex v (getComponentType v) with - | w
        · simp
        · cases w with
          | arr items =>
              exact ⟨fun n hn => (fanoutLoop_spec "output" bp items 0).2.2.2.1 n hn,
                fun e he => fanoutLoop_edge_props bp items 0 e he⟩
          | _ => simp
      · simp only [if_neg h3]
        simp

/-! ### `connectResources` decomposition -/

theorem addEdgeDedup_cases (es : List PipelineEdge) (src tgt : String) :
    addEdgeDedup es src tgt = es ∨
    addEdgeDedup es src tgt =
      es ++ [{ id := s!"e-{src}-{tgt}", source := src, target := tgt }] := by
  unfold addEdgeDedup
  by_cases h : es.any (fun e => e.id = s!"e-{src}-{tgt}")
  · exact Or.inl (by simp [h])
  · exact Or.inr (by simp [h])

/-- One reference fold of `connectNode` only appends edges sourced at the
node whose targets come from successful lookups of collected names. -/
theorem refsFold_decomp (m : List (CVal × String)) (src : String) :
    ∀ (names : List String) (es : List PipelineEdge),
      ∃ extra,
        names.foldl (fun es name =>
          match resourceLookup m name with
          | some tid => addEdgeDedup es src tid
          | none => es) es = es ++ extra ∧
        ∀ e ∈ extra, e.source = src ∧
          ∃ name ∈ names, resourceLookup m name = some e.target := by
  intro names
  induction names with
  | nil => exact fun es => ⟨[], by simp, by simp⟩
  | cons name rest ih =>
      intro es
      rw [List.foldl_cons]
      rcases hr : resourceLookup m name with - | tid
      · simp only [hr]
        obtain ⟨extra, heq, hprops⟩ := ih es
        exact ⟨extra, heq, fun e he =>
          ⟨(hprops e he).1, by
            obtain ⟨nm, hnm, hl⟩ := (hprops e he).2
            exact ⟨nm, List.mem_cons_of_mem _ hnm, hl⟩⟩⟩
      · simp only [hr]
        rcases addEdgeDedup_cases es src tid with hcase | hcase
        · rw [hcase]
          obtain ⟨extra, heq, hprops⟩ := ih es
          exact ⟨extra, heq, fun e he =>
            ⟨(hprops e he).1, by
              obtain ⟨nm, hnm, hl⟩ := (hprops e he).2
              exact ⟨nm, List.mem_cons_of_mem _ hnm, hl⟩⟩⟩
        · rw [hcase]
          obtain ⟨extra, heq, hprops⟩ :=
            ih (es ++ [{ id := s!"e-{src}-{tid}", source := src, target := tid }])
          refine ⟨{ id := s!"e-{src}-{tid}", source := src, target := tid } :: extra, ?_, ?_⟩
          · rw [heq]
            simp
          · intro e he
            rcases List.mem_cons.mp he with h | h
            · subst h
              exact ⟨rfl, name, List.mem_cons_self _ _, by rw [hr]⟩
            · exact ⟨(hprops e h).1, by
                obtain ⟨nm, hnm, hl⟩ := (hprops e h).2
                exact ⟨nm, List.mem_cons_of_mem _ hnm, hl⟩⟩

/-- `connectNode` only appends reference edges of a non-resource node. -/
theorem connectNode_decomp (maps : List (CVal × String) × List (CVal × String))
    (es : List PipelineEdge) (nd : PipelineNode) :
    ∃ extra, connectNode maps es nd = es ++ extra ∧
      ∀ e ∈ extra, nd.type ≠ NodeType.cache ∧ nd.type ≠ NodeType.rate_limit ∧
        e.source = nd.id ∧
        ((∃ name ∈ (extractResourceRefs nd.config).caches,
            resourceLookup maps.1 name = some e.target) ∨
         (∃ name ∈ (extractResourceRefs nd.config).rateLimits,
            resourceLookup maps.2 name = some e.target)) := by
  cases htype : nd.type with
  | cache => exact ⟨[], by simp [connectNode, htype], by simp⟩
  | rate_limit => exact ⟨[], by simp [connectNode, htype], by simp⟩
  | input =>
      obtain ⟨ex1, heq1, hp1⟩ :=
        refsFold_decomp maps.1 nd.id (extractResourceRefs nd.config).caches es
      obtain ⟨ex2, heq2, hp2⟩ :=
        refsFold_decomp maps.2 nd.id (extractResourceRefs nd.config).rateLimits (es ++ ex1)
      refine ⟨ex1 ++ ex2, ?_, ?_⟩
      · simp only [connectNode, htype]
        rw [heq1, heq2, List.append_assoc]
      · intro e he
        rcases List.mem_append.mp he with h | h
        · exact ⟨by simp [htype], by simp [htype], (hp1 e h).1, Or.inl (hp1 e h).2⟩
        · exact ⟨by simp [htype], by simp [htype], (hp2 e h).1, Or.inr (hp2 e h).2⟩
  | processor =>
      obtain ⟨ex1, heq1, hp1⟩ :=
        refsFold_decomp maps.1 nd.id (extractResourceRefs nd.config).caches es
      obtain ⟨ex2, heq2, hp2⟩ :=
        refsFold_decomp maps.2 nd.id (extractResourceRefs nd.config).rateLimits (es ++ ex1)
      refine ⟨ex1 ++ ex2, ?_, ?_⟩
      · simp only [connectNode, htype]
        rw [heq1, heq2, List.append_assoc]
      · intro e he
        rcases List.mem_append.mp he with h | h
        · exact ⟨by simp [htype], by simp [htype], (hp1 e h).1, Or.inl (hp1 e h).2⟩
        · exact ⟨by simp [htype], by simp [htype], (hp2 e h).1, Or.inr (hp2 e h).2⟩
  | output =>
      obtain ⟨ex1, heq1, hp1⟩ :=
        refsFold_decomp maps.1 nd.id (extractResourceRefs nd.config).caches es
      obtain ⟨ex2, heq2, hp2⟩ :=
        refsFold_decomp maps.2 nd.id (extractResourceRefs nd.config).rateLimits (es ++ ex1)
      refine ⟨ex1 ++ ex2, ?_, ?_⟩
      · simp only [connectNode, htype]
        rw [heq1, heq2, List.append_assoc]
      · intro e he
        rcases List.mem_append.mp he with h | h
        · exact ⟨by simp [htype], by simp [htype], (hp1 e h).1, Or.inl (hp1 e h).2⟩
        · exact ⟨by simp [htype], by simp [htype], (hp2 e h).1, Or.inr (hp2 e h).2⟩

/-- The node scan of `connectResources` appends only reference edges of
non-resource nodes of the scanned list. -/
theorem connectFold_decomp (maps : List (CVal × String) × List (CVal × String)) :
    ∀ (ns : List PipelineNode) (es : List PipelineEdge),
      ∃ extra, ns.foldl (connectNode maps) es = es ++ extra ∧
        ∀ e ∈ extra, ∃ nd ∈ ns, nd.type ≠ NodeType.cache ∧ nd.type ≠ NodeType.rate_limit ∧
          e.source = nd.id ∧
          ((∃ name ∈ (extractResourceRefs nd.config).caches,
              resourceLookup maps.1 name = some e.target) ∨
           (∃ name ∈ (extractResourceRefs nd.config).rateLimits,
              resourceLookup maps.2 name = some e.target)) := by
  intro ns
  induction ns with
  | nil => exact fun es => ⟨[], by simp, by simp⟩
  | cons nd rest ih =>
      intro es
      rw [List.foldl_cons]
      obtain ⟨ex1, heq1, hp1⟩ := connectNode_decomp maps es nd
      obtain ⟨ex2, heq2, hp2⟩ := ih (connectNode maps es nd)
      refine ⟨ex1 ++ ex2, ?_, ?_⟩
      · rw [heq2, heq1, List.append_assoc]
      · intro e he
        rcases List.mem_append.mp he with h | h
        · exact ⟨nd, List.mem_cons_self _ _, hp1 e h⟩
        · obtain ⟨nd', hnd', hprops⟩ := hp2 e h
          exact ⟨nd', List.mem_cons_of_mem _ hnd', hprops⟩

/-- `connectResources` only appends reference edges. -/
theorem connectResources_decomp (ns : List PipelineNode) (es : List PipelineEdge) :
    ∃ extra, connectResources ns es = es ++ extra ∧
      ∀ e ∈ extra, ∃ nd ∈ ns, nd.type ≠ NodeType.cache ∧ nd.type ≠ NodeType.rate_limit ∧
        e.source = nd.id ∧
        ((∃ name ∈ (extractResourceRefs nd.config).caches,
            resourceLookup (buildResourceMaps ns).1 name = some e.target) ∨
         (∃ name ∈ (extractResourceRefs nd.config).rateLimits,
            resourceLookup (buildResourceMaps ns).2 name = some e.target)) := by
  unfold connectResources
  by_cases hempty : (buildResourceMaps ns).1.isEmpty && (buildResourceMaps ns).2.isEmpty
  · exact ⟨[], by simp [hempty], by simp⟩
  · obtain ⟨extra, heq, hprops⟩ := connectFold_decomp (buildResourceMaps ns) ns es
    exact ⟨extra, by simp only [hempty]; exact heq, hprops⟩

/-- Every map entry inserted by `cvalMapSet` either existed before or carries
the inserted value. -/
theorem cvalMapSet_mem (m : List (CVal × String)) (k : CVal) (v : String) :
    ∀ p ∈ cvalMapSet m k v, p ∈ m ∨ p.2 = v := by
  induction m with
  | nil =>
      intro p hp
      simp [cvalMapSet] at hp
      exact Or.inr (by rw [hp])
  | cons q rest ih =>
      obtain ⟨k0, v0⟩ := q
      intro p hp
      unfold cvalMapSet at hp
      split at hp
      · rcases List.mem_cons.mp hp with h | h
        · exact Or.inr (by rw [h])
        · exact Or.inl (List.mem_cons_of_mem _ h)
      · rcases List.mem_cons.mp hp with h | h
        · exact Or.inl (by rw [h]; exact List.mem_cons_self _ _)
        · rcases ih p h with h' | h'
          · exact Or.inl (List.mem_cons_of_mem _ h')
          · exact Or.inr h'

/-- Every value of the cache (resp. rate-limit) label map is the id of a
cache (resp. rate-limit) node of the scanned list. -/
theorem buildResourceMaps_values (ns : List PipelineNode) :
    (∀ p ∈ (buildResourceMaps ns).1, ∃ nd ∈ ns, nd.type = NodeType.cache ∧ p.2 = nd.id) ∧
    (∀ p ∈ (buildResourceMaps ns).2, ∃ nd ∈ ns, nd.type = NodeType.rate_limit ∧ p.2 = nd.id) := by
  have main : ∀ (ns' : List PipelineNode)
      (acc : List (CVal × String) × List (CVal × String)),
      (∀ p ∈ (ns'.foldl (fun ms nd =>
          match nd.type with
          | NodeType.cache => (cvalMapSet ms.1 nd.label nd.id, ms.2)
          | NodeType.rate_limit => (ms.1, cvalMapSet ms.2 nd.label nd.id)
          | _ => ms) acc).1,
        p ∈ acc.1 ∨ ∃ nd ∈ ns', nd.type = NodeType.cache ∧ p.2 = nd.id) ∧
      (∀ p ∈ (ns'.foldl (fun ms nd =>
          match nd.type with
          | NodeType.cache => (cvalMapSet ms.1 nd.label nd.id, ms.2)
          | NodeType.rate_limit => (ms.1, cvalMapSet ms.2 nd.label nd.id)
          | _ => ms) acc).2,
        p ∈ acc.2 ∨ ∃ nd ∈ ns', nd.type = NodeType.rate_limit ∧ p.2 = nd.id) := by
    intro ns'
    induction ns' with
    | nil => exact fun acc => ⟨fun p hp => Or.inl hp, fun p hp => Or.inl hp⟩
    | cons nd rest ih =>
        intro acc
        rw [List.foldl_cons]
        constructor
        · intro p hp
          cases htype : nd.type with
          | cache =>
              rw [htype] at hp
              rcases (ih _).1 p hp with h | ⟨nd', hnd', ht', hv'⟩
              · rcases cvalMapSet_mem acc.1 nd.label nd.id p h with h' | h'
                · exact Or.inl h'
                · exact Or.inr ⟨nd, List.mem_cons_self _ _, htype, h'⟩
              · exact Or.inr ⟨nd', List.mem_cons_of_mem _ hnd', ht', hv'⟩
          | rate_limit =>
              rw [htype] at hp
              rcases (ih _).1 p hp with h | ⟨nd', hnd', ht', hv'⟩
              · exact Or.inl h
              · exact Or.inr ⟨nd', List.mem_cons_of_mem _ hnd', ht', hv'⟩
          | input =>
              rw [htype] at hp
              rcases (ih _).1 p hp with h | ⟨nd', hnd', ht', hv'⟩
              · exact Or.inl h
              · exact Or.inr ⟨nd', List.mem_cons_of_mem _ hnd', ht', hv'⟩
          | processor =>
              rw [htype] at hp
              rcases (ih _).1 p hp with h | ⟨nd', hnd', ht', hv'⟩
              · exact Or.inl h
              · exact Or.inr ⟨nd', List.mem_cons_of_mem _ hnd', ht', hv'⟩
          | output =>
              rw [htype] at hp
              rcases (ih _).1 p hp with h | ⟨nd', hnd', ht', hv'⟩
              · exact Or.inl h
              · exact Or.inr ⟨nd', List.mem_cons_of_mem _ hnd', ht', hv'⟩
        · intro p hp
          cases htype : nd.type with
          | cache =>
              rw [htype] at hp
              rcases (ih _).2 p hp with h | ⟨nd', hnd', ht', hv'⟩
              · exact Or.inl h
              · exact Or.inr ⟨nd', List.mem_cons_of_mem _ hnd', ht', hv'⟩
          | rate_limit =>
              rw [htype] at hp
              rcases (ih _).2 p hp with h | ⟨nd', hnd', ht', hv'⟩
              · rcases cvalMapSet_mem acc.2 nd.label nd.id p h with h' | h'
                · exact Or.inl h'
                · exact Or.inr ⟨nd, List.mem_cons_self _ _, htype, h'⟩
              · exact Or.inr ⟨nd', List.mem_cons_of_mem _ hnd', ht', hv'⟩
          | input =>
              rw [htype] at hp
              rcases (ih _).2 p hp with h | ⟨nd', hnd', ht', hv'⟩
              · exact Or.inl h
              · exact Or.inr ⟨nd', List.mem_cons_of_mem _ hnd', ht', hv'⟩
          | processor =>
              rw [htype] at hp
              rcases (ih _).2 p hp with h | ⟨nd', hnd', ht', hv'⟩
              · exact Or.inl h
              · exact Or.inr ⟨nd', List.mem_cons_of_mem _ hnd', ht', hv'⟩
          | output =>
              rw [htype] at hp
              rcases (ih _).2 p hp with h | ⟨nd', hnd', ht', hv'⟩
              · exact Or.inl h
              · exact Or.inr ⟨nd', List.mem_cons_of_mem _ hnd', ht', hv'⟩
  exact ⟨fun p hp => by
      rcases (main ns ([], [])).1 p hp with h | h
      · simp at h
      · exact h,
    fun p hp => by
      rcases (main ns ([], [])).2 p hp with h | h
      · simp at h
      · exact h⟩

/-- A successful `resourceLookup` returns one of the map's values. -/
theorem resourceLookup_mem (m : List (CVal × String)) (name tid : String)
    (h : resourceLookup m name = some tid) : ∃ k, (k, tid) ∈ m := by
  unfold resourceLookup at h
  cases hf : m.find? (fun p => p.1 == CVal.str name) with
  | none => rw [hf] at h; simp at h
  | some p =>
      rw [hf] at h
      simp at h
      have hp := List.mem_of_find?_eq_some hf
      exact ⟨p.1, by rw [← h]; exact hp⟩

/-- The node list contributed by the `output` section. -/
def outNodesOf (config : BenthosConfig) : List PipelineNode :=
  match config.output with
  | some v => if jsTruthy v then [mkOutputNode v] else []
  | none => []

/-- The backbone edge into `output`, present when the output exists and the
previous backbone node (last processor, else input) exists. -/
def outEdgeChunk (cfg : BenthosConfig) : List PipelineEdge :=
  if outputPresent cfg = true then
    (if 0 < (procsOf cfg).length then [outBackEdge (mkProcId ((procsOf cfg).length - 1))]
     else if inputPresent cfg = true then [outBackEdge "input"] else [])
  else []

theorem inputNodesOf_any (cfg : BenthosConfig) :
    (inputNodesOf cfg).any (fun n => n.id = "input") = inputPresent cfg := by
  unfold inputNodesOf inputPresent
  cases cfg.input with
  | none => rfl
  | some v => by_cases h : jsTruthy v <;> simp [h, mkInputNode]

/-- Structural decomposition of `configToGraph`: nodes in section order, and
edges as processor backbone ++ output backbone ++ sub-output edges ++
resource-reference edges, with the discriminating properties of the last two
groups. -/
theorem configToGraph_decomp (cfg : BenthosConfig) :
    ∃ subN subE extra,
      configToGraph cfg = {
        nodes := inputNodesOf cfg ++ pNodes (procsOf cfg) 0 ++ outNodesOf cfg ++ subN ++
          ((match cfg.cache_resources with
            | some caches => cacheNodes caches
            | none => []) ++
           (match cfg.rate_limit_resources with
            | some rls => rateLimitNodes rls
            | none => [])),
        edges := pEdges (inputPresent cfg) (procsOf cfg) 0 ++ outEdgeChunk cfg ++ subE ++ extra } ∧
      (∀ n ∈ subN, n.type = NodeType.output) ∧
      (∀ e ∈ subE, e.source = "output" ∧ e.target.data.head? = some 'o' ∧ 6 < e.target.length) ∧
      (∀ e ∈ extra, ∃ nd ∈ (configToGraph cfg).nodes,
        (nd.type = NodeType.cache ∨ nd.type = NodeType.rate_limit) ∧ e.target = nd.id) := by
  have hstep2 : procLoop (procsOf cfg) 0 (inputNodesOf cfg) [] =
      (inputNodesOf cfg ++ pNodes (procsOf cfg) 0,
       [] ++ pEdges (inputPresent cfg) (procsOf cfg) 0) :=
    procLoop_eq (procsOf cfg) 0 (inputNodesOf cfg) [] (inputPresent cfg)
      (inputNodesOf_any cfg) (by omega)
  -- the output section
  have hout : ∃ subN subE,
      (match cfg.output with
       | some v =>
           if jsTruthy v then
             let ns := (procLoop (procsOf cfg) 0 (inputNodesOf cfg) []).1 ++ [mkOutputNode v]
             let prevId := if (procsOf cfg).length > 0 then mkProcId ((procsOf cfg).length - 1)
               else "input"
             let es :=
               if ns.any (fun n => n.id = prevId) then
                 (procLoop (procsOf cfg) 0 (inputNodesOf cfg) []).2 ++ [outBackEdge prevId]
               else (procLoop (procsOf cfg) 0 (inputNodesOf cfg) []).2
             let sub := extractSubOutputs v "output" "root.output"
             (ns ++ sub.1, es ++ sub.2)
           else procLoop (procsOf cfg) 0 (inputNodesOf cfg) []
       | none => procLoop (procsOf cfg) 0 (inputNodesOf cfg) []) =
      (inputNodesOf cfg ++ pNodes (procsOf cfg) 0 ++ outNodesOf cfg ++ subN,
       pEdges (inputPresent cfg) (procsOf cfg) 0 ++ outEdgeChunk cfg ++ subE) ∧
      (∀ n ∈ subN, n.type = NodeType.output) ∧
      (∀ e ∈ subE, e.source = "output" ∧ e.target.data.head? = some 'o' ∧ 6 < e.target.length) := by
    cases hov : cfg.output with
    | none =>
        refine ⟨[], [], ?_, by simp, by simp⟩
        have houtn : outNodesOf cfg = [] := by simp [outNodesOf, hov]
        have houtp : outputPresent cfg = false := by simp [outputPresent, hov]
        rw [hstep2]
        simp [houtn, outEdgeChunk, houtp]
    | some v =>
        by_cases ht : jsTruthy v
        · have houtn : outNodesOf cfg = [mkOutputNode v] := by simp [outNodesOf, hov, ht]
          have houtp : outputPresent cfg = true := by simp [outputPresent, hov, ht]
          refine ⟨(extractSubOutputs v "output" "root.output").1,
            (extractSubOutputs v "output" "root.output").2, ?_,
            (extractSubOutputs_props v "root.output").1,
            (extractSubOutputs_props v "root.output").2⟩
          simp only [ht, if_pos]
          rw [hstep2]
          by_cases hn : 0 < (procsOf cfg).length
          · have hprev : (if (procsOf cfg).length > 0 then mkProcId ((procsOf cfg).length - 1)
                else "input") = mkProcId ((procsOf cfg).length - 1) := by simp [hn]
            have hany : ((inputNodesOf cfg ++ pNodes (procsOf cfg) 0) ++ [mkOutputNode v]).any
                (fun n => n.id = mkProcId ((procsOf cfg).length - 1)) = true := by
              rw [List.any_append, List.any_append]
              rw [pNodes_any_id (procsOf cfg) 0 ((procsOf cfg).length - 1) (by omega) (by omega)]
              simp
            have hchunk : outEdgeChunk cfg = [outBackEdge (mkProcId ((procsOf cfg).length - 1))] := by
              simp [outEdgeChunk, houtp, hn]
            rw [hprev]
            simp only [hany, if_pos]
            rw [houtn, hchunk]
            refine Prod.ext ?_ ?_ <;> simp
          · have hlen0 : (procsOf cfg).length = 0 := by omega
            have hprev : (if (procsOf cfg).length > 0 then mkProcId ((procsOf cfg).length - 1)
                else "input") = "input" := by simp [hlen0]
            have hpn : pNodes (procsOf cfg) 0 = [] := by
              have : (procsOf cfg).length = 0 := by omega
              cases hp : procsOf cfg with
              | nil => rfl
              | cons a l => rw [hp] at this; simp at this
            have hany : ((inputNodesOf cfg ++ pNodes (procsOf cfg) 0) ++ [mkOutputNode v]).any
                (fun n => n.id = "input") = inputPresent cfg := by
              rw [List.any_append, List.any_append, inputNodesOf_any, hpn]
              have : (mkOutputNode v).id = "output" := rfl
              simp [this]
            have hchunk : outEdgeChunk cfg =
                if inputPresent cfg = true then [outBackEdge "input"] else [] := by
              simp [outEdgeChunk, houtp, hn]
            rw [hprev, hany, hchunk]
            cases hip : inputPresent cfg with
            | true =>
                simp only [if_pos rfl]
                rw [houtn]
                refine Prod.ext ?_ ?_ <;> simp
            | false =>
                simp only [Bool.false_eq_true, if_neg (by simp : ¬ (false = true))]
                rw [houtn]
                refine Prod.ext ?_ ?_ <;> simp
        · have houtn : outNodesOf cfg = [] := by simp [outNodesOf, hov, ht]
          have houtp : outputPresent cfg = false := by simp [outputPresent, hov, ht]
          refine ⟨[], [], ?_, by simp, by simp⟩
          simp only [ht]
          rw [if_neg (by simp : ¬ (false = true))]
          rw [hstep2]
          simp [houtn, outEdgeChunk, houtp]
  obtain ⟨subN, subE, houteq, hsubN, hsubE⟩ := hout
  -- assemble the final graph
  obtain ⟨extra, hconn, hextraProps⟩ := connectResources_decomp
    ((inputNodesOf cfg ++ pNodes (procsOf cfg) 0 ++ outNodesOf cfg ++ subN) ++
      ((match cfg.cache_resources with
        | some caches => cacheNodes caches
        | none => []) ++
       (match cfg.rate_limit_resources with
        | some rls => rateLimitNodes rls
        | none => [])))
    (pEdges (inputPresent cfg) (procsOf cfg) 0 ++ outEdgeChunk cfg ++ subE)
  have hassoc : (((inputNodesOf cfg ++ pNodes (procsOf cfg) 0 ++ outNodesOf cfg ++ subN) ++
      (match cfg.cache_resources with
       | some caches => cacheNodes caches
       | none => [])) ++
      (match cfg.rate_limit_resources with
       | some rls => rateLimitNodes rls
       | none => [])) =
    ((inputNodesOf cfg ++ pNodes (procsOf cfg) 0 ++ outNodesOf cfg ++ subN) ++
      ((match cfg.cache_resources with
        | some caches => cacheNodes caches
        | none => []) ++
       (match cfg.rate_limit_resources with
        | some rls => rateLimitNodes rls
        | none => []))) := by
    rw [List.append_assoc]
  have hcfg : configToGraph cfg = {
      nodes := (inputNodesOf cfg ++ pNodes (procsOf cfg) 0 ++ outNodesOf cfg ++ subN) ++
        ((match cfg.cache_resources with
          | some caches => cacheNodes caches
          | none => []) ++
         (match cfg.rate_limit_resources with
          | some rls => rateLimitNodes rls
          | none => [])),
      edges := pEdges (inputPresent cfg) (procsOf cfg) 0 ++ outEdgeChunk cfg ++ subE ++ extra } := by
    simp only [configToGraph]
    rw [houteq]
    simp only
    rw [hassoc, hconn]
  refine ⟨subN, subE, extra, ?_, hsubN, hsubE, ?_⟩
  · rw [hcfg]
  · intro e he
    obtain ⟨nd, hnd, hnc, hnr, hsrc, hlook⟩ := hextraProps e he
    rcases hlook with ⟨name, hname, hl⟩ | ⟨name, hname, hl⟩
    · obtain ⟨k, hk⟩ := resourceLookup_mem _ name e.target hl
      obtain ⟨ndR, hndR, htR, hvR⟩ := (buildResourceMaps_values _).1 (k, e.target) hk
      refine ⟨ndR, ?_, Or.inl htR, hvR⟩
      rw [hcfg]
      exact hndR
    · obtain ⟨k, hk⟩ := resourceLookup_mem _ name e.target hl
      obtain ⟨ndR, hndR, htR, hvR⟩ := (buildResourceMaps_values _).2 (k, e.target) hk
      refine ⟨ndR, ?_, Or.inr htR, hvR⟩
      rw [hcfg]
      exact hndR

theorem outEdgeChunk_props (cfg : BenthosConfig) :
    ∀ e ∈ outEdgeChunk cfg, e.target = "output" ∧
      e.source = (if 0 < (procsOf cfg).length
        then mkProcId ((procsOf cfg).length - 1) else "input") := by
  intro e he
  unfold outEdgeChunk at he
  by_cases hA : outputPresent cfg = true
  · rw [if_pos hA] at he
    by_cases hB : 0 < (procsOf cfg).length
    · rw [if_pos hB] at he
      simp at he
      rw [he, if_pos hB]
      exact ⟨rfl, rfl⟩
    · rw [if_neg hB] at he
      by_cases hC : inputPresent cfg = true
      · rw [if_pos hC] at he
        simp at he
        rw [he, if_neg hB]
        exact ⟨rfl, rfl⟩
      · rw [if_neg hC] at he
        exact absurd he (List.not_mem_nil e)
  · rw [if_neg hA] at he
    exact absurd he (List.not_mem_nil e)

theorem cacheNodes_mem_id (caches : List CVal) :
    ∀ nd ∈ cacheNodes caches, nd.type = NodeType.cache ∧ ∃ k : ℕ, nd.id = s!"cache-{k}" := by
  intro nd hnd
  obtain ⟨p, hp, hmk⟩ := List.mem_map.mp hnd
  exact ⟨by rw [← hmk], p.1, by rw [← hmk]⟩

theorem rateLimitNodes_mem_id (rls : List CVal) :
    ∀ nd ∈ rateLimitNodes rls,
      nd.type = NodeType.rate_limit ∧ ∃ k : ℕ, nd.id = s!"rate-limit-{k}" := by
  intro nd hnd
  obtain ⟨p, hp, hmk⟩ := List.mem_map.mp hnd
  exact ⟨by rw [← hmk], p.1, by rw [← hmk]⟩

theorem inputNodesOf_types (cfg : BenthosConfig) :
    ∀ n ∈ inputNodesOf cfg, n.type = NodeType.input := by
  intro n hn
  unfold inputNodesOf at hn
  split at hn
  · split at hn
    · simp at hn
      rw [hn]
      rfl
    · simp at hn
  · simp at hn

theorem outNodesOf_types (cfg : BenthosConfig) :
    ∀ n ∈ outNodesOf cfg, n.type = NodeType.output := by
  intro n hn
  unfold outNodesOf at hn
  split at hn
  · split at hn
    · simp at hn
      rw [hn]
      rfl
    · simp at hn
  · simp at hn

/-- C2: the resolved graph contains exactly N processor nodes, in order, with
metric paths `root.pipeline.processors.0 … (N-1)`; the backbone edge
`input → processor-0` exists iff the input node exists and there is at least
one processor; the inner backbone edges `processor-(i-1) → processor-i`
always exist; and an edge into `output` exists iff the output node exists and
its backbone predecessor (the last processor, else the input) exists — and
every such edge leaves exactly that predecessor. -/
theorem C2_processor_backbone (cfg : BenthosConfig) :
    (((configToGraph cfg).nodes.filter (fun n => n.type = NodeType.processor)).map
        (fun n => n.metricPath) =
      (List.range (procsOf cfg).length).map (fun i => s!"root.pipeline.processors.{i}")) ∧
    ((configToGraph cfg).nodes.filter (fun n => n.type = NodeType.processor)).length =
      (procsOf cfg).length ∧
    ((∃ e ∈ (configToGraph cfg).edges, e.source = "input" ∧ e.target = mkProcId 0) ↔
      (inputPresent cfg = true ∧ 0 < (procsOf cfg).length)) ∧
    (∀ i, 0 < i → i < (procsOf cfg).length →
      ∃ e ∈ (configToGraph cfg).edges, e.source = mkProcId (i - 1) ∧ e.target = mkProcId i) ∧
    ((∃ e ∈ (configToGraph cfg).edges, e.target = "output") ↔
      (outputPresent cfg = true ∧ (0 < (procsOf cfg).length ∨ inputPresent cfg = true))) ∧
    (∀ e ∈ (configToGraph cfg).edges, e.target = "output" →
      e.source =
        (if 0 < (procsOf cfg).length then mkProcId ((procsOf cfg).length - 1) else "input")) := by
  obtain ⟨subN, subE, extra, hg, hsubN, hsubE, hextra⟩ := configToGraph_decomp cfg
  have hnodes : (configToGraph cfg).nodes =
      inputNodesOf cfg ++ pNodes (procsOf cfg) 0 ++ outNodesOf cfg ++ subN ++
        ((match cfg.cache_resources with
          | some caches => cacheNodes caches
          | none => []) ++
         (match cfg.rate_limit_resources with
          | some rls => rateLimitNodes rls
          | none => [])) := by rw [hg]
  have hedges : (configToGraph cfg).edges =
      pEdges (inputPresent cfg) (procsOf cfg) 0 ++ outEdgeChunk cfg ++ subE ++ extra := by
    rw [hg]
  -- discrimination for resource-reference edges: their targets start with c/r
  have hextraTarget : ∀ e ∈ extra,
      e.target.data.head? = some 'c' ∨ e.target.data.head? = some 'r' := by
    intro e he
    obtain ⟨nd, hnd, htype, htgt⟩ := hextra e he
    rw [hnodes] at hnd
    have hid : (∃ k : ℕ, nd.id = s!"cache-{k}") ∨ (∃ k : ℕ, nd.id = s!"rate-limit-{k}") := by
      rcases List.mem_append.mp hnd with h4 | h5
      · rcases List.mem_append.mp h4 with h3 | hsub
        · rcases List.mem_append.mp h3 with h2 | hout
          · rcases List.mem_append.mp h2 with hin | hproc
            · have := inputNodesOf_types cfg nd hin
              rcases htype with ht | ht <;> rw [this] at ht <;> exact absurd ht (by simp)
            · have := pNodes_types (procsOf cfg) 0 nd hproc
              rcases htype with ht | ht <;> rw [this] at ht <;> exact absurd ht (by simp)
          · have := outNodesOf_types cfg nd hout
            rcases htype with ht | ht <;> rw [this] at ht <;> exact absurd ht (by simp)
        · have := hsubN nd hsub
          rcases htype with ht | ht <;> rw [this] at ht <;> exact absurd ht (by simp)
      · rcases List.mem_append.mp h5 with hc | hr
        · split at hc
          · exact Or.inl (cacheNodes_mem_id _ nd hc).2
          · simp at hc
        · split at hr
          · exact Or.inr (rateLimitNodes_mem_id _ nd hr).2
          · simp at hr
    rcases hid with ⟨k, hk⟩ | ⟨k, hk⟩
    · exact Or.inl (by rw [htgt, hk]; rfl)
    · exact Or.inr (by rw [htgt, hk]; rfl)
  have hmain : ((configToGraph cfg).nodes.filter (fun n => n.type = NodeType.processor)).map
      (fun n => n.metricPath) =
      (List.range (procsOf cfg).length).map (fun i => s!"root.pipeline.processors.{i}") := by
    rw [hnodes]
    simp only [List.filter_append]
    have h1 : (inputNodesOf cfg).filter (fun n => n.type = NodeType.processor) = [] := by
      rw [List.filter_eq_nil]
      intro n hn
      simp [inputNodesOf_types cfg n hn]
    have h2 : (pNodes (procsOf cfg) 0).filter (fun n => n.type = NodeType.processor) =
        pNodes (procsOf cfg) 0 := by
      rw [List.filter_eq_self]
      intro n hn
      simp [pNodes_types (procsOf cfg) 0 n hn]
    have h3 : (outNodesOf cfg).filter (fun n => n.type = NodeType.processor) = [] := by
      rw [List.filter_eq_nil]
      intro n hn
      simp [outNodesOf_types cfg n hn]
    have h4 : subN.filter (fun n => n.type = NodeType.processor) = [] := by
      rw [List.filter_eq_nil]
      intro n hn
      simp [hsubN n hn]
    have h5 : ((match cfg.cache_resources with
        | some caches => cacheNodes caches
        | none => []) : List PipelineNode).filter
          (fun n => n.type = NodeType.processor) = [] := by
      rw [List.filter_eq_nil]
      intro n hn
      split at hn
      · simp [(cacheNodes_mem_id _ n hn).1]
      · simp at hn
    have h6 : ((match cfg.rate_limit_resources with
        | some rls => rateLimitNodes rls
        | none => []) : List PipelineNode).filter
          (fun n => n.type = NodeType.processor) = [] := by
      rw [List.filter_eq_nil]
      intro n hn
      split at hn
      · simp [(rateLimitNodes_mem_id _ n hn).1]
      · simp at hn
    rw [h1, h2, h3, h4, h5, h6]
    simp only [List.nil_append, List.append_nil]
    rw [pNodes_metricPaths (procsOf cfg) 0, List.range_eq_range']
  refine ⟨hmain, ?_, ?_, ?_, ?_, ?_⟩
  · -- exactly N processor nodes, from the metric-path equality
    have hlen := congrArg List.length hmain
    simpa using hlen
  · -- input → processor-0 edge
    constructor
    · rintro ⟨e, he, hsrc, htgt⟩
      rw [hedges] at he
      rcases List.mem_append.mp he with h3 | hx
      · rcases List.mem_append.mp h3 with h2 | hsub
        · rcases List.mem_append.mp h2 with hpe | hchunk
          · have hne : procsOf cfg ≠ [] := by
              intro hnil
              rw [hnil] at hpe
              simp [pEdges] at hpe
            rcases pEdges_mem (procsOf cfg) 0 (inputPresent cfg) e hpe with ⟨_, hflag, _⟩ | ⟨j, hj, hej⟩
            · exact ⟨hflag, by cases hp : procsOf cfg with
                | nil => exact absurd hp hne
                | cons a l => simp [hp]⟩
            · rw [hej] at hsrc
              exact absurd hsrc.symm (Ne.symm (mkProcId_ne_input (j - 1)))
          · unfold outEdgeChunk at hchunk
            split at hchunk
            · split at hchunk
              · simp [outBackEdge] at hchunk
                rw [hchunk] at hsrc
                exact absurd hsrc (mkProcId_ne_input _)
              · split at hchunk
                · simp [outBackEdge] at hchunk
                  rw [hchunk] at htgt
                  exact absurd htgt.symm (mkProcId_ne_output 0)
                · simp at hchunk
            · simp at hchunk
        · have := (hsubE e hsub).1
          rw [hsrc] at this
          exact absurd this (by decide)
      · rcases hextraTarget e hx with hh | hh <;>
          · rw [htgt] at hh
            rw [mkProcId_head 0] at hh
            simp at hh
    · rintro ⟨hflag, hpos⟩
      refine ⟨mkBackEdge "input" 0, ?_, rfl, rfl⟩
      rw [hedges]
      have : mkBackEdge "input" 0 ∈ pEdges (inputPresent cfg) (procsOf cfg) 0 := by
        rw [hflag]
        exact pEdges_input_edge (procsOf cfg) (by
          intro hnil
          rw [hnil] at hpos
          simp at hpos)
      simp [this]
  · -- inner backbone edges
    intro i hi hilt
    refine ⟨mkBackEdge (mkProcId (i - 1)) i, ?_, rfl, rfl⟩
    rw [hedges]
    have : mkBackEdge (mkProcId (i - 1)) i ∈ pEdges (inputPresent cfg) (procsOf cfg) 0 :=
      pEdges_middle_edge (procsOf cfg) 0 i hi (by omega) (by omega)
    simp [this]
  · -- edge into output
    constructor
    · rintro ⟨e, he, htgt⟩
      rw [hedges] at he
      rcases List.mem_append.mp he with h3 | hx
      · rcases List.mem_append.mp h3 with h2 | hsub
        · rcases List.mem_append.mp h2 with hpe | hchunk
          · rcases pEdges_mem (procsOf cfg) 0 (inputPresent cfg) e hpe with ⟨hee, _, _⟩ | ⟨j, hj, hej⟩
            · rw [hee] at htgt
              exact absurd htgt (mkProcId_ne_output 0)
            · rw [hej] at htgt
              exact absurd htgt (mkProcId_ne_output j)
          · unfold outEdgeChunk at hchunk
            split at hchunk
            case isTrue hp =>
              refine ⟨hp, ?_⟩
              split at hchunk
              case isTrue hn => exact Or.inl hn
              case isFalse hn =>
                split at hchunk
                case isTrue hin => exact Or.inr hin
                case isFalse => simp at hchunk
            case isFalse => simp at hchunk
        · have := (hsubE e hsub)
          rw [htgt] at this
          have hh := this.2.2
          have hl : ("output" : String).length = 6 := rfl
          omega
      · rcases hextraTarget e hx with hh | hh <;>
          · rw [htgt] at hh
            exact absurd hh (by decide)
    · rintro ⟨hout, hprev⟩
      have hchunkNe : outEdgeChunk cfg ≠ [] := by
        unfold outEdgeChunk
        rw [if_pos hout]
        rcases hprev with hn | hin
        · rw [if_pos hn]
          simp
        · by_cases hn : 0 < (procsOf cfg).length
          · rw [if_pos hn]
            simp
          · rw [if_neg hn, if_pos hin]
            simp
      cases hc : outEdgeChunk cfg with
      | nil => exact absurd hc hchunkNe
      | cons e0 rest =>
          have he0tgt : e0.target = "output" :=
            (outEdgeChunk_props cfg e0 (by rw [hc]; exact List.mem_cons_self _ _)).1
          refine ⟨e0, ?_, he0tgt⟩
          rw [hedges]
          have : e0 ∈ outEdgeChunk cfg := by rw [hc]; exact List.mem_cons_self _ _
          simp [this]
  · -- any edge into output leaves the backbone predecessor
    intro e he htgt
    rw [hedges] at he
    rcases List.mem_append.mp he with h3 | hx
    · rcases List.mem_append.mp h3 with h2 | hsub
      · rcases List.mem_append.mp h2 with hpe | hchunk
        · rcases pEdges_mem (procsOf cfg) 0 (inputPresent cfg) e hpe with ⟨hee, _, _⟩ | ⟨j, hj, hej⟩
          · rw [hee] at htgt
            exact absurd htgt (mkProcId_ne_output 0)
          · rw [hej] at htgt
            exact absurd htgt (mkProcId_ne_output j)
        · exact (outEdgeChunk_props cfg e hchunk).2
      · have := (hsubE e hsub)
        rw [htgt] at this
        have hh := this.2.2
        have hl : ("output" : String).length = 6 := rfl
        omega
    · rcases hextraTarget e hx with hh | hh <;>
        · rw [htgt] at hh
          exact absurd hh (by decide)

/-! ### Resource-reference edges: presence and edge-id dedup counts -/

/-- The number of edges carrying a given edge id. -/
def countEdgeId (eid : String) (es : List PipelineEdge) : ℕ :=
  (es.filter (fun e => e.id = eid)).length

theorem countEdgeId_pos_of_mem (eid : String) (es : List PipelineEdge)
    (e : PipelineEdge) (he : e ∈ es) (hid : e.id = eid) : 1 ≤ countEdgeId eid es := by
  unfold countEdgeId
  have : e ∈ es.filter (fun e => e.id = eid) := List.mem_filter.mpr ⟨he, by simp [hid]⟩
  exact List.length_pos.mpr (List.ne_nil_of_mem this)

theorem countEdgeId_addEdgeDedup (es : List PipelineEdge) (src tgt eid : String) :
    countEdgeId eid (addEdgeDedup es src tgt) ≤ max 1 (countEdgeId eid es) := by
  unfold addEdgeDedup countEdgeId
  by_cases h : es.any (fun e => e.id = s!"e-{src}-{tgt}")
  · rw [if_pos h]
    exact le_max_right _ _
  · rw [if_neg h, List.filter_append]
    by_cases hid : s!"e-{src}-{tgt}" = eid
    · have hz : es.filter (fun e => e.id = eid) = [] := by
        rw [List.filter_eq_nil]
        intro e hee
        simp only [List.any_eq_true, not_exists] at h
        push_neg at h
        have := h e hee
        simp only [decide_eq_true_eq]
        rw [← hid]
        simpa using this
      simp [hz, hid]
    · have hone : ([({ id := s!"e-{src}-{tgt}", source := src, target := tgt } :
          PipelineEdge)]).filter (fun e => e.id = eid) = [] := by
        simp [hid]
      simp [hone]

theorem addEdgeDedup_presence (es : List PipelineEdge) (src tgt : String) :
    ∃ e ∈ addEdgeDedup es src tgt, e.id = s!"e-{src}-{tgt}" := by
  unfold addEdgeDedup
  by_cases h : es.any (fun e => e.id = s!"e-{src}-{tgt}")
  · rw [if_pos h]
    simp only [List.any_eq_true, decide_eq_true_eq] at h
    obtain ⟨e, he, heid⟩ := h
    exact ⟨e, he, heid⟩
  · rw [if_neg h]
    exact ⟨_, List.mem_append_right _ (List.mem_cons_self _ _), rfl⟩

theorem refsFold_presence (m : List (CVal × String)) (src : String) :
    ∀ (names : List String) (es : List PipelineEdge) (name tid : String),
      name ∈ names → resourceLookup m name = some tid →
      ∃ e ∈ names.foldl (fun es n =>
          match resourceLookup m n with
          | some t => addEdgeDedup es src t
          | none => es) es, e.id = s!"e-{src}-{tid}" := by
  intro names
  induction names with
  | nil =>
      intro es name tid h
      simp at h
  | cons n rest ih =>
      intro es name tid hmem hlook
      rw [List.foldl_cons]
      rcases List.mem_cons.mp hmem with heq | hmem'
      · subst heq
        simp only [hlook]
        obtain ⟨extra, hfeq, -⟩ := refsFold_decomp m src rest (addEdgeDedup es src tid)
        rw [hfeq]
        obtain ⟨e, hee, hid⟩ := addEdgeDedup_presence es src tid
        exact ⟨e, List.mem_append_left _ hee, hid⟩
      · rcases hl : resourceLookup m n with - | t
        · simp only [hl]
          exact ih es name tid hmem' hlook
        · simp only [hl]
          exact ih _ name tid hmem' hlook

theorem refsFold_count (m : List (CVal × String)) (src eid : String) :
    ∀ (names : List String) (es : List PipelineEdge),
      countEdgeId eid (names.foldl (fun es n =>
          match resourceLookup m n with
          | some t => addEdgeDedup es src t
          | none => es) es) ≤ max 1 (countEdgeId eid es) := by
  intro names
  induction names with
  | nil =>
      intro es
      exact le_max_right _ _
  | cons n rest ih =>
      intro es
      rw [List.foldl_cons]
      rcases hl : resourceLookup m n with - | t
      · simp only [hl]
        exact ih es
      · simp only [hl]
        refine le_trans (ih (addEdgeDedup es src t)) ?_
        have h1 := countEdgeId_addEdgeDedup es src t eid
        calc max 1 (countEdgeId eid (addEdgeDedup es src t))
            ≤ max 1 (max 1 (countEdgeId eid es)) := max_le_max le_rfl h1
          _ = max 1 (countEdgeId eid es) := by rw [← max_assoc, max_self]

theorem connectNode_presence (maps : List (CVal × String) × List (CVal × String))
    (es : List PipelineEdge) (nd : PipelineNode) (name tid : String)
    (h1 : nd.type ≠ NodeType.cache) (h2 : nd.type ≠ NodeType.rate_limit)
    (h3 : (name ∈ (extractResourceRefs nd.config).caches ∧
            resourceLookup maps.1 name = some tid) ∨
          (name ∈ (extractResourceRefs nd.config).rateLimits ∧
            resourceLookup maps.2 name = some tid)) :
    ∃ e ∈ connectNode maps es nd, e.id = s!"e-{nd.id}-{tid}" := by
  have hbody : connectNode maps es nd =
      (extractResourceRefs nd.config).rateLimits.foldl
        (fun es name =>
          match resourceLookup maps.2 name with
          | some rid => addEdgeDedup es nd.id rid
          | none => es)
        ((extractResourceRefs nd.config).caches.foldl
          (fun es name =>
            match resourceLookup maps.1 name with
            | some cid => addEdgeDedup es nd.id cid
            | none => es)
          es) := by
    cases htype : nd.type with
    | cache => exact absurd htype h1
    | rate_limit => exact absurd htype h2
    | input => simp only [connectNode, htype]
    | processor => simp only [connectNode, htype]
    | output => simp only [connectNode, htype]
  rw [hbody]
  rcases h3 with ⟨hmem, hlook⟩ | ⟨hmem, hlook⟩
  · obtain ⟨e, hee, hid⟩ :=
      refsFold_presence maps.1 nd.id (extractResourceRefs nd.config).caches es name tid hmem hlook
    obtain ⟨extra, heq, -⟩ :=
      refsFold_decomp maps.2 nd.id (extractResourceRefs nd.config).rateLimits _
    rw [heq]
    exact ⟨e, List.mem_append_left _ hee, hid⟩
  · exact refsFold_presence maps.2 nd.id (extractResourceRefs nd.config).rateLimits _
      name tid hmem hlook

theorem connectNode_count (maps : List (CVal × String) × List (CVal × String))
    (es : List PipelineEdge) (nd : PipelineNode) (eid : String) :
    countEdgeId eid (connectNode maps es nd) ≤ max 1 (countEdgeId eid es) := by
  cases htype : nd.type with
  | cache => simp only [connectNode, htype]; exact le_max_right _ _
  | rate_limit => simp only [connectNode, htype]; exact le_max_right _ _
  | input =>
      simp only [connectNode, htype]
      refine le_trans (refsFold_count maps.2 nd.id eid _ _) ?_
      have h1 := refsFold_count maps.1 nd.id eid (extractResourceRefs nd.config).caches es
      calc max 1 (countEdgeId eid _) ≤ max 1 (max 1 (countEdgeId eid es)) :=
            max_le_max le_rfl h1
        _ = max 1 (countEdgeId eid es) := by rw [← max_assoc, max_self]
  | processor =>
      simp only [connectNode, htype]
      refine le_trans (refsFold_count maps.2 nd.id eid _ _) ?_
      have h1 := refsFold_count maps.1 nd.id eid (extractResourceRefs nd.config).caches es
      calc max 1 (countEdgeId eid _) ≤ max 1 (max 1 (countEdgeId eid es)) :=
            max_le_max le_rfl h1
        _ = max 1 (countEdgeId eid es) := by rw [← max_assoc, max_self]
  | output =>
      simp only [connectNode, htype]
      refine le_trans (refsFold_count maps.2 nd.id eid _ _) ?_
      have h1 := refsFold_count maps.1 nd.id eid (extractResourceRefs nd.config).caches es
      calc max 1 (countEdgeId eid _) ≤ max 1 (max 1 (countEdgeId eid es)) :=
            max_le_max le_rfl h1
        _ = max 1 (countEdgeId eid es) := by rw [← max_assoc, max_self]

theorem connectFold_presence (maps : List (CVal × String) × List (CVal × String)) :
    ∀ (ns : List PipelineNode) (es : List PipelineEdge) (nd : PipelineNode) (name tid : String),
      nd ∈ ns → nd.type ≠ NodeType.cache → nd.type ≠ NodeType.rate_limit →
      ((name ∈ (extractResourceRefs nd.config).caches ∧
          resourceLookup maps.1 name = some tid) ∨
       (name ∈ (extractResourceRefs nd.config).rateLimits ∧
          resourceLookup maps.2 name = some tid)) →
      ∃ e ∈ ns.foldl (connectNode maps) es, e.id = s!"e-{nd.id}-{tid}" := by
  intro ns
  induction ns with
  | nil =>
      intro es nd name tid h
      simp at h
  | cons nd0 rest ih =>
      intro es nd name tid hmem h1 h2 h3
      rw [List.foldl_cons]
      rcases List.mem_cons.mp hmem with heq | hmem'
      · subst heq
        obtain ⟨e, hee, hid⟩ := connectNode_presence maps es nd name tid h1 h2 h3
        obtain ⟨extra, heq2, -⟩ := connectFold_decomp maps rest (connectNode maps es nd)
        rw [heq2]
        exact ⟨e, List.mem_append_left _ hee, hid⟩
      · exact ih (connectNode maps es nd0) nd name tid hmem' h1 h2 h3

theorem connectFold_count (maps : List (CVal × String) × List (CVal × String)) (eid : String) :
    ∀ (ns : List PipelineNode) (es : List PipelineEdge),
      countEdgeId eid (ns.foldl (connectNode maps) es) ≤ max 1 (countEdgeId eid es) := by
  intro ns
  induction ns with
  | nil =>
      intro es
      exact le_max_right _ _
  | cons nd rest ih =>
      intro es
      rw [List.foldl_cons]
      refine le_trans (ih (connectNode maps es nd)) ?_
      have h1 := connectNode_count maps es nd eid
      calc max 1 (countEdgeId eid (connectNode maps es nd))
          ≤ max 1 (max 1 (countEdgeId eid es)) := max_le_max le_rfl h1
        _ = max 1 (countEdgeId eid es) := by rw [← max_assoc, max_self]

theorem resourceLookup_ne_nil (m : List (CVal × String)) (name tid : String)
    (h : resourceLookup m name = some tid) : m.isEmpty = false := by
  cases m with
  | nil => simp [resourceLookup] at h
  | cons p rest => rfl

/-- C4: a cache / rate-limit reference collected from a non-resource node's
config whose name resolves in the label→id lookup map yields an edge
`e-<node>-<resource>` in the connected edge list, and — when no edge with that
id pre-exists — exactly one such edge (dedup by edge identity).  Conversely
`connectResources` only appends edges from a non-resource node to a resource
node: an unresolved reference adds nothing and raises no error. -/
theorem C4_resource_reference_edges (ns : List PipelineNode) (es : List PipelineEdge) :
    (∀ (nd : PipelineNode) (name tid : String),
      nd ∈ ns → nd.type ≠ NodeType.cache → nd.type ≠ NodeType.rate_limit →
      ((name ∈ (extractResourceRefs nd.config).caches ∧
          resourceLookup (buildResourceMaps ns).1 name = some tid) ∨
       (name ∈ (extractResourceRefs nd.config).rateLimits ∧
          resourceLookup (buildResourceMaps ns).2 name = some tid)) →
      (∃ e ∈ connectResources ns es, e.id = s!"e-{nd.id}-{tid}") ∧
      (countEdgeId s!"e-{nd.id}-{tid}" es = 0 →
        countEdgeId s!"e-{nd.id}-{tid}" (connectResources ns es) = 1)) ∧
    (∃ extra, connectResources ns es = es ++ extra ∧
      ∀ e ∈ extra,
        (∃ ndS ∈ ns, ndS.type ≠ NodeType.cache ∧ ndS.type ≠ NodeType.rate_limit ∧
          e.source = ndS.id) ∧
        (∃ ndT ∈ ns, (ndT.type = NodeType.cache ∨ ndT.type = NodeType.rate_limit) ∧
          e.target = ndT.id)) := by
  constructor
  · intro nd name tid hmem h1 h2 h3
    have hguard : ((buildResourceMaps ns).1.isEmpty && (buildResourceMaps ns).2.isEmpty) = false := by
      rcases h3 with ⟨-, hlook⟩ | ⟨-, hlook⟩
      · rw [resourceLookup_ne_nil _ _ _ hlook]
        rfl
      · rw [resourceLookup_ne_nil _ _ _ hlook]
        simp
    have hconn : connectResources ns es = ns.foldl (connectNode (buildResourceMaps ns)) es := by
      unfold connectResources
      simp only [hguard, Bool.false_eq_true, if_false]
    constructor
    · rw [hconn]
      exact connectFold_presence (buildResourceMaps ns) ns es nd name tid hmem h1 h2 h3
    · intro hzero
      rw [hconn]
      have hub := connectFold_count (buildResourceMaps ns) s!"e-{nd.id}-{tid}" ns es
      rw [hzero] at hub
      obtain ⟨e, hee, hid⟩ :=
        connectFold_presence (buildResourceMaps ns) ns es nd name tid hmem h1 h2 h3
      have hlb := countEdgeId_pos_of_mem s!"e-{nd.id}-{tid}" _ e hee hid
      omega
  · obtain ⟨extra, heq, hprops⟩ := connectResources_decomp ns es
    refine ⟨extra, heq, ?_⟩
    intro e he
    obtain ⟨nd, hnd, hc, hr, hsrc, hlook⟩ := hprops e he
    refine ⟨⟨nd, hnd, hc, hr, hsrc⟩, ?_⟩
    rcases hlook with ⟨name, -, hl⟩ | ⟨name, -, hl⟩
    · obtain ⟨k, hk⟩ := resourceLookup_mem _ _ _ hl
      obtain ⟨ndT, hndT, htype, hid⟩ := (buildResourceMaps_values ns).1 (k, e.target) hk
      exact ⟨ndT, hndT, Or.inl htype, hid⟩
    · obtain ⟨k, hk⟩ := resourceLookup_mem _ _ _ hl
      obtain ⟨ndT, hndT, htype, hid⟩ := (buildResourceMaps_values ns).2 (k, e.target) hk
      exact ⟨ndT, hndT, Or.inr htype, hid⟩

def c4procCfg : CVal := .obj [("label", .str "d"), ("dedupe", .obj [("cache", .str "mem")])]

def c4cacheCfg : CVal := .obj [("label", .str "mem"), ("memory", .obj [])]

def c4cfg : BenthosConfig :=
  { input := none
    pipeline := some ⟨some [c4procCfg]⟩
    output := none
    cache_resources := some [c4cacheCfg]
    rate_limit_resources := none }

theorem C4_resource_reference_edges_witness :
    countEdgeId "e-processor-0-cache-0" (connectResources (configToGraph c4cfg).nodes []) = 1 := by
  have h := ((C4_resource_reference_edges (configToGraph c4cfg).nodes []).1
    (mkProcNode c4procCfg 0) "mem" "cache-0" (by decide) (by decide) (by decide)
    (Or.inl ⟨by decide, by decide⟩)).2 (by decide)
  exact h

/-! ### Exposition-format data lines: rendered well-formed lines parse to one
sample -/

/-- Render a label list as the regex's brace content
`key="value"(,key="value")*`. -/
def renderPairs : List (String × String) → List Char
  | [] => []
  | [p] => p.1.data ++ '=' :: '"' :: p.2.data ++ ['"']
  | p :: rest => p.1.data ++ '=' :: '"' :: p.2.data ++ '"' :: ',' :: renderPairs rest

theorem splitLines_single : ∀ cs : List Char, '\n' ∉ cs → splitLines cs = [cs] := by
  intro cs
  induction cs with
  | nil => intro h; rfl
  | cons c r ih =>
      intro h
      have hc : c ≠ '\n' := fun hh => h (hh ▸ List.mem_cons_self _ _)
      have hr : '\n' ∉ r := fun hh => h (List.mem_cons_of_mem _ hh)
      rw [splitLines.eq_def]
      split
      · simp_all
      · simp_all
      · rename_i c' r' heq
        obtain ⟨h1, h2⟩ := List.cons.inj heq
        subst h1
        subst h2
        rw [ih hr]

theorem wsChar_cases (c : Char) (h : isWsChar c = true) :
    c = ' ' ∨ c = '\t' ∨ c = '\r' ∨ c = '\n' ∨ c = '\x0b' ∨ c = '\x0c' := by
  simp [isWsChar] at h
  tauto

theorem valueChar_not_ws (c : Char) (h : isValueChar c = true) : isWsChar c = false := by
  cases hw : isWsChar c
  · rfl
  · rcases wsChar_cases c hw with h1 | h1 | h1 | h1 | h1 | h1 <;> subst h1 <;>
      exact absurd h (by decide)

theorem wsChar_not_nameChar (c : Char) (h : isWsChar c = true) : isNameChar c = false := by
  rcases wsChar_cases c h with h1 | h1 | h1 | h1 | h1 | h1 <;> subst h1 <;> decide

theorem takeWhile_append_all {p : Char → Bool} :
    ∀ (l r : List Char), (∀ c ∈ l, p c = true) → (l ++ r).takeWhile p = l ++ r.takeWhile p := by
  intro l
  induction l with
  | nil => intro r h; simp
  | cons c t ih =>
      intro r h
      rw [List.cons_append, List.takeWhile_cons, if_pos (h c (List.mem_cons_self _ _)),
        ih r (fun c hc => h c (List.mem_cons_of_mem _ hc)), List.cons_append]

theorem dropWhile_append_all {p : Char → Bool} :
    ∀ (l r : List Char), (∀ c ∈ l, p c = true) → (l ++ r).dropWhile p = r.dropWhile p := by
  intro l
  induction l with
  | nil => intro r h; simp
  | cons c t ih =>
      intro r h
      rw [List.cons_append, List.dropWhile_cons, if_pos (h c (List.mem_cons_self _ _)),
        ih r (fun c hc => h c (List.mem_cons_of_mem _ hc))]

theorem splitBrace_spec :
    ∀ (inner rest : List Char), (∀ c ∈ inner, c ≠ '}') →
      splitBrace (inner ++ '}' :: rest) = some (inner, rest) := by
  intro inner
  induction inner with
  | nil => intro rest h; simp [splitBrace]
  | cons c t ih =>
      intro rest h
      have hc : c ≠ '}' := h c (List.mem_cons_self _ _)
      simp only [List.cons_append, splitBrace, List.append_eq]
      rw [if_neg hc, ih rest (fun c hc' => h c (List.mem_cons_of_mem _ hc'))]
      rfl

theorem jsTrim_eq_self (cs : List Char) (c c' : Char) (h1 : cs.head? = some c)
    (h2 : isWsChar c = false) (h3 : cs.reverse.head? = some c')
    (h4 : isWsChar c' = false) : jsTrim cs = cs := by
  unfold jsTrim
  cases cs with
  | nil => simp at h1
  | cons a t =>
      simp only [List.head?_cons, Option.some.injEq] at h1
      subst h1
      have hd1 : (a :: t).dropWhile isWsChar = a :: t := by
        rw [List.dropWhile_cons, if_neg (by simp [h2])]
      rw [hd1]
      cases hrev : (a :: t).reverse with
      | nil => exact absurd hrev (by simp)
      | cons b u =>
          rw [hrev] at h3
          simp only [List.head?_cons, Option.some.injEq] at h3
          subst h3
          rw [List.dropWhile_cons, if_neg (by simp [h4]), ← hrev, List.reverse_reverse]

theorem matchValueToken_shape (val : List Char) (h : matchValueToken val = true) :
    (∃ c t, val = c :: t ∧ isWsChar c = false) ∧
    (∃ c t, val.reverse = c :: t ∧ isWsChar c = false) := by
  unfold matchValueToken at h
  rcases Bool.or_eq_true .. |>.mp h with h' | hinf
  · rcases Bool.or_eq_true .. |>.mp h' with hcore | hnan
    · simp only [valueCore, Bool.and_eq_true, List.all_eq_true, Bool.not_eq_true',
        ] at hcore
      obtain ⟨hne, hall⟩ := hcore
      constructor
      · cases hv : val with
        | nil => rw [hv] at hne; simp at hne
        | cons c t =>
            exact ⟨c, t, rfl,
              valueChar_not_ws c (hall c (by rw [hv]; exact List.mem_cons_self _ _))⟩
      · cases hrev : val.reverse with
        | nil =>
            have hn : val = [] := by
              have := congrArg List.reverse hrev
              simpa using this
            rw [hn] at hne
            simp at hne
        | cons b u =>
            refine ⟨b, u, rfl, valueChar_not_ws b (hall b ?_)⟩
            have hb : b ∈ val.reverse := by rw [hrev]; exact List.mem_cons_self _ _
            exact List.mem_reverse.mp hb
    · split at hnan
      case h_1 rest hrev =>
        simp only [valueCore, Bool.and_eq_true, List.all_eq_true, Bool.not_eq_true'] at hnan
        obtain ⟨hne, hall⟩ := hnan
        have hval : val = rest.reverse ++ ['N', 'a', 'N'] := by
          have := congrArg List.reverse hrev
          rw [List.reverse_reverse] at this
          rw [this]
          simp
        constructor
        · cases hc : rest.reverse with
          | nil => rw [hc] at hne; simp at hne
          | cons c u =>
              exact ⟨c, u ++ ['N', 'a', 'N'], by rw [hval, hc, List.cons_append],
                valueChar_not_ws c (hall c (by rw [hc]; exact List.mem_cons_self _ _))⟩
        · exact ⟨'N', 'a' :: 'N' :: rest, hrev, by decide⟩
      case h_2 => simp at hnan
  · split at hinf
    case h_1 rest hrev =>
      simp only [valueCore, Bool.and_eq_true, List.all_eq_true, Bool.not_eq_true'] at hinf
      obtain ⟨hne, hall⟩ := hinf
      have hval : val = rest.reverse ++ ['I', 'n', 'f'] := by
        have := congrArg List.reverse hrev
        rw [List.reverse_reverse] at this
        rw [this]
        simp
      constructor
      · cases hc : rest.reverse with
        | nil => rw [hc] at hne; simp at hne
        | cons c u =>
            exact ⟨c, u ++ ['I', 'n', 'f'], by rw [hval, hc, List.cons_append],
              valueChar_not_ws c (hall c (by rw [hc]; exact List.mem_cons_self _ _))⟩
      · exact ⟨'f', 'n' :: 'I' :: rest, hrev, by decide⟩
    case h_2 => simp at hinf

theorem tryLabel_eq (cs : List Char) (c0 : Char) (h : cs.head? = some c0) :
    tryLabel cs =
      if isLabelKeyStart c0 then
        match cs.dropWhile isLabelKeyChar with
        | '=' :: '"' :: r =>
            match r.dropWhile isLabelValChar with
            | '"' :: rest => some (String.mk (cs.takeWhile isLabelKeyChar),
                String.mk (r.takeWhile isLabelValChar), rest)
            | _ => none
        | _ => none
      else none := by
  cases cs with
  | nil => simp at h
  | cons c t =>
      simp only [List.head?_cons, Option.some.injEq] at h
      subst h
      rfl

theorem tryLabel_render (k v : String) (rest : List Char)
    (hk0 : k.data ≠ []) (hkS : isLabelKeyStart k.data.headI = true)
    (hkA : ∀ c ∈ k.data, isLabelKeyChar c = true)
    (hvA : ∀ c ∈ v.data, isLabelValChar c = true) :
    tryLabel (k.data ++ '=' :: '"' :: v.data ++ '"' :: rest) = some (k, v, rest) := by
  obtain ⟨c0, kt, hkd⟩ : ∃ c0 kt, k.data = c0 :: kt := by
    cases hkd : k.data with
    | nil => exact absurd hkd hk0
    | cons a b => exact ⟨a, b, rfl⟩
  have hhead : (k.data ++ '=' :: '"' :: v.data ++ '"' :: rest).head? = some c0 := by
    rw [hkd]
    rfl
  have hstart : isLabelKeyStart c0 = true := by
    rw [hkd] at hkS
    exact hkS
  have htake : (k.data ++ '=' :: '"' :: v.data ++ '"' :: rest).takeWhile isLabelKeyChar
      = k.data := by
    rw [List.append_assoc,
      takeWhile_append_all k.data (('=' :: '"' :: v.data) ++ '"' :: rest) hkA,
      List.cons_append, List.takeWhile_cons, if_neg (by decide), List.append_nil]
  have hdrop : (k.data ++ '=' :: '"' :: v.data ++ '"' :: rest).dropWhile isLabelKeyChar
      = '=' :: (('"' :: v.data) ++ '"' :: rest) := by
    rw [List.append_assoc,
      dropWhile_append_all k.data (('=' :: '"' :: v.data) ++ '"' :: rest) hkA,
      List.cons_append, List.dropWhile_cons, if_neg (by decide)]
  have hvtake : (v.data ++ '"' :: rest).takeWhile isLabelValChar = v.data := by
    rw [takeWhile_append_all v.data ('"' :: rest) hvA,
      List.takeWhile_cons, if_neg (by decide), List.append_nil]
  have hvdrop : (v.data ++ '"' :: rest).dropWhile isLabelValChar = '"' :: rest := by
    rw [dropWhile_append_all v.data ('"' :: rest) hvA,
      List.dropWhile_cons, if_neg (by decide)]
  rw [tryLabel_eq _ c0 hhead, if_pos hstart]
  simp only [hdrop, List.cons_append]
  simp only [hvdrop]
  rw [htake, hvtake]

theorem scanLabels_nil (acc : List (String × String)) : scanLabels [] acc = acc := by
  unfold scanLabels
  rfl

theorem scanLabels_some (cs : List Char) (acc : List (String × String)) (k v : String)
    (rest : List Char) (h : tryLabel cs = some (k, v, rest)) :
    scanLabels cs acc = scanLabels rest (mapSet acc k v) := by
  conv_lhs => unfold scanLabels
  split
  · rename_i k' v' r' heq
    rw [h] at heq
    simp only [Option.some.injEq, Prod.mk.injEq] at heq
    obtain ⟨hk, hv, hr⟩ := heq
    rw [← hk, ← hv, ← hr]
  · rename_i heq
    rw [h] at heq
    simp at heq

theorem scanLabels_skip (c : Char) (r : List Char) (acc : List (String × String))
    (h : tryLabel (c :: r) = none) : scanLabels (c :: r) acc = scanLabels r acc := by
  conv_lhs => unfold scanLabels
  split
  · rename_i k' v' r' heq
    rw [h] at heq
    simp at heq
  · rfl

theorem mapSet_append {α : Type} (m : List (String × α)) (k : String) (v : α)
    (h : ∀ p ∈ m, p.1 ≠ k) : mapSet m k v = m ++ [(k, v)] := by
  induction m with
  | nil => rfl
  | cons q rest ih =>
      unfold mapSet
      rw [if_neg (h q (List.mem_cons_self _ _)),
        ih (fun p hp => h p (List.mem_cons_of_mem _ hp)), List.cons_append]

theorem scanLabels_render :
    ∀ (pairs : List (String × String)) (acc : List (String × String)),
      (∀ p ∈ pairs, p.1.data ≠ [] ∧ isLabelKeyStart p.1.data.headI = true ∧
        (∀ c ∈ p.1.data, isLabelKeyChar c = true) ∧
        (∀ c ∈ p.2.data, isLabelValChar c = true)) →
      scanLabels (renderPairs pairs) acc = pairs.foldl (fun a p => mapSet a p.1 p.2) acc := by
  intro pairs
  induction pairs with
  | nil =>
      intro acc h
      exact scanLabels_nil acc
  | cons p rest ih =>
      intro acc h
      obtain ⟨hk0, hkS, hkA, hvA⟩ := h p (List.mem_cons_self _ _)
      cases rest with
      | nil =>
          have htry := tryLabel_render p.1 p.2 [] hk0 hkS hkA hvA
          rw [show renderPairs [p] = p.1.data ++ '=' :: '"' :: p.2.data ++ '"' :: [] from rfl]
          rw [scanLabels_some _ _ _ _ _ htry, scanLabels_nil]
          rfl
      | cons q t =>
          have htry := tryLabel_render p.1 p.2 (',' :: renderPairs (q :: t)) hk0 hkS hkA hvA
          rw [show renderPairs (p :: q :: t)
              = p.1.data ++ '=' :: '"' :: p.2.data ++ '"' :: ',' :: renderPairs (q :: t)
            from rfl]
          rw [scanLabels_some _ _ _ _ _ htry,
            scanLabels_skip ',' _ _ (by rfl),
            ih (mapSet acc p.1 p.2) (fun p hp => h p (List.mem_cons_of_mem _ hp))]
          rfl

theorem foldl_mapSet_nodup {α : Type} :
    ∀ (pairs : List (String × α)) (acc : List (String × α)),
      (pairs.map Prod.fst).Nodup →
      (∀ k ∈ pairs.map Prod.fst, ∀ q ∈ acc, q.1 ≠ k) →
      pairs.foldl (fun a p => mapSet a p.1 p.2) acc = acc ++ pairs := by
  intro pairs
  induction pairs with
  | nil =>
      intro acc h1 h2
      simp
  | cons p rest ih =>
      intro acc h1 h2
      rw [List.foldl_cons]
      have hnodup : (rest.map Prod.fst).Nodup := (List.nodup_cons.mp (by simpa using h1)).2
      have hfst : p.1 ∉ rest.map Prod.fst := (List.nodup_cons.mp (by simpa using h1)).1
      have hfresh : ∀ k ∈ rest.map Prod.fst, ∀ q ∈ acc ++ [(p.1, p.2)], q.1 ≠ k := by
        intro k hk q hq
        rcases List.mem_append.mp hq with hqa | hqp
        · exact h2 k (by simp [hk]) q hqa
        · simp only [List.mem_singleton] at hqp
          rw [hqp]
          intro hh
          exact hfst (hh ▸ hk)
      rw [mapSet_append acc p.1 p.2 (h2 p.1 (by simp))]
      rw [ih (acc ++ [(p.1, p.2)]) hnodup hfresh]
      simp

theorem wsChar_not_nameStart (c : Char) (h : isWsChar c = true) :
    isNameStartChar c = false := by
  rcases wsChar_cases c h with h1 | h1 | h1 | h1 | h1 | h1 <;> subst h1 <;> decide

theorem brace_match_not (x : List Char) (w : Char) (t : List Char)
    (hx : x = w :: t) (hw : w ≠ '{') :
    (match x with
     | '{' :: r => splitBrace r
     | _ => some (([] : List Char), x)) = some ([], x) := by
  subst hx
  split
  · rename_i r heq
    exact absurd ((List.cons.inj heq).1) hw
  · rfl

theorem matchDataLine_eq (cs : List Char) (c0 : Char) (h : cs.head? = some c0) :
    matchDataLine cs =
      if isNameStartChar c0 then
        match (match cs.dropWhile isNameChar with
               | '{' :: r => splitBrace r
               | _ => some ([], cs.dropWhile isNameChar)) with
        | none => none
        | some (labelsStr, rest) =>
            if (rest.takeWhile isWsChar).isEmpty then none
            else if matchValueToken (rest.dropWhile isWsChar) then
              some (cs.takeWhile isNameChar, labelsStr, rest.dropWhile isWsChar)
            else none
      else none := by
  cases cs with
  | nil => simp at h
  | cons c t =>
      simp only [List.head?_cons, Option.some.injEq] at h
      subst h
      rfl

theorem reverse_head?_append (l r : List Char) (c : Char) (h : r.reverse.head? = some c) :
    ((l ++ r).reverse).head? = some c := by
  rw [List.reverse_append]
  cases hr : r.reverse with
  | nil => rw [hr] at h; simp at h
  | cons a t =>
      rw [hr] at h
      simp only [List.head?_cons, Option.some.injEq] at h
      subst h
      rfl

theorem reverse_head?_cons (x : Char) (l : List Char) (c : Char)
    (h : l.reverse.head? = some c) : ((x :: l).reverse).head? = some c := by
  rw [List.reverse_cons]
  cases hr : l.reverse with
  | nil => rw [hr] at h; simp at h
  | cons a t =>
      rw [hr] at h
      simp only [List.head?_cons, Option.some.injEq] at h
      subst h
      rfl

theorem matchValueToken_chars (val : List Char) (h : matchValueToken val = true) :
    ∀ c ∈ val, isValueChar c = true ∨ c = 'N' ∨ c = 'a' ∨ c = 'I' ∨ c = 'n' ∨ c = 'f' := by
  unfold matchValueToken at h
  rcases Bool.or_eq_true .. |>.mp h with h' | hinf
  · rcases Bool.or_eq_true .. |>.mp h' with hcore | hnan
    · simp only [valueCore, Bool.and_eq_true, List.all_eq_true] at hcore
      exact fun c hc => Or.inl (hcore.2 c hc)
    · split at hnan
      case h_1 rest hrev =>
        simp only [valueCore, Bool.and_eq_true, List.all_eq_true] at hnan
        have hval : val = rest.reverse ++ ['N', 'a', 'N'] := by
          have := congrArg List.reverse hrev
          rw [List.reverse_reverse] at this
          rw [this]
          simp
        intro c hc
        rw [hval] at hc
        rcases List.mem_append.mp hc with h1 | h1
        · exact Or.inl (hnan.2 c h1)
        · simp at h1
          rcases h1 with h1 | h1 | h1 <;> subst h1 <;> simp
      case h_2 => simp at hnan
  · split at hinf
    case h_1 rest hrev =>
      simp only [valueCore, Bool.and_eq_true, List.all_eq_true] at hinf
      have hval : val = rest.reverse ++ ['I', 'n', 'f'] := by
        have := congrArg List.reverse hrev
        rw [List.reverse_reverse] at this
        rw [this]
        simp
      intro c hc
      rw [hval] at hc
      rcases List.mem_append.mp hc with h1 | h1
      · exact Or.inl (hinf.2 c h1)
      · simp at h1
        rcases h1 with h1 | h1 | h1 <;> subst h1 <;> simp
    case h_2 => simp at hinf

theorem matchDataLine_braced (nm inner ws val : List Char) (c0 : Char)
    (hh : nm.head? = some c0) (hs : isNameStartChar c0 = true)
    (hnA : ∀ c ∈ nm, isNameChar c = true)
    (hinner : ∀ c ∈ inner, c ≠ '}')
    (hws0 : ws ≠ []) (hwsA : ∀ c ∈ ws, isWsChar c = true)
    (hval : matchValueToken val = true) :
    matchDataLine (nm ++ ('{' :: (inner ++ ('}' :: (ws ++ val))))) = some (nm, inner, val) := by
  have hhead : (nm ++ ('{' :: (inner ++ ('}' :: (ws ++ val))))).head? = some c0 := by
    cases nm with
    | nil => simp at hh
    | cons a t =>
        simp only [List.head?_cons, Option.some.injEq] at hh
        subst hh
        rfl
  have hndrop : (nm ++ ('{' :: (inner ++ ('}' :: (ws ++ val))))).dropWhile isNameChar
      = '{' :: (inner ++ ('}' :: (ws ++ val))) := by
    rw [dropWhile_append_all nm ('{' :: (inner ++ ('}' :: (ws ++ val)))) hnA,
      List.dropWhile_cons, if_neg (by decide)]
  have hntake : (nm ++ ('{' :: (inner ++ ('}' :: (ws ++ val))))).takeWhile isNameChar
      = nm := by
    rw [takeWhile_append_all nm ('{' :: (inner ++ ('}' :: (ws ++ val)))) hnA,
      List.takeWhile_cons, if_neg (by decide), List.append_nil]
  obtain ⟨⟨vc, vt, hvcons, hvws⟩, -⟩ := matchValueToken_shape val hval
  have hwsTake : (ws ++ val).takeWhile isWsChar = ws := by
    rw [takeWhile_append_all ws val hwsA, hvcons, List.takeWhile_cons,
      if_neg (by simp [hvws]), List.append_nil]
  have hwsDrop : (ws ++ val).dropWhile isWsChar = val := by
    rw [dropWhile_append_all ws val hwsA, hvcons, List.dropWhile_cons,
      if_neg (by simp [hvws]), ← hvcons]
  have hne : ¬(ws.isEmpty = true) := by
    cases ws with
    | nil => exact absurd rfl hws0
    | cons a t => simp
  rw [matchDataLine_eq _ c0 hhead, if_pos hs]
  simp only [hndrop]
  simp only [splitBrace_spec inner (ws ++ val) hinner]
  rw [hwsTake, hwsDrop, hntake, if_neg hne, if_pos hval]

theorem matchDataLine_unbraced (nm ws val : List Char) (c0 : Char)
    (hh : nm.head? = some c0) (hs : isNameStartChar c0 = true)
    (hnA : ∀ c ∈ nm, isNameChar c = true)
    (hws0 : ws ≠ []) (hwsA : ∀ c ∈ ws, isWsChar c = true)
    (hval : matchValueToken val = true) :
    matchDataLine (nm ++ (ws ++ val)) = some (nm, [], val) := by
  obtain ⟨w0, wt, hwcons⟩ : ∃ w0 wt, ws = w0 :: wt := by
    cases ws with
    | nil => exact absurd rfl hws0
    | cons a t => exact ⟨a, t, rfl⟩
  have hw0 : isWsChar w0 = true := hwsA w0 (by rw [hwcons]; exact List.mem_cons_self _ _)
  have hhead : (nm ++ (ws ++ val)).head? = some c0 := by
    cases nm with
    | nil => simp at hh
    | cons a t =>
        simp only [List.head?_cons, Option.some.injEq] at hh
        subst hh
        rfl
  have hndrop : (nm ++ (ws ++ val)).dropWhile isNameChar = ws ++ val := by
    rw [dropWhile_append_all nm (ws ++ val) hnA, hwcons, List.cons_append,
      List.dropWhile_cons, if_neg (by simp [wsChar_not_nameChar w0 hw0]), ← List.cons_append]
  have hntake : (nm ++ (ws ++ val)).takeWhile isNameChar = nm := by
    rw [takeWhile_append_all nm (ws ++ val) hnA, hwcons, List.cons_append,
      List.takeWhile_cons, if_neg (by simp [wsChar_not_nameChar w0 hw0]), List.append_nil]
  obtain ⟨⟨vc, vt, hvcons, hvws⟩, -⟩ := matchValueToken_shape val hval
  have hwsTake : (ws ++ val).takeWhile isWsChar = ws := by
    rw [takeWhile_append_all ws val hwsA, hvcons, List.takeWhile_cons,
      if_neg (by simp [hvws]), List.append_nil]
  have hwsDrop : (ws ++ val).dropWhile isWsChar = val := by
    rw [dropWhile_append_all ws val hwsA, hvcons, List.dropWhile_cons,
      if_neg (by simp [hvws]), ← hvcons]
  have hne : ¬(ws.isEmpty = true) := by
    cases ws with
    | nil => exact absurd rfl hws0
    | cons a t => simp
  have hw0ne : w0 ≠ '{' := by
    intro hh'
    rw [hh'] at hw0
    exact absurd hw0 (by decide)
  rw [matchDataLine_eq _ c0 hhead, if_pos hs]
  simp only [hndrop]
  rw [brace_match_not (ws ++ val) w0 (wt ++ val) (by rw [hwcons, List.cons_append]) hw0ne]
  show (if ((ws ++ val).takeWhile isWsChar).isEmpty = true then none
      else if matchValueToken ((ws ++ val).dropWhile isWsChar) = true then
        some ((nm ++ (ws ++ val)).takeWhile isNameChar, ([] : List Char),
          (ws ++ val).dropWhile isWsChar)
      else none) = some (nm, [], val)
  rw [hwsTake, hwsDrop, hntake, if_neg hne, if_pos hval]

theorem parseLine_data (acc : List MetricSample) (line : List Char)
    (name labelsStr valueStr : List Char)
    (htrim : jsTrim line = line) (hne : line.isEmpty = false)
    (hhash : line.head? ≠ some '#')
    (hm : matchDataLine line = some (name, labelsStr, valueStr)) :
    parseLine acc line = acc ++ [{ name := String.mk name
                                   labels := scanLabels labelsStr []
                                   value := jsParseFloat valueStr }] := by
  unfold parseLine
  simp only [htrim]
  rw [if_neg (by simp [hne]), if_neg hhash]
  simp only [hm]

theorem parseLine_skip (acc : List MetricSample) (line : List Char)
    (h : jsTrim line = [] ∨ (jsTrim line).head? = some '#' ∨
      matchDataLine (jsTrim line) = none) :
    parseLine acc line = acc := by
  unfold parseLine
  rcases h with h | h | h
  · simp [h]
  · by_cases he : (jsTrim line).isEmpty = true
    · simp [he]
    · simp [he, h]
  · by_cases he : (jsTrim line).isEmpty = true
    · simp [he]
    · by_cases hh : (jsTrim line).head? = some '#'
      · simp [he, hh]
      · simp [he, hh, h]

theorem renderPairs_mem :
    ∀ (pairs : List (String × String)) (c : Char), c ∈ renderPairs pairs →
      (∃ p ∈ pairs, c ∈ p.1.data ∨ c ∈ p.2.data) ∨ c = '=' ∨ c = '"' ∨ c = ',' := by
  intro pairs
  induction pairs with
  | nil =>
      intro c hc
      simp [renderPairs] at hc
  | cons p rest ih =>
      intro c hc
      cases rest with
      | nil =>
          rw [show renderPairs [p] = (p.1.data ++ ('=' :: '"' :: p.2.data)) ++ ['"']
            from rfl] at hc
          rcases List.mem_append.mp hc with h1 | h1
          · rcases List.mem_append.mp h1 with h2 | h2
            · exact Or.inl ⟨p, List.mem_cons_self _ _, Or.inl h2⟩
            · simp at h2
              rcases h2 with h2 | h2 | h2
              · exact Or.inr (Or.inl h2)
              · exact Or.inr (Or.inr (Or.inl h2))
              · exact Or.inl ⟨p, List.mem_cons_self _ _, Or.inr h2⟩
          · simp at h1
            exact Or.inr (Or.inr (Or.inl h1))
      | cons q t =>
          rw [show renderPairs (p :: q :: t)
              = (p.1.data ++ ('=' :: '"' :: p.2.data)) ++ ('"' :: ',' :: renderPairs (q :: t))
            from rfl] at hc
          rcases List.mem_append.mp hc with h1 | h1
          · rcases List.mem_append.mp h1 with h2 | h2
            · exact Or.inl ⟨p, List.mem_cons_self _ _, Or.inl h2⟩
            · simp at h2
              rcases h2 with h2 | h2 | h2
              · exact Or.inr (Or.inl h2)
              · exact Or.inr (Or.inr (Or.inl h2))
              · exact Or.inl ⟨p, List.mem_cons_self _ _, Or.inr h2⟩
          · rcases List.mem_cons.mp h1 with h2 | h2
            · exact Or.inr (Or.inr (Or.inl h2))
            · rcases List.mem_cons.mp h2 with h3 | h3
              · exact Or.inr (Or.inr (Or.inr h3))
              · rcases ih c h3 with ⟨p', hp', hor⟩ | hsep
                · exact Or.inl ⟨p', List.mem_cons_of_mem _ hp', hor⟩
                · exact Or.inr hsep

/-- C8 (amended): a rendered data line `name{key="value",…} token` or
`name token` — name in `[a-zA-Z_:][a-zA-Z0-9_:]*`, label keys in
`[a-zA-Z_][a-zA-Z0-9_]*` with distinct names, label values free of `"`, `\`,
`}` and newline, whitespace gap nonempty, and token matching the value part
`-?[\d.eE+-]+(?:NaN|Inf|\+Inf|-Inf)?` — parses to exactly one sample carrying
that name, exactly those labels and `parseFloat` of the token; a single line
that trims to empty, starts with `#` or fails the regex yields no sample and
no error.  Contrary to the claim, the bare tokens `NaN` and `Inf` do NOT
match the value part (the mandatory `[\d.eE+-]+` cannot match them), so such
lines are dropped, and `+Inf`/`-Inf` match but `parseFloat` yields `NaN`, not
an infinity. -/
theorem C8_data_line_grammar :
    (∀ (nm : List Char) (pairs : List (String × String)) (ws val : List Char) (c0 : Char),
      nm.head? = some c0 → isNameStartChar c0 = true → (∀ c ∈ nm, isNameChar c = true) →
      (∀ p ∈ pairs, p.1.data ≠ [] ∧ isLabelKeyStart p.1.data.headI = true ∧
        (∀ c ∈ p.1.data, isLabelKeyChar c = true) ∧
        (∀ c ∈ p.2.data, isLabelValChar c = true ∧ c ≠ '}' ∧ c ≠ '\n')) →
      (pairs.map Prod.fst).Nodup →
      ws ≠ [] → (∀ c ∈ ws, isWsChar c = true) → '\n' ∉ ws →
      matchValueToken val = true →
      parsePrometheusText
        (String.mk (nm ++ ('{' :: (renderPairs pairs ++ ('}' :: (ws ++ val)))))) =
          [{ name := String.mk nm, labels := pairs, value := jsParseFloat val }] ∧
      parsePrometheusText (String.mk (nm ++ (ws ++ val))) =
          [{ name := String.mk nm, labels := [], value := jsParseFloat val }]) ∧
    (∀ cs : List Char, '\n' ∉ cs →
      (jsTrim cs = [] ∨ (jsTrim cs).head? = some '#' ∨ matchDataLine (jsTrim cs) = none) →
      parsePrometheusText (String.mk cs) = []) ∧
    (matchValueToken "NaN".data = false ∧ matchValueToken "Inf".data = false ∧
      matchValueToken "+Inf".data = true ∧ matchValueToken "-Inf".data = true ∧
      jsParseFloat "+Inf".data = JsNum.nan ∧ jsParseFloat "-Inf".data = JsNum.nan) := by
  refine ⟨?_, ?_, by decide⟩
  · intro nm pairs ws val c0 hc0 hs hnA hp hnd hws0 hwsA hwsNl hval
    obtain ⟨⟨vc, vt, hvcons, hvws⟩, ⟨vr, vrt, hvrev, hvrws⟩⟩ := matchValueToken_shape val hval
    have hvchars := matchValueToken_chars val hval
    have hvalNl : '\n' ∉ val := by
      intro hmem
      rcases hvchars '\n' hmem with h1 | h1 | h1 | h1 | h1 | h1 <;>
        exact absurd h1 (by decide)
    have hnmNl : '\n' ∉ nm := fun hmem => absurd (hnA '\n' hmem) (by decide)
    have hc0ws : isWsChar c0 = false := by
      cases hw : isWsChar c0
      · rfl
      · rw [wsChar_not_nameStart c0 hw] at hs
        exact absurd hs (by decide)
    have hinnerNl : '\n' ∉ renderPairs pairs := by
      intro hmem
      rcases renderPairs_mem pairs '\n' hmem with ⟨p, hp', hor⟩ | hsep
      · rcases hor with h1 | h1
        · exact absurd ((hp p hp').2.2.1 '\n' h1) (by decide)
        · exact ((hp p hp').2.2.2 '\n' h1).2.2 rfl
      · rcases hsep with h1 | h1 | h1 <;> exact absurd h1 (by decide)
    have hinnerBrace : ∀ c ∈ renderPairs pairs, c ≠ '}' := by
      intro c hmem hceq
      subst hceq
      rcases renderPairs_mem pairs '}' hmem with ⟨p, hp', hor⟩ | hsep
      · rcases hor with h1 | h1
        · exact absurd ((hp p hp').2.2.1 '}' h1) (by decide)
        · exact ((hp p hp').2.2.2 '}' h1).2.1 rfl
      · rcases hsep with h1 | h1 | h1 <;> exact absurd h1 (by decide)
    have hlabels : scanLabels (renderPairs pairs) [] = pairs := by
      rw [scanLabels_render pairs []
        (fun p hp' => ⟨(hp p hp').1, (hp p hp').2.1, (hp p hp').2.2.1,
          fun c hc => ((hp p hp').2.2.2 c hc).1⟩),
        foldl_mapSet_nodup pairs [] hnd (by simp), List.nil_append]
    constructor
    · have hm := matchDataLine_braced nm (renderPairs pairs) ws val c0 hc0 hs hnA
        hinnerBrace hws0 hwsA hval
      have hnl : '\n' ∉ nm ++ ('{' :: (renderPairs pairs ++ ('}' :: (ws ++ val)))) := by
        intro hmem
        rcases List.mem_append.mp hmem with h1 | h1
        · exact hnmNl h1
        · rcases List.mem_cons.mp h1 with h2 | h2
          · exact absurd h2 (by decide)
          · rcases List.mem_append.mp h2 with h3 | h3
            · exact hinnerNl h3
            · rcases List.mem_cons.mp h3 with h4 | h4
              · exact absurd h4 (by decide)
              · rcases List.mem_append.mp h4 with h5 | h5
                · exact hwsNl h5
                · exact hvalNl h5
      have hhead : (nm ++ ('{' :: (renderPairs pairs ++ ('}' :: (ws ++ val))))).head?
          = some c0 := by
        cases nm with
        | nil => simp at hc0
        | cons a t =>
            simp only [List.head?_cons, Option.some.injEq] at hc0
            subst hc0
            rfl
      have hrevhead :
          ((nm ++ ('{' :: (renderPairs pairs ++ ('}' :: (ws ++ val))))).reverse).head?
            = some vr := by
        apply reverse_head?_append
        apply reverse_head?_cons
        apply reverse_head?_append
        apply reverse_head?_cons
        apply reverse_head?_append
        rw [hvrev]
        rfl
      have htrim := jsTrim_eq_self _ c0 vr hhead hc0ws hrevhead hvrws
      have hlineNe :
          (nm ++ ('{' :: (renderPairs pairs ++ ('}' :: (ws ++ val))))).isEmpty = false := by
        cases nm with
        | nil => simp at hc0
        | cons a t => rfl
      have hhash :
          (nm ++ ('{' :: (renderPairs pairs ++ ('}' :: (ws ++ val))))).head? ≠ some '#' := by
        rw [hhead]
        intro hcon
        simp only [Option.some.injEq] at hcon
        rw [hcon] at hs
        exact absurd hs (by decide)
      unfold parsePrometheusText
      rw [show (String.mk (nm ++ ('{' :: (renderPairs pairs ++ ('}' :: (ws ++ val)))))).data
          = nm ++ ('{' :: (renderPairs pairs ++ ('}' :: (ws ++ val)))) from rfl]
      rw [splitLines_single _ hnl, List.foldl_cons, List.foldl_nil,
        parseLine_data [] _ nm (renderPairs pairs) val htrim hlineNe hhash hm,
        hlabels, List.nil_append]
    · have hm := matchDataLine_unbraced nm ws val c0 hc0 hs hnA hws0 hwsA hval
      have hnl : '\n' ∉ nm ++ (ws ++ val) := by
        intro hmem
        rcases List.mem_append.mp hmem with h1 | h1
        · exact hnmNl h1
        · rcases List.mem_append.mp h1 with h2 | h2
          · exact hwsNl h2
          · exact hvalNl h2
      have hhead : (nm ++ (ws ++ val)).head? = some c0 := by
        cases nm with
        | nil => simp at hc0
        | cons a t =>
            simp only [List.head?_cons, Option.some.injEq] at hc0
            subst hc0
            rfl
      have hrevhead : ((nm ++ (ws ++ val)).reverse).head? = some vr := by
        apply reverse_head?_append
        apply reverse_head?_append
        rw [hvrev]
        rfl
      have htrim := jsTrim_eq_self _ c0 vr hhead hc0ws hrevhead hvrws
      have hlineNe : (nm ++ (ws ++ val)).isEmpty = false := by
        cases nm with
        | nil => simp at hc0
        | cons a t => rfl
      have hhash : (nm ++ (ws ++ val)).head? ≠ some '#' := by
        rw [hhead]
        intro hcon
        simp only [Option.some.injEq] at hcon
        rw [hcon] at hs
        exact absurd hs (by decide)
      unfold parsePrometheusText
      rw [show (String.mk (nm ++ (ws ++ val))).data = nm ++ (ws ++ val) from rfl]
      rw [splitLines_single _ hnl, List.foldl_cons, List.foldl_nil,
        parseLine_data [] _ nm [] val htrim hlineNe hhash hm,
        scanLabels_nil, List.nil_append]
  · intro cs hnl h
    unfold parsePrometheusText
    rw [show (String.mk cs).data = cs from rfl, splitLines_single cs hnl,
      List.foldl_cons, List.foldl_nil, parseLine_skip [] cs h]

/-- C8 counterexample: data lines whose value token is the bare literal `NaN`
or `Inf` are dropped by the parser — the mandatory `[\d.eE+-]+` of the value
regex cannot match them — while the claim requires one sample per such
line. -/
theorem C8_bare_nan_inf_dropped :
    parsePrometheusText "foo NaN" = [] ∧ parsePrometheusText "foo Inf" = [] := by
  decide

def c8pairs : List (String × String) := [("path", "root.input")]

theorem C8_data_line_grammar_witness :
    parsePrometheusText
      (String.mk ("m".data ++ ('{' :: (renderPairs c8pairs ++ ('}' :: ([' '] ++ "5".data)))))) =
      [{ name := "m", labels := c8pairs, value := jsParseFloat "5".data }] := by
  exact (C8_data_line_grammar.1 "m".data c8pairs [' '] "5".data 'm'
    rfl (by decide) (by decide) (by decide) (by decide) (by decide) (by decide) (by decide)
    (by decide)).1

def c2cfg : BenthosConfig :=
  { input := some (CVal.obj [("http_server", CVal.obj [])])
    pipeline := some ⟨some [CVal.obj [("mapping", CVal.str "root = this")],
                            CVal.obj [("log", CVal.obj [])]]⟩
    output := some (CVal.obj [("kafka", CVal.obj [])])
    cache_resources := none
    rate_limit_resources := none }

theorem C2_processor_backbone_witness :
    (((configToGraph c2cfg).nodes.filter (fun n => n.type = NodeType.processor)).map
        (fun n => n.metricPath) =
      ["root.pipeline.processors.0", "root.pipeline.processors.1"]) ∧
    (∃ e ∈ (configToGraph c2cfg).edges, e.source = mkProcId 0 ∧ e.target = mkProcId 1) := by
  constructor
  · have h1 := (C2_processor_backbone c2cfg).1
    rw [h1]
    rfl
  · exact (C2_processor_backbone c2cfg).2.2.2.1 1 (by decide) (by decide)

end Flower
